import Mathlib

/-!
Verification of the lift-control simulation (IsaacCheng9/lift-control-simulation).

This file gives a shallow embedding of the dispatch engine in `src/src/app.py`
(and, for configuration saving, also the older `src/lift_control.py`), and
proves or refutes the frozen claims about it.

Modelling conventions:
* Python integers are `Int` (floors can go negative, which matters) or `Nat`
  for counts that the source never decrements below zero.
* Passenger dictionaries become the structure `Person`.  In the source all
  lists (`people_overview`, `people_lift`, `people_pending`) alias the same
  dictionary objects, and membership tests (`in` / `not in`) use structural
  dictionary equality.  Under the data-model invariant that ids are distinct,
  structural equality of two aliased records coincides with equality of their
  `id` fields, so `people_lift` and `people_pending` are embedded as lists of
  ids and `people_overview` as the single canonical store.  All theorems that
  quantify over passenger sets assume distinct ids (part of the data model).
* GUI updates, logging, `sleep` and JSON I/O are presentation-layer effects
  with no influence on the dispatch state and are dropped.
* Every `while` loop becomes a fuel-indexed recursion returning `Option`;
  `none` means the fuel ran out.  `for` loops over lists are structural
  recursions.
* The simulation functions also return a trace: the list of intermediate
  states (one snapshot after each elementary state change), so that
  "at every step" properties can be stated as properties of all trace
  entries.
-/

/-- Travel direction strings of the source: `"Up"`, `"Down"`, and the
`"None"` value produced by `collect_person_with_improved_algorithm` when the
lift is already at the head passenger's start floor. -/
inductive LDir where
  | Up : LDir
  | Down : LDir
  | NoDir : LDir
deriving DecidableEq, Repr

/-- A passenger record, mirroring the dictionaries produced by
`generate_new_sim`: `{"id", "start_floor", "target_floor", "current_floor",
"delivered", "direction"}`. -/
structure Person where
  id : Nat
  start_floor : Int
  target_floor : Int
  current_floor : Int
  delivered : Bool
  direction : LDir
deriving DecidableEq, Repr

/-- The mutable simulation state threaded through the dispatch functions:
the lift's floor, the naive algorithm's `lift_direction`, the aggregate
counters, the canonical passenger store `people_overview`, and the id lists
`people_lift` and `people_pending`. -/
structure Sim where
  lift_floor : Int
  lift_direction : LDir
  distance_travelled : Nat
  num_people_delivered : Nat
  num_in_lift : Int
  people_overview : List Person
  people_lift : List Nat
  people_pending : List Nat
deriving DecidableEq, Repr

/-- Look up the (first) passenger record with the given id, as the source's
`for person in people_overview: if person["id"] == ...` scans do. -/
def findPerson (people : List Person) (i : Nat) : Option Person :=
  people.find? (fun p => p.id == i)

/-- `mark_passenger_as_delivered`'s effect on the canonical store: set
`delivered = True` on every record with the given id. -/
def markDelivered (people : List Person) (i : Nat) : List Person :=
  people.map (fun p => if p.id == i then { p with delivered := true } else p)

/-- `update_current_floor_of_passengers`: every passenger aboard the lift has
`current_floor` set to the lift's floor. -/
def updateCurrentFloors (people : List Person) (lift : List Nat) (fl : Int) :
    List Person :=
  people.map (fun p => if lift.contains p.id then { p with current_floor := fl } else p)

/-- Board a passenger: append to `people_lift`, increment `num_in_lift`. -/
def boardPerson (s : Sim) (i : Nat) : Sim :=
  { s with people_lift := s.people_lift ++ [i], num_in_lift := s.num_in_lift + 1 }

/-- `mark_passenger_as_delivered`: decrement `num_in_lift`, increment
`num_people_delivered`, mark the record delivered, and remove the (first)
occurrence of the passenger from `people_lift`. -/
def dropPerson (s : Sim) (i : Nat) : Sim :=
  { s with
    num_in_lift := s.num_in_lift - 1
    num_people_delivered := s.num_people_delivered + 1
    people_overview := markDelivered s.people_overview i
    people_lift := s.people_lift.erase i }

/-- `switch_lift_direction_if_at_top_or_bottom_floor`: two sequential `if`s,
the second one inspecting the direction produced by the first. -/
def switch_lift_direction_if_at_top_or_bottom_floor (num_floors : Nat)
    (lift_floor : Int) (lift_direction : LDir) : LDir :=
  let d1 := if lift_floor = 0 ∧ lift_direction = LDir.Down then LDir.Up else lift_direction
  if lift_floor = (num_floors : Int) - 1 ∧ d1 = LDir.Up then LDir.Down else d1

/-- One lift move of the naive collect loop: move one floor in
`lift_direction`, count the distance, then apply the direction switch (which
inspects the floor reached by the move). -/
def naiveCollectMove (F : Nat) (s : Sim) : Sim :=
  let fl := s.lift_floor + (if s.lift_direction = LDir.Up then 1 else -1)
  { s with
    lift_floor := fl
    distance_travelled := s.distance_travelled + 1
    lift_direction := switch_lift_direction_if_at_top_or_bottom_floor F fl s.lift_direction }

/-- The `while self.lift_floor != person["start_floor"]` loop of
`collect_person_with_naive_algorithm`. -/
def naiveCollectLoop (F : Nat) (startT : Int) : Nat → Sim → Option (Sim × List Sim)
  | 0, s => if s.lift_floor = startT then some (s, []) else none
  | fuel + 1, s =>
    if s.lift_floor = startT then some (s, [])
    else
      let s1 := naiveCollectMove F s
      (naiveCollectLoop F startT fuel s1).map (fun r => (r.1, s1 :: r.2))

/-- `collect_person_with_naive_algorithm`: sweep until the anchor's start
floor is reached, then board the anchor. -/
def collect_person_with_naive_algorithm (F : Nat) (fuel : Nat) (s : Sim)
    (person : Person) : Option (Sim × List Sim) :=
  (naiveCollectLoop F person.start_floor fuel s).map (fun r =>
    let s1 := boardPerson r.1 person.id
    (s1, r.2 ++ [s1]))

/-- The en-route pickup scan of `deliver_person_with_naive_algorithm`: board
every waiting, undelivered passenger at the current floor travelling in the
anchor's direction.  Note there is no capacity check in the naive mode. -/
def naiveEnRouteScan (aDir : LDir) : List Person → Sim → Sim × List Sim
  | [], s => (s, [])
  | p :: rest, s =>
    if ¬ s.people_lift.contains p.id ∧ p.start_floor = s.lift_floor ∧
        p.delivered = false ∧ p.direction = aDir then
      let s1 := boardPerson s p.id
      let r := naiveEnRouteScan aDir rest s1
      (r.1, s1 :: r.2)
    else
      naiveEnRouteScan aDir rest s

/-- The drop-off scan shared shape of the naive algorithm: iterate over a
copy of `people_lift` and deliver everyone whose target floor is the current
floor. -/
def naiveDropScan : List Nat → Sim → Sim × List Sim
  | [], s => (s, [])
  | i :: rest, s =>
    match findPerson s.people_overview i with
    | none => naiveDropScan rest s
    | some p =>
      if p.target_floor = s.lift_floor then
        let s1 := dropPerson s i
        let r := naiveDropScan rest s1
        (r.1, s1 :: r.2)
      else
        naiveDropScan rest s

/-- One delivering move of the naive algorithm: move one floor in
`lift_direction`, update the aboard passengers' current floors, count the
distance, then apply the direction switch. -/
def naiveDeliverMove (F : Nat) (s : Sim) : Sim :=
  let fl := s.lift_floor + (if s.lift_direction = LDir.Up then 1 else -1)
  { s with
    lift_floor := fl
    people_overview := updateCurrentFloors s.people_overview s.people_lift fl
    distance_travelled := s.distance_travelled + 1
    lift_direction := switch_lift_direction_if_at_top_or_bottom_floor F fl s.lift_direction }

/-- `deliver_person_with_naive_algorithm`: while the lift is occupied, board
same-direction waiting passengers at the current floor, move one floor,
switch direction at the extremes, and drop off everyone whose target floor
was reached. -/
def deliver_person_with_naive_algorithm (F : Nat) (aDir : LDir) :
    Nat → Sim → Option (Sim × List Sim)
  | 0, s => if s.people_lift = [] then some (s, []) else none
  | fuel + 1, s =>
    if s.people_lift = [] then some (s, [])
    else
      let r1 := naiveEnRouteScan aDir s.people_overview s
      let s2 := naiveDeliverMove F r1.1
      let r3 := naiveDropScan s2.people_lift s2
      (deliver_person_with_naive_algorithm F aDir fuel r3.1).map (fun r =>
        (r.1, r1.2 ++ (s2 :: r3.2) ++ r.2))

/-- The `for person in people_overview` pass of
`run_simulation_with_naive_algorithm`: process each passenger position in
generation order; collect and then deliver each one that is still
undelivered when its turn comes. -/
def naiveForPass (F : Nat) (fuel : Nat) : List Nat → Sim → Option (Sim × List Sim)
  | [], s => some (s, [])
  | i :: rest, s =>
    match findPerson s.people_overview i with
    | none => naiveForPass F fuel rest s
    | some p =>
      if p.delivered then naiveForPass F fuel rest s
      else
        match collect_person_with_naive_algorithm F fuel s p with
        | none => none
        | some (s1, tr1) =>
          match deliver_person_with_naive_algorithm F p.direction fuel s1 with
          | none => none
          | some (s2, tr2) =>
            (naiveForPass F fuel rest s2).map (fun r => (r.1, tr1 ++ tr2 ++ r.2))

/-- The outer `while` loop of `run_simulation_with_naive_algorithm`: repeat
full passes while an undelivered passenger remains. -/
def naiveOuterLoop (F : Nat) (pids : List Nat) (passFuel : Nat) :
    Nat → Sim → Option (Sim × List Sim)
  | 0, s =>
    if s.people_overview.all (fun p => p.delivered) then some (s, []) else none
  | fuel + 1, s =>
    if s.people_overview.all (fun p => p.delivered) then some (s, [])
    else
      match naiveForPass F passFuel pids s with
      | none => none
      | some (s1, tr1) =>
        (naiveOuterLoop F pids passFuel fuel s1).map (fun r => (r.1, tr1 ++ r.2))

/-- The initial state of a run: lift at floor 0, the naive algorithm's
direction `"Up"`, all counters 0, nobody aboard or pending. -/
def initSim (people : List Person) : Sim :=
  { lift_floor := 0
    lift_direction := LDir.Up
    distance_travelled := 0
    num_people_delivered := 0
    num_in_lift := 0
    people_overview := people
    people_lift := []
    people_pending := [] }

/-- `run_simulation_with_naive_algorithm` on a passenger list, with the given
fuel for each loop.  Returns the final state and the trace of intermediate
states (the initial state first). -/
def run_simulation_with_naive_algorithm (F : Nat) (fuel : Nat)
    (people : List Person) : Option (Sim × List Sim) :=
  let s0 := initSim people
  (naiveOuterLoop F (people.map Person.id) fuel fuel s0).map (fun r =>
    (r.1, s0 :: r.2))

/-- The direction the improved algorithm computes toward the head pending
passenger's start floor: `"Up"`, `"Down"`, or `"None"` when already there. -/
def improvedDirection (headStart fl : Int) : LDir :=
  if headStart - fl > 0 then LDir.Up
  else if headStart - fl < 0 then LDir.Down
  else LDir.NoDir

/-- The en-route pending scan of `collect_person_with_improved_algorithm`:
append to `people_pending` every undelivered passenger, not already pending,
whose direction matches the travel direction and whose distance-to-target
from the current floor is at most the distance to the head pickup, provided
`len(people_lift) < lift_capacity - 1`. -/
def improvedPendingScan (cap : Nat) (d : LDir) (away : Int) :
    List Person → Sim → Sim
  | [], s => s
  | p :: rest, s =>
    if ¬ s.people_pending.contains p.id ∧
        (s.people_lift.length : Int) < (cap : Int) - 1 ∧
        p.delivered = false ∧ p.direction = d ∧
        |p.target_floor - s.lift_floor| ≤ away then
      improvedPendingScan cap d away rest
        { s with people_pending := s.people_pending ++ [p.id] }
    else
      improvedPendingScan cap d away rest s

/-- The pickup scan of `collect_person_with_improved_algorithm`: iterate over
a copy of `people_pending` and board (without any capacity check) everyone
standing at the current floor, removing them from the pending queue. -/
def improvedPickupScan : List Nat → Sim → Sim × List Sim
  | [], s => (s, [])
  | i :: rest, s =>
    match findPerson s.people_overview i with
    | none => improvedPickupScan rest s
    | some p =>
      if p.start_floor = s.lift_floor then
        let s1 := { boardPerson s i with people_pending := s.people_pending.erase i }
        let r := improvedPickupScan rest s1
        (r.1, s1 :: r.2)
      else
        improvedPickupScan rest s

/-- A lift move of the improved algorithm in direction `d`: one floor up when
`d = "Up"`, otherwise (`"Down"` or `"None"`) one floor down, followed by the
current-floor update of the aboard passengers and the distance count. -/
def improvedMove (d : LDir) (s : Sim) : Sim :=
  let fl := s.lift_floor + (if d = LDir.Up then 1 else -1)
  { s with
    lift_floor := fl
    people_overview := updateCurrentFloors s.people_overview s.people_lift fl
    distance_travelled := s.distance_travelled + 1 }

/-- `collect_person_with_improved_algorithm`: compute the direction toward
the head pending passenger, opportunistically extend the pending queue, board
every pending passenger at the current floor, and, if anyone is still
pending, move one floor (down when the direction is `"None"`, mirroring the
source's two-way `if`). -/
def collect_person_with_improved_algorithm (cap : Nat) (s : Sim) :
    Option (Sim × List Sim) :=
  match s.people_pending with
  | [] => none
  | h :: _ =>
    match findPerson s.people_overview h with
    | none => none
    | some hp =>
      let d := improvedDirection hp.start_floor s.lift_floor
      let away := |hp.start_floor - s.lift_floor|
      let s1 :=
        if d = LDir.NoDir then s
        else improvedPendingScan cap d away s.people_overview s
      let r2 := improvedPickupScan s1.people_pending s1
      if r2.1.people_pending = [] then some (r2.1, s1 :: r2.2)
      else
        let s3 := improvedMove d r2.1
        some (s3, s1 :: r2.2 ++ [s3])

/-- The drop-off scan of `deliver_person_with_improved_algorithm`: deliver
everyone whose target floor is the current floor, and remove each delivered
passenger from `people_pending` as well in the same step. -/
def improvedDropScan : List Nat → Sim → Sim × List Sim
  | [], s => (s, [])
  | i :: rest, s =>
    match findPerson s.people_overview i with
    | none => improvedDropScan rest s
    | some p =>
      if p.target_floor = s.lift_floor then
        let s0 := dropPerson s i
        let s1 :=
          if s.people_pending.contains i then
            { s0 with people_pending := s0.people_pending.erase i }
          else s0
        let r := improvedDropScan rest s1
        (r.1, s1 :: r.2)
      else
        improvedDropScan rest s

/-- The en-route boarding scan of `deliver_person_with_improved_algorithm`:
board every waiting, undelivered passenger at the current floor whose
direction matches the direction of the first passenger in the lift, as long
as `len(people_lift) < lift_capacity`. -/
def improvedBoardScan (cap : Nat) (hDir : LDir) : List Person → Sim → Sim × List Sim
  | [], s => (s, [])
  | p :: rest, s =>
    if ¬ s.people_lift.contains p.id ∧
        (s.people_lift.length : Int) < (cap : Int) ∧
        p.start_floor = s.lift_floor ∧ p.delivered = false ∧ p.direction = hDir then
      let s1 := boardPerson s p.id
      let r := improvedBoardScan cap hDir rest s1
      (r.1, s1 :: r.2)
    else
      improvedBoardScan cap hDir rest s

/-- `deliver_person_with_improved_algorithm`: while the lift is occupied,
drop off everyone whose target floor was reached (removing them from the
pending queue too), then board same-direction waiting passengers subject to
the capacity bound, then move one floor in the direction of the first
passenger in the lift. -/
def deliver_person_with_improved_algorithm (cap : Nat) :
    Nat → Sim → Option (Sim × List Sim)
  | 0, s => if s.people_lift = [] then some (s, []) else none
  | fuel + 1, s =>
    if s.people_lift = [] then some (s, [])
    else
      let r1 := improvedDropScan s.people_lift s
      match r1.1.people_lift with
      | [] => some (r1.1, r1.2)
      | h0 :: _ =>
        match findPerson r1.1.people_overview h0 with
        | none => none
        | some p0 =>
          let r2 := improvedBoardScan cap p0.direction r1.1.people_overview r1.1
          let s3 := improvedMove p0.direction r2.1
          (deliver_person_with_improved_algorithm cap fuel s3).map (fun r =>
            (r.1, r1.2 ++ r2.2 ++ [s3] ++ r.2))

/-- The seeding step of the improved outer loop: append the first
undelivered passenger (in generation order) to the empty pending queue. -/
def improvedSeed (s : Sim) : Sim :=
  match s.people_overview.find? (fun p => !p.delivered) with
  | none => s
  | some p => { s with people_pending := s.people_pending ++ [p.id] }

/-- The outer `while` loop of `run_simulation_with_improved_algorithm`. -/
def improvedOuterLoop (cap : Nat) (delFuel : Nat) :
    Nat → Sim → Option (Sim × List Sim)
  | 0, s =>
    if s.people_overview.all (fun p => p.delivered) then some (s, []) else none
  | fuel + 1, s =>
    if s.people_overview.all (fun p => p.delivered) then some (s, [])
    else
      if s.people_pending = [] then
        let s1 := improvedSeed s
        (improvedOuterLoop cap delFuel fuel s1).map (fun r => (r.1, s1 :: r.2))
      else
        match collect_person_with_improved_algorithm cap s with
        | none => none
        | some (s1, tr1) =>
          match deliver_person_with_improved_algorithm cap delFuel s1 with
          | none => none
          | some (s2, tr2) =>
            (improvedOuterLoop cap delFuel fuel s2).map (fun r =>
              (r.1, tr1 ++ tr2 ++ r.2))

/-- `run_simulation_with_improved_algorithm` on a passenger list.  Returns
the final state and the trace of intermediate states (initial state
first). -/
def run_simulation_with_improved_algorithm (cap : Nat) (fuel : Nat)
    (people : List Person) : Option (Sim × List Sim) :=
  let s0 := initSim people
  (improvedOuterLoop cap fuel fuel s0).map (fun r => (r.1, s0 :: r.2))

/-- One draw of the pseudo-random source, modelling
`random.randrange(0, num_floors)`: the source stream `r` is consumed one
value per call, reduced into the range `[0, num_floors)`. -/
def randDraw (r : Nat → Nat) (F : Nat) (k : Nat) : Nat := r k % F

/-- The rejection-sampling loop of `generate_new_sim`: redraw
`target_floor` until it differs from `start_floor`.  Returns the accepted
target and the next unread stream position. -/
def resampleTarget (r : Nat → Nat) (F : Nat) (start : Nat) :
    Nat → Nat → Option (Nat × Nat)
  | 0, _ => none
  | fuel + 1, k =>
    let t := randDraw r F k
    if start ≠ t then some (t, k + 1) else resampleTarget r F start fuel (k + 1)

/-- `generate_new_sim`'s generation loop: produce the people with ids
`i, i+1, ...` (`m` of them), reading the random stream from position `k`.
Each person gets a random start floor, a rejection-sampled distinct target
floor, `current_floor = start_floor`, `delivered = False` and the derived
direction. -/
def generate_new_sim (F : Nat) (r : Nat → Nat) (fuel : Nat) :
    Nat → Nat → Nat → Option (List Person)
  | _, 0, _ => some []
  | i, m + 1, k =>
    let s := randDraw r F k
    match resampleTarget r F s fuel (k + 1) with
    | none => none
    | some (t, k2) =>
      let d := if (t : Int) - (s : Int) > 0 then LDir.Up else LDir.Down
      (generate_new_sim F r fuel (i + 1) m k2).map
        (fun rest => ⟨i, (s : Int), (t : Int), (s : Int), false, d⟩ :: rest)

/-- A fairness assumption on the modelled random stream: from any position
on, the stream eventually produces a value (mod `F`) different from any
given one.  The uniform generator of the source has this property with
probability 1; it is what makes the rejection sampling terminate. -/
def FairStream (r : Nat → Nat) (F : Nat) : Prop :=
  ∀ k v, ∃ j, k ≤ j ∧ r j % F ≠ v

/-- The stored simulation configuration of the main window
(`self.num_floors`, `self.num_people`, `self.lift_capacity`,
`self.ui_delay`).  The source stores the delay in seconds as `ms / 1000`;
here it is kept in integral milliseconds, which is the value the validation
logic inspects. -/
structure SavedConfig where
  num_floors : Int
  num_people : Int
  lift_capacity : Int
  ui_delay_ms : Int
deriving DecidableEq, Repr

/-- `save_sim` of `src/src/app.py`: the four text inputs (`none` models an
empty text field), validated by the `if`/`elif` chain; on success the new
configuration replaces the stored one, on any failure only a message label
is set and the stored configuration is returned unchanged. -/
def save_sim_app (nf np lc ud : Option Int) (st : SavedConfig) :
    SavedConfig × Bool :=
  match nf, np, lc, ud with
  | some a, some b, some c, some d =>
    if a ≤ 1 then (st, false)
    else if b ≤ 0 then (st, false)
    else if c ≤ 0 then (st, false)
    else if d ≤ 0 then (st, false)
    else (⟨a, b, c, d⟩, true)
  | _, _, _, _ => (st, false)

/-- The stored configuration of `src/lift_control.py`'s main window: the raw
text-field contents (`none` models an empty field). -/
structure SavedConfigLC where
  num_floors : Option Int
  num_people : Option Int
  lift_capacity : Option Int
  ui_delay : Option Int
deriving DecidableEq, Repr

/-- `save_sim` of `src/lift_control.py`: the stored configuration fields are
overwritten with the raw inputs *before* any validation runs.  The result's
second component is `some accepted` for a normal return and `none` for the
`ValueError` the source raises when an `elif` applies `int` to an empty
field. -/
def save_sim_lift_control (nf np lc ud : Option Int) (_st : SavedConfigLC) :
    SavedConfigLC × Option Bool :=
  let st1 : SavedConfigLC := ⟨nf, np, lc, ud⟩
  match nf, np, lc, ud with
  | some a, some b, some c, some d =>
    if a > 1 ∧ b > 0 ∧ c > 0 ∧ d > 0 then (st1, some true)
    else if a ≤ 1 then (st1, some false)
    else if b ≤ 0 then (st1, some false)
    else if c ≤ 0 then (st1, some false)
    else if d ≤ 0 then (st1, some false)
    else (st1, some false)
  | none, _, _, _ => (st1, none)
  | some a, np', lc', ud' =>
    if a ≤ 1 then (st1, some false)
    else
      match np', lc', ud' with
      | none, _, _ => (st1, none)
      | some b, lc'', ud'' =>
        if b ≤ 0 then (st1, some false)
        else
          match lc'', ud'' with
          | none, _ => (st1, none)
          | some c, ud3 =>
            if c ≤ 0 then (st1, some false)
            else
              match ud3 with
              | none => (st1, none)
              | some _ => (st1, some false)

/-- The acceptance predicate the specification describes (written from the
spec's words, for comparison with the source's `save_sim`): all four fields
present, `num_floors ≥ 2`, `num_people ≥ 1`, `lift_capacity ≥ 1`,
`step_delay ≥ 0`. -/
def spec_accepts (nf np lc ud : Option Int) : Bool :=
  match nf, np, lc, ud with
  | some a, some b, some c, some d => 2 ≤ a ∧ 1 ≤ b ∧ 1 ≤ c ∧ 0 ≤ d
  | _, _, _, _ => false

/-- The immutable per-passenger part of the data-model invariants: floors in
range, distinct start and target, and the direction derived from them
exactly as `generate_new_sim` does. -/
def CorePerson (F : Nat) (p : Person) : Prop :=
  0 ≤ p.start_floor ∧ p.start_floor < (F : Int) ∧
  0 ≤ p.target_floor ∧ p.target_floor < (F : Int) ∧
  p.start_floor ≠ p.target_floor ∧
  p.direction = (if p.target_floor - p.start_floor > 0 then LDir.Up else LDir.Down)

instance (F : Nat) (p : Person) : Decidable (CorePerson F p) := by
  unfold CorePerson; infer_instance

/-- A freshly generated passenger: the immutable core plus the initial
mutable fields (`current_floor = start_floor`, `delivered = False`). -/
def ValidPerson (F : Nat) (p : Person) : Prop :=
  CorePerson F p ∧ p.current_floor = p.start_floor ∧ p.delivered = false

instance (F : Nat) (p : Person) : Decidable (ValidPerson F p) := by
  unfold ValidPerson; infer_instance

/-- A valid initial passenger set: pairwise distinct ids and every record
valid. -/
def ValidPeople (F : Nat) (people : List Person) : Prop :=
  (people.map Person.id).Nodup ∧ ∀ p ∈ people, ValidPerson F p

instance (F : Nat) (people : List Person) : Decidable (ValidPeople F people) := by
  unfold ValidPeople; infer_instance

/-- The passenger set of the spec's Scenario B. -/
def scenarioBPeople : List Person :=
  [⟨0, 0, 4, 0, false, LDir.Up⟩, ⟨1, 4, 0, 4, false, LDir.Down⟩]

/-- A valid passenger set on which the improved dispatcher with
`lift_capacity = 2` boards three passengers at once: three same-direction
passengers wait at floor 0 while the head pending passenger is at floor 3,
so all three are appended to `people_pending` and then boarded together by
the pickup scan, which has no capacity check. -/
def capacityCexPeople : List Person :=
  [⟨0, 3, 4, 3, false, LDir.Up⟩,
   ⟨1, 0, 1, 0, false, LDir.Up⟩,
   ⟨2, 0, 1, 0, false, LDir.Up⟩,
   ⟨3, 0, 1, 0, false, LDir.Up⟩]

/-- A valid passenger set (7 floors, capacity 2) on which the improved
dispatcher drives the lift to floor `-1`: passenger 3 (start floor 0) ends
up at the head of the pending queue with passenger 4 still pending behind
it, so when the lift boards passenger 3 at floor 0 the `"None"` direction
falls into the downward branch and the lift moves below the bottom floor. -/
def floorCexPeople : List Person :=
  [⟨0, 1, 2, 1, false, LDir.Up⟩,
   ⟨1, 1, 2, 1, false, LDir.Up⟩,
   ⟨2, 6, 0, 6, false, LDir.Down⟩,
   ⟨3, 0, 4, 0, false, LDir.Up⟩,
   ⟨4, 1, 6, 1, false, LDir.Up⟩]

/-- A malformed passenger record: `start_floor == target_floor`, violating
the data-model invariant. -/
def malformedPeople : List Person := [⟨0, 0, 0, 0, false, LDir.Down⟩]

/-- The number of undelivered passengers of a state: the quantity every
delivery strictly decreases, used as the outer termination measure. -/
def uCount (s : Sim) : Nat :=
  (s.people_overview.filter (fun p => !p.delivered)).length

/-- A passenger's target floor has not been passed: an `Up` passenger's
target is at or above the lift, a `Down` passenger's at or below.  Every
aboard passenger satisfies this, which is why moving in the head passenger's
direction reaches the head's target. -/
def sideOK (p : Person) (fl : Int) : Prop :=
  (p.direction = LDir.Up → fl ≤ p.target_floor) ∧
  (p.direction = LDir.Down → p.target_floor ≤ fl)

/-- The direction is consistent with the floor after
`switch_lift_direction_if_at_top_or_bottom_floor` ran: going up only below
the top floor, going down only above the bottom floor. -/
def dirOK (F : Nat) (fl : Int) (d : LDir) : Prop :=
  (d = LDir.Up ∧ fl ≠ (F : Int) - 1) ∨ (d = LDir.Down ∧ fl ≠ 0)

/-- The naive algorithm's lift-position invariant: the floor stays within
`[0, num_floors - 1]` and the direction is consistent with the floor. -/
def NInv (F : Nat) (s : Sim) : Prop :=
  0 ≤ s.lift_floor ∧ s.lift_floor ≤ (F : Int) - 1 ∧
  dirOK F s.lift_floor s.lift_direction

/-- The improved algorithm's floor bounds: the lift can fall one floor below
the bottom (see the floor counterexample) but no further, and never exceeds
the top floor. -/
def FloorOK (F : Nat) (s : Sim) : Prop :=
  -1 ≤ s.lift_floor ∧ s.lift_floor ≤ (F : Int) - 1

/-- The id projection of the canonical store never changes during a run. -/
def IdsOK (ids0 : List Nat) (s : Sim) : Prop :=
  s.people_overview.map Person.id = ids0

/-- Every record of the store keeps the immutable core invariants. -/
def CoresOK (F : Nat) (s : Sim) : Prop :=
  ∀ p ∈ s.people_overview, CorePerson F p

/-- The delivered counter agrees with the store. -/
def CntOK (s : Sim) : Prop :=
  s.num_people_delivered = (s.people_overview.filter (fun p => p.delivered)).length

/-- The lift list is duplicate-free and everyone aboard is an existing,
undelivered passenger. -/
def LiftOK (s : Sim) : Prop :=
  s.people_lift.Nodup ∧
  ∀ i ∈ s.people_lift, ∃ p, findPerson s.people_overview i = some p ∧
    p.delivered = false

/-- Everyone aboard still has their target ahead (in the `sideOK` sense). -/
def LiftSideOK (s : Sim) : Prop :=
  ∀ i ∈ s.people_lift, ∃ p, findPerson s.people_overview i = some p ∧
    sideOK p s.lift_floor

/-- The pending queue is duplicate-free and everyone pending is an existing,
undelivered passenger (claim C10's invariant). -/
def PendOK (s : Sim) : Prop :=
  s.people_pending.Nodup ∧
  ∀ i ∈ s.people_pending, ∃ p, findPerson s.people_overview i = some p ∧
    p.delivered = false

/-- The master invariant of the improved algorithm's reachable states. -/
def IInv (F : Nat) (ids0 : List Nat) (s : Sim) : Prop :=
  IdsOK ids0 s ∧ CoresOK F s ∧ CntOK s ∧ LiftOK s ∧ LiftSideOK s ∧
  PendOK s ∧ FloorOK F s

/-- The master invariant of the naive algorithm's reachable states (the
pending queue is unused and stays empty). -/
def NInvAll (F : Nat) (ids0 : List Nat) (s : Sim) : Prop :=
  IdsOK ids0 s ∧ CoresOK F s ∧ CntOK s ∧ LiftOK s ∧ NInv F s ∧
  s.people_pending = []

/-- The number of moves a sweeping lift (one that reverses only at the
extreme floors) needs to reach floor `t` from floor `fl` going in direction
`d`. -/
def sweepSteps (F : Nat) (fl : Int) (d : LDir) (t : Int) : Nat :=
  match d with
  | LDir.Up =>
    if fl ≤ t then (t - fl).toNat
    else ((F : Int) - 1 - fl).toNat + ((F : Int) - 1 - t).toNat
  | _ =>
    if t ≤ fl then (fl - t).toNat
    else fl.toNat + t.toNat

/-- The sweep distance from the lift to the target floor of the first
passenger aboard (0 when the lift is empty): the naive deliver loop's
termination measure component. -/
def headSweep (F : Nat) (s : Sim) : Nat :=
  match s.people_lift with
  | [] => 0
  | h :: _ =>
    match findPerson s.people_overview h with
    | some p => sweepSteps F s.lift_floor s.lift_direction p.target_floor
    | none => 0

/-- The straight-line distance from the lift to the target floor of the
first passenger aboard (0 when the lift is empty): the improved deliver
loop's termination measure component. -/
def headTargetDist (s : Sim) : Nat :=
  match s.people_lift with
  | [] => 0
  | h :: _ =>
    match findPerson s.people_overview h with
    | some p => (p.target_floor - s.lift_floor).natAbs
    | none => 0

/-- The straight-line distance from the lift to the start floor of the head
pending passenger (0 when nothing is pending): the improved outer loop's
termination measure component. -/
def headStartDist (s : Sim) : Nat :=
  match s.people_pending with
  | [] => 0
  | h :: _ =>
    match findPerson s.people_overview h with
    | some p => (p.start_floor - s.lift_floor).natAbs
    | none => 0

/-- Passenger `i` exists in the store and is marked delivered.  Delivery is
monotone: once this holds it holds for the rest of the run. -/
def DelivTrue (s : Sim) (i : Nat) : Prop :=
  ∃ p, findPerson s.people_overview i = some p ∧ p.delivered = true

-- ======================================================================
-- Theorems
-- ======================================================================

/-- C6: on Scenario B (`num_floors = 5`, passengers `0: 0→4` and `1: 4→0`)
the naive dispatcher collects passenger 0 first (at floor 0, no movement),
travels 0→4 delivering passenger 0 (distance 4), boards passenger 1 at
floor 4 with no extra movement, travels 4→0 delivering passenger 1, and
finishes with both delivered and total distance exactly 8.  The asserted
trace lists `(lift_floor, people_lift, distance_travelled)` after every
elementary step of the run. -/
theorem naive_scenario_b :
    (run_simulation_with_naive_algorithm 5 100 scenarioBPeople).map
      (fun r => (r.1.distance_travelled, r.1.num_people_delivered,
        r.1.people_overview.all (fun p => p.delivered),
        r.2.map (fun s => (s.lift_floor, s.people_lift, s.distance_travelled)))) =
    some (8, 2, true,
      [(0, [], 0), (0, [0], 0), (1, [0], 1), (2, [0], 2), (3, [0], 3),
       (4, [0], 4), (4, [], 4), (4, [1], 4), (3, [1], 5), (2, [1], 6),
       (1, [1], 7), (0, [1], 8), (0, [], 8)]) := by
  rfl

/-- C8: the passenger generator is deterministic in the random source: two
generation runs with the same floor count, the same fuel, the same person
range and the same pseudo-random stream read from the same position produce
identical passenger lists. -/
theorem generate_new_sim_deterministic (F : Nat) (r1 r2 : Nat → Nat)
    (fuel i m k : Nat) (h : ∀ j, r1 j = r2 j) :
    generate_new_sim F r1 fuel i m k = generate_new_sim F r2 fuel i m k := by
  have hr : r1 = r2 := funext h
  subst hr
  rfl

/-- Witness for C8 at a concrete stream: the identity stream compared with
itself, one passenger over two floors. -/
theorem generate_new_sim_deterministic_witness :
    generate_new_sim 2 (fun j => j) 5 0 1 0 = generate_new_sim 2 (fun j => j) 5 0 1 0 :=
  generate_new_sim_deterministic 2 (fun j => j) (fun j => j) 5 0 1 0 (fun _ => rfl)

/-- Counterexample to C4: a configuration with `step_delay = 0` and the
other fields in range is accepted by the specification's predicate but
rejected by `save_sim` in `src/src/app.py` (which demands at least one
millisecond); moreover `save_sim` in `src/lift_control.py` overwrites the
stored configuration with the raw inputs even though it rejects them. -/
theorem save_sim_zero_delay_cex :
    spec_accepts (some 5) (some 5) (some 5) (some 0) = true ∧
    (save_sim_app (some 5) (some 5) (some 5) (some 0) ⟨5, 10, 5, 500⟩).2 = false ∧
    (save_sim_lift_control (some 5) (some 5) (some 5) (some 0)
      ⟨some 5, some 10, some 5, some 500⟩).1 ≠
      ⟨some 5, some 10, some 5, some 500⟩ := by
  refine ⟨rfl, rfl, ?_⟩
  decide

/-- C4 (amended): `save_sim` of `src/src/app.py` accepts exactly the inputs
with all four fields present, `num_floors ≥ 2`, `num_people ≥ 1`,
`lift_capacity ≥ 1` and `ui_delay ≥ 1` (a zero delay is rejected); on
rejection it leaves the stored configuration unchanged.  `save_sim` of
`src/lift_control.py` instead always overwrites the stored configuration
with the raw inputs, before validating them. -/
theorem save_sim_validation (nf np lc ud : Option Int) (st : SavedConfig)
    (stlc : SavedConfigLC) :
    ((save_sim_app nf np lc ud st).2 = true ↔
      ∃ a b c d, nf = some a ∧ np = some b ∧ lc = some c ∧ ud = some d ∧
        2 ≤ a ∧ 1 ≤ b ∧ 1 ≤ c ∧ 1 ≤ d) ∧
    ((save_sim_app nf np lc ud st).2 = false →
      (save_sim_app nf np lc ud st).1 = st) ∧
    (save_sim_lift_control nf np lc ud stlc).1 = ⟨nf, np, lc, ud⟩ := by
  refine ⟨?_, ?_, ?_⟩
  · obtain _ | a := nf <;> obtain _ | b := np <;> obtain _ | c := lc <;>
      obtain _ | d := ud <;> simp only [save_sim_app] <;>
      [skip; skip; skip; skip; skip; skip; skip; skip; skip; skip; skip;
       skip; skip; skip; skip;
       (split_ifs with h1 h2 h3 h4)] <;> simp <;> omega
  · intro hrej
    obtain _ | a := nf <;> obtain _ | b := np <;> obtain _ | c := lc <;>
      obtain _ | d := ud <;> simp only [save_sim_app] at hrej ⊢ <;> try rfl
    split_ifs at hrej ⊢ <;> simp_all
  · obtain _ | a := nf <;> obtain _ | b := np <;> obtain _ | c := lc <;>
      obtain _ | d := ud <;> simp only [save_sim_lift_control] <;>
      split_ifs <;> rfl

/-- Witness for C4 (amended): applying the validation theorem at the
rejected zero-delay input shows the stored configuration is returned
unchanged. -/
theorem save_sim_validation_witness :
    (save_sim_app (some 5) (some 5) (some 5) (some 0) ⟨5, 10, 5, 500⟩).1 =
      ⟨5, 10, 5, 500⟩ :=
  (save_sim_validation (some 5) (some 5) (some 5) (some 0) ⟨5, 10, 5, 500⟩
    ⟨none, none, none, none⟩).2.1 (by decide)

/-- Counterexample to C5: on a passenger set violating the data-model
invariants (`start_floor == target_floor`), neither dispatcher refuses to
run: both simulate to completion and mark the malformed passenger
delivered. -/
theorem dispatchers_no_refusal_cex :
    ¬ ValidPeople 2 malformedPeople ∧
    (run_simulation_with_naive_algorithm 2 50 malformedPeople).map
      (fun r => (r.1.distance_travelled, r.1.people_overview.all (fun p => p.delivered))) =
      some (2, true) ∧
    (run_simulation_with_improved_algorithm 1 50 malformedPeople).map
      (fun r => (r.1.distance_travelled, r.1.people_overview.all (fun p => p.delivered))) =
      some (0, true) := by
  refine ⟨by decide, rfl, rfl⟩

/-- C5 (amended): the dispatchers perform no validation of the passenger
records: on the malformed record with `start_floor == target_floor == 0`
the naive dispatcher boards it at floor 0, sweeps 0→1→0 and marks it
delivered (distance 2), and the improved dispatcher boards it and drops it
off immediately without moving (distance 0); no error path exists. -/
theorem dispatchers_process_malformed :
    (run_simulation_with_naive_algorithm 2 50 malformedPeople).map
      (fun r => (r.1.num_people_delivered, r.1.distance_travelled,
        r.2.map (fun s => s.lift_floor))) = some (1, 2, [0, 0, 1, 0, 0]) ∧
    (run_simulation_with_improved_algorithm 1 50 malformedPeople).map
      (fun r => (r.1.num_people_delivered, r.1.distance_travelled,
        r.2.map (fun s => s.lift_floor))) = some (1, 0, [0, 0, 0, 0, 0]) := by
  exact ⟨rfl, rfl⟩

/-- Counterexample to C1: on a valid 4-passenger set over 5 floors with
`lift_capacity = 2`, the improved dispatcher's run contains a step at which
three passengers are aboard simultaneously: the collect-phase pickup scan
boards every pending passenger standing at the current floor without any
capacity check. -/
theorem improved_capacity_exceeded_cex :
    ValidPeople 5 capacityCexPeople ∧
    (run_simulation_with_improved_algorithm 2 100 capacityCexPeople).map
      (fun r => r.2.any (fun s => decide (2 < s.people_lift.length))) =
      some true := by
  exact ⟨by decide, rfl⟩

/-- Counterexample to C2: on a valid 5-passenger set over 7 floors with
`lift_capacity = 2`, the improved dispatcher's run contains a step at which
the lift's floor is `-1`, below the valid range `[0, num_floors - 1]`. -/
theorem improved_floor_below_zero_cex :
    ValidPeople 7 floorCexPeople ∧
    (run_simulation_with_improved_algorithm 2 100 floorCexPeople).map
      (fun r => r.2.any (fun s => decide (s.lift_floor < 0))) = some true := by
  exact ⟨by decide, rfl⟩

-- ----------------------------------------------------------------------
-- Store lemmas: `findPerson`, `markDelivered`, `updateCurrentFloors`
-- ----------------------------------------------------------------------

theorem findPerson_mem {people : List Person} {i : Nat} {p : Person}
    (h : findPerson people i = some p) : p ∈ people ∧ p.id = i := by
  refine ⟨List.mem_of_find?_eq_some h, ?_⟩
  have hb := List.find?_some h
  simpa using hb

theorem findPerson_self {people : List Person}
    (hn : (people.map Person.id).Nodup) {p : Person} (hp : p ∈ people) :
    findPerson people p.id = some p := by
  induction people with
  | nil => cases hp
  | cons q rest ih =>
    simp only [List.map_cons, List.nodup_cons] at hn
    rcases List.mem_cons.mp hp with h | h
    · subst h
      simp [findPerson]
    · have hq : (q.id == p.id) = false := by
        rw [beq_eq_false_iff_ne]
        intro he
        exact hn.1 (he ▸ List.mem_map_of_mem Person.id h)
      simpa [findPerson, List.find?_cons, hq] using ih hn.2 h

theorem findPerson_isSome_of_mem_ids {people : List Person} {i : Nat}
    (h : i ∈ people.map Person.id) :
    ∃ p, findPerson people i = some p ∧ p.id = i := by
  induction people with
  | nil => simp at h
  | cons q rest ih =>
    by_cases hq : (q.id == i) = true
    · exact ⟨q, by simp [findPerson, List.find?_cons, hq], by simpa using hq⟩
    · have h' : i ∈ rest.map Person.id := by
        simp only [List.map_cons, List.mem_cons] at h
        rcases h with h | h
        · exact absurd (by simp [h]) hq
        · exact h
      rcases ih h' with ⟨p', h1, h2⟩
      refine ⟨p', ?_, h2⟩
      simpa [findPerson, List.find?_cons, hq] using h1

theorem markDelivered_map_id (ps : List Person) (i : Nat) :
    (markDelivered ps i).map Person.id = ps.map Person.id := by
  simp only [markDelivered, List.map_map]
  exact List.map_congr_left (fun p _ => by simp only [Function.comp]; split <;> rfl)

theorem updateCurrentFloors_map_id (ps : List Person) (l : List Nat) (fl : Int) :
    (updateCurrentFloors ps l fl).map Person.id = ps.map Person.id := by
  simp only [updateCurrentFloors, List.map_map]
  exact List.map_congr_left (fun p _ => by simp only [Function.comp]; split <;> rfl)

theorem findPerson_markDelivered (ps : List Person) (j i : Nat) :
    findPerson (markDelivered ps j) i =
      (findPerson ps i).map
        (fun p => if p.id == j then { p with delivered := true } else p) := by
  simp only [markDelivered, findPerson, List.find?_map]
  have hc : ((fun p : Person => p.id == i) ∘
      (fun p => if p.id == j then { p with delivered := true } else p)) =
      (fun p : Person => p.id == i) := by
    funext p
    simp only [Function.comp_apply]
    split <;> rfl
  rw [hc]

theorem findPerson_updateCurrentFloors (ps : List Person) (l : List Nat)
    (fl : Int) (i : Nat) :
    findPerson (updateCurrentFloors ps l fl) i =
      (findPerson ps i).map
        (fun p => if l.contains p.id then { p with current_floor := fl } else p) := by
  simp only [updateCurrentFloors, findPerson, List.find?_map]
  have hc : ((fun p : Person => p.id == i) ∘
      (fun p => if l.contains p.id then { p with current_floor := fl } else p)) =
      (fun p : Person => p.id == i) := by
    funext p
    simp only [Function.comp_apply]
    split <;> rfl
  rw [hc]

theorem findPerson_markDelivered_self {ps : List Person} {i : Nat} {p : Person}
    (h : findPerson ps i = some p) :
    findPerson (markDelivered ps i) i = some { p with delivered := true } := by
  rw [findPerson_markDelivered, h]
  have hid : p.id = i := (findPerson_mem h).2
  simp [hid]

theorem findPerson_markDelivered_ne {ps : List Person} {i j : Nat} (hne : j ≠ i) :
    findPerson (markDelivered ps i) j = findPerson ps j := by
  rw [findPerson_markDelivered]
  cases h : findPerson ps j with
  | none => rfl
  | some p =>
    have hid : p.id = j := (findPerson_mem h).2
    simp [hid, hne]

theorem markDelivered_eq_of_absent {ps : List Person} {i : Nat}
    (h : ∀ q ∈ ps, q.id ≠ i) : markDelivered ps i = ps := by
  unfold markDelivered
  rw [show ps.map (fun p => if p.id == i then { p with delivered := true } else p) =
      ps.map (fun p => p) from
    List.map_congr_left (fun p hp => by simp [h p hp])]
  simp

theorem length_filter_map_of_delivered_eq (g : Person → Person)
    (hg : ∀ p, (g p).delivered = p.delivered) (pred : Bool → Bool)
    (ps : List Person) :
    ((ps.map g).filter (fun q => pred q.delivered)).length =
      (ps.filter (fun q => pred q.delivered)).length := by
  induction ps with
  | nil => rfl
  | cons q rest ih =>
    simp only [List.map_cons, List.filter_cons, hg]
    split <;> simp [ih]

theorem filter_delivered_updateCurrentFloors (ps : List Person) (l : List Nat)
    (fl : Int) (pred : Bool → Bool) :
    ((updateCurrentFloors ps l fl).filter (fun q => pred q.delivered)).length =
      (ps.filter (fun q => pred q.delivered)).length := by
  unfold updateCurrentFloors
  exact length_filter_map_of_delivered_eq _
    (fun p => by split <;> rfl) pred ps

theorem markDelivered_cons (q : Person) (rest : List Person) (i : Nat) :
    markDelivered (q :: rest) i =
      (if q.id == i then { q with delivered := true } else q) ::
        markDelivered rest i := rfl

theorem length_filter_delivered_markDelivered {ps : List Person}
    (hn : (ps.map Person.id).Nodup) {i : Nat} {p : Person}
    (hfind : findPerson ps i = some p) (hdel : p.delivered = false) :
    ((markDelivered ps i).filter (fun q => q.delivered)).length =
      (ps.filter (fun q => q.delivered)).length + 1 := by
  induction ps with
  | nil => simp [findPerson] at hfind
  | cons q rest ih =>
    simp only [List.map_cons, List.nodup_cons] at hn
    rw [markDelivered_cons]
    by_cases hq : (q.id == i) = true
    · have hpq : p = q := by
        simp [findPerson, List.find?_cons, hq] at hfind
        exact hfind.symm
      have hrest : markDelivered rest i = rest := by
        refine markDelivered_eq_of_absent (fun r hr he => ?_)
        have hqi : q.id = i := by simpa using hq
        exact hn.1 (by rw [hqi, ← he]; exact List.mem_map_of_mem Person.id hr)
      have hqd : q.delivered = false := by rw [← hpq]; exact hdel
      rw [if_pos hq, hrest, List.filter_cons, List.filter_cons]
      simp [hqd]
    · have hfind' : findPerson rest i = some p := by
        simpa [findPerson, List.find?_cons, hq] using hfind
      have hrec := ih hn.2 hfind'
      rw [if_neg hq, List.filter_cons, List.filter_cons]
      split <;> simp [hrec]

theorem length_filter_not_delivered_markDelivered {ps : List Person}
    (hn : (ps.map Person.id).Nodup) {i : Nat} {p : Person}
    (hfind : findPerson ps i = some p) (hdel : p.delivered = false) :
    ((markDelivered ps i).filter (fun q => !q.delivered)).length + 1 =
      (ps.filter (fun q => !q.delivered)).length := by
  induction ps with
  | nil => simp [findPerson] at hfind
  | cons q rest ih =>
    simp only [List.map_cons, List.nodup_cons] at hn
    rw [markDelivered_cons]
    by_cases hq : (q.id == i) = true
    · have hpq : p = q := by
        simp [findPerson, List.find?_cons, hq] at hfind
        exact hfind.symm
      have hrest : markDelivered rest i = rest := by
        refine markDelivered_eq_of_absent (fun r hr he => ?_)
        have hqi : q.id = i := by simpa using hq
        exact hn.1 (by rw [hqi, ← he]; exact List.mem_map_of_mem Person.id hr)
      have hqd : q.delivered = false := by rw [← hpq]; exact hdel
      rw [if_pos hq, hrest, List.filter_cons, List.filter_cons]
      simp [hqd]
    · have hfind' : findPerson rest i = some p := by
        simpa [findPerson, List.find?_cons, hq] using hfind
      have hrec := ih hn.2 hfind'
      rw [if_neg hq, List.filter_cons, List.filter_cons]
      split <;> simp [hrec] <;> omega

-- ----------------------------------------------------------------------
-- Naive algorithm: direction, move and scan lemmas
-- ----------------------------------------------------------------------

theorem dirOK_switch {F : Nat} (hF : 2 ≤ F) {fl : Int} {d : LDir}
    (hd : d ≠ LDir.NoDir) :
    dirOK F fl (switch_lift_direction_if_at_top_or_bottom_floor F fl d) := by
  have h2 : (2 : Int) ≤ (F : Int) := by exact_mod_cast hF
  simp only [switch_lift_direction_if_at_top_or_bottom_floor, dirOK]
  cases d with
  | NoDir => exact absurd rfl hd
  | Up =>
    rw [ite_self]
    by_cases hT : fl = (F : Int) - 1
    · rw [if_pos (⟨hT, rfl⟩ : fl = (F : Int) - 1 ∧ LDir.Up = LDir.Up)]
      exact Or.inr ⟨rfl, by omega⟩
    · have hc : ¬(fl = (F : Int) - 1 ∧ LDir.Up = LDir.Up) := fun h => hT h.1
      rw [if_neg hc]
      exact Or.inl ⟨rfl, hT⟩
  | Down =>
    by_cases h0 : fl = 0
    · have hc1 : fl = 0 ∧ LDir.Down = LDir.Down := ⟨h0, rfl⟩
      rw [if_pos hc1]
      have hc2 : ¬(fl = (F : Int) - 1 ∧ LDir.Up = LDir.Up) := by
        rintro ⟨h, _⟩
        omega
      rw [if_neg hc2]
      exact Or.inl ⟨rfl, by omega⟩
    · have hc1 : ¬(fl = 0 ∧ LDir.Down = LDir.Down) := fun h => h0 h.1
      rw [if_neg hc1]
      have hc2 : ¬(fl = (F : Int) - 1 ∧ LDir.Down = LDir.Up) := by
        rintro ⟨_, h⟩
        exact LDir.noConfusion h
      rw [if_neg hc2]
      exact Or.inr ⟨rfl, h0⟩

theorem move_bounds {F : Nat} (hF : 2 ≤ F) {fl : Int} {d : LDir}
    (hok : dirOK F fl d) (h0 : 0 ≤ fl) (h1 : fl ≤ (F : Int) - 1) :
    0 ≤ fl + (if d = LDir.Up then 1 else -1) ∧
      fl + (if d = LDir.Up then 1 else -1) ≤ (F : Int) - 1 := by
  have h2 : (2 : Int) ≤ (F : Int) := by exact_mod_cast hF
  rcases hok with ⟨hd, hne⟩ | ⟨hd, hne⟩ <;> subst hd
  · rw [if_pos rfl]
    omega
  · rw [if_neg (by intro h; exact LDir.noConfusion h)]
    omega

theorem NInv_naiveCollectMove {F : Nat} (hF : 2 ≤ F) {s : Sim}
    (h : NInv F s) : NInv F (naiveCollectMove F s) := by
  obtain ⟨h0, h1, hok⟩ := h
  obtain ⟨hb0, hb1⟩ := move_bounds hF hok h0 h1
  have hd : s.lift_direction ≠ LDir.NoDir := by
    rcases hok with ⟨hd, _⟩ | ⟨hd, _⟩ <;> simp [hd]
  exact ⟨hb0, hb1, dirOK_switch hF hd⟩

theorem NInv_naiveDeliverMove {F : Nat} (hF : 2 ≤ F) {s : Sim}
    (h : NInv F s) : NInv F (naiveDeliverMove F s) := by
  obtain ⟨h0, h1, hok⟩ := h
  obtain ⟨hb0, hb1⟩ := move_bounds hF hok h0 h1
  have hd : s.lift_direction ≠ LDir.NoDir := by
    rcases hok with ⟨hd, _⟩ | ⟨hd, _⟩ <;> simp [hd]
  exact ⟨hb0, hb1, dirOK_switch hF hd⟩

theorem naiveEnRouteScan_preserves (d : LDir) (ps : List Person) (s : Sim) :
    (naiveEnRouteScan d ps s).1.lift_floor = s.lift_floor ∧
    (naiveEnRouteScan d ps s).1.lift_direction = s.lift_direction ∧
    (naiveEnRouteScan d ps s).1.people_overview = s.people_overview ∧
    (naiveEnRouteScan d ps s).1.people_pending = s.people_pending ∧
    (naiveEnRouteScan d ps s).1.distance_travelled = s.distance_travelled ∧
    (naiveEnRouteScan d ps s).1.num_people_delivered = s.num_people_delivered ∧
    ∀ x ∈ (naiveEnRouteScan d ps s).2,
      x.lift_floor = s.lift_floor ∧ x.lift_direction = s.lift_direction ∧
      x.people_overview = s.people_overview ∧
      x.people_pending = s.people_pending ∧
      x.distance_travelled = s.distance_travelled ∧
      x.num_people_delivered = s.num_people_delivered := by
  induction ps generalizing s with
  | nil => simp [naiveEnRouteScan]
  | cons p rest ih =>
    simp only [naiveEnRouteScan]
    split
    · have hrec := ih (boardPerson s p.id)
      refine ⟨hrec.1, hrec.2.1, hrec.2.2.1, hrec.2.2.2.1, hrec.2.2.2.2.1,
        hrec.2.2.2.2.2.1, ?_⟩
      intro x hx
      rcases List.mem_cons.mp hx with hx | hx
      · subst hx
        exact ⟨rfl, rfl, rfl, rfl, rfl, rfl⟩
      · exact hrec.2.2.2.2.2.2 x hx
    · exact ih s

theorem naiveEnRouteScan_lift_mono (d : LDir) (ps : List Person) (s : Sim) :
    ∃ new, (naiveEnRouteScan d ps s).1.people_lift = s.people_lift ++ new := by
  induction ps generalizing s with
  | nil => exact ⟨[], by simp [naiveEnRouteScan]⟩
  | cons p rest ih =>
    simp only [naiveEnRouteScan]
    split
    · rcases ih (boardPerson s p.id) with ⟨new, hnew⟩
      refine ⟨p.id :: new, ?_⟩
      rw [hnew]
      simp [boardPerson]
    · exact ih s

theorem CoresOK_markDelivered {F : Nat} {ps : List Person} {i : Nat}
    (h : ∀ p ∈ ps, CorePerson F p) : ∀ p ∈ markDelivered ps i, CorePerson F p := by
  intro p hp
  rcases List.mem_map.mp hp with ⟨q, hq, rfl⟩
  have hq' := h q hq
  unfold CorePerson at hq' ⊢
  split <;> exact hq'

theorem CoresOK_updateCurrentFloors {F : Nat} {ps : List Person} {l : List Nat}
    {fl : Int} (h : ∀ p ∈ ps, CorePerson F p) :
    ∀ p ∈ updateCurrentFloors ps l fl, CorePerson F p := by
  intro p hp
  rcases List.mem_map.mp hp with ⟨q, hq, rfl⟩
  have hq' := h q hq
  unfold CorePerson at hq' ⊢
  split <;> exact hq'

theorem findPerson_updateCurrentFloors_fields {ps : List Person} {l : List Nat}
    {fl : Int} {i : Nat} {p : Person} (h : findPerson ps i = some p) :
    ∃ p', findPerson (updateCurrentFloors ps l fl) i = some p' ∧
      p'.id = p.id ∧ p'.delivered = p.delivered ∧
      p'.target_floor = p.target_floor ∧ p'.start_floor = p.start_floor ∧
      p'.direction = p.direction := by
  rw [findPerson_updateCurrentFloors, h, Option.map_some']
  refine ⟨_, rfl, ?_, ?_, ?_, ?_, ?_⟩ <;> split <;> rfl

theorem NInvAll_boardPerson {F : Nat} {ids0 : List Nat} {s : Sim} {i : Nat}
    (h : NInvAll F ids0 s) (hno : i ∉ s.people_lift)
    (hp : ∃ p, findPerson s.people_overview i = some p ∧ p.delivered = false) :
    NInvAll F ids0 (boardPerson s i) := by
  obtain ⟨hids, hcore, hcnt, ⟨hnd, hmem⟩, hninv, hpend⟩ := h
  refine ⟨hids, hcore, hcnt, ⟨?_, ?_⟩, hninv, hpend⟩
  · show (s.people_lift ++ [i]).Nodup
    rw [List.nodup_append]
    refine ⟨hnd, List.nodup_singleton i, ?_⟩
    intro a ha hb
    rw [List.mem_singleton] at hb
    subst hb
    exact hno ha
  · intro j hj
    simp only [boardPerson, List.mem_append, List.mem_singleton] at hj
    rcases hj with hj | hj
    · exact hmem j hj
    · subst hj
      exact hp

theorem NInvAll_dropPerson {F : Nat} {ids0 : List Nat} {s : Sim} {i : Nat}
    (hids0 : ids0.Nodup) (h : NInvAll F ids0 s)
    (hp : ∃ p, findPerson s.people_overview i = some p ∧ p.delivered = false) :
    NInvAll F ids0 (dropPerson s i) := by
  obtain ⟨hids, hcore, hcnt, ⟨hnd, hmem⟩, hninv, hpend⟩ := h
  obtain ⟨p, hfind, hdel⟩ := hp
  have hnids : (s.people_overview.map Person.id).Nodup := by rw [hids]; exact hids0
  refine ⟨?_, ?_, ?_, ⟨?_, ?_⟩, hninv, hpend⟩
  · show (markDelivered s.people_overview i).map Person.id = ids0
    rw [markDelivered_map_id]
    exact hids
  · exact CoresOK_markDelivered hcore
  · show s.num_people_delivered + 1 = _
    rw [hcnt]
    exact (length_filter_delivered_markDelivered hnids hfind hdel).symm
  · exact hnd.erase i
  · intro j hj
    have hj' : j ∈ s.people_lift := List.mem_of_mem_erase hj
    have hjne : j ≠ i := by
      intro he
      subst he
      exact (List.Nodup.not_mem_erase hnd) hj
    obtain ⟨q, hq, hqdel⟩ := hmem j hj'
    refine ⟨q, ?_, hqdel⟩
    show findPerson (markDelivered s.people_overview i) j = some q
    rw [findPerson_markDelivered_ne hjne]
    exact hq

theorem nat_contains_iff {l : List Nat} {i : Nat} : l.contains i = true ↔ i ∈ l := by
  show l.elem i = true ↔ i ∈ l
  exact List.elem_iff

theorem switch_up_eq (F : Nat) (fl : Int) :
    switch_lift_direction_if_at_top_or_bottom_floor F fl LDir.Up =
      (if fl = (F : Int) - 1 then LDir.Down else LDir.Up) := by
  simp [switch_lift_direction_if_at_top_or_bottom_floor]

theorem switch_down_eq {F : Nat} (h2 : 2 ≤ F) (fl : Int) :
    switch_lift_direction_if_at_top_or_bottom_floor F fl LDir.Down =
      (if fl = 0 then LDir.Up else LDir.Down) := by
  have hF : (2 : Int) ≤ (F : Int) := by exact_mod_cast h2
  by_cases h0 : fl = 0
  · subst h0
    have hne : ¬(0 : Int) = (F : Int) - 1 := by omega
    simp [switch_lift_direction_if_at_top_or_bottom_floor, hne]
  · simp [switch_lift_direction_if_at_top_or_bottom_floor, h0]

theorem ldir_move_up : (if LDir.Up = LDir.Up then (1 : Int) else -1) = 1 := rfl

theorem ldir_move_down :
    (if LDir.Down = LDir.Up then (1 : Int) else -1) = -1 := rfl

theorem sweepSteps_pos {F : Nat} (h2 : 2 ≤ F) {fl t : Int} {d : LDir}
    (hfl0 : 0 ≤ fl) (hfl1 : fl ≤ (F : Int) - 1) (ht0 : 0 ≤ t)
    (ht1 : t ≤ (F : Int) - 1) (hne : t ≠ fl) :
    0 < sweepSteps F fl d t := by
  have hF : (2 : Int) ≤ (F : Int) := by exact_mod_cast h2
  cases d with
  | Up =>
    simp only [sweepSteps]
    split_ifs with h <;> omega
  | Down =>
    simp only [sweepSteps]
    split_ifs with h <;> omega
  | NoDir =>
    simp only [sweepSteps]
    split_ifs with h <;> omega

theorem sweepSteps_move {F : Nat} (h2 : 2 ≤ F) {fl t : Int} {d : LDir}
    (hok : dirOK F fl d) (hfl0 : 0 ≤ fl) (hfl1 : fl ≤ (F : Int) - 1)
    (ht0 : 0 ≤ t) (ht1 : t ≤ (F : Int) - 1) (hne : t ≠ fl) :
    sweepSteps F (fl + (if d = LDir.Up then 1 else -1))
        (switch_lift_direction_if_at_top_or_bottom_floor F
          (fl + (if d = LDir.Up then 1 else -1)) d) t + 1 =
      sweepSteps F fl d t := by
  have hF : (2 : Int) ≤ (F : Int) := by exact_mod_cast h2
  rcases hok with ⟨hd, hnfl⟩ | ⟨hd, hnfl⟩ <;> subst hd
  · rw [ldir_move_up, switch_up_eq]
    by_cases hT : fl + 1 = (F : Int) - 1
    · rw [if_pos hT]
      simp only [sweepSteps]
      split_ifs with ha hb <;> omega
    · rw [if_neg hT]
      simp only [sweepSteps]
      split_ifs with ha hb <;> omega
  · rw [ldir_move_down, switch_down_eq h2]
    by_cases h0 : fl + -1 = 0
    · rw [if_pos h0]
      simp only [sweepSteps]
      split_ifs with ha hb <;> omega
    · rw [if_neg h0]
      simp only [sweepSteps]
      split_ifs with ha hb <;> omega

theorem uCount_boardPerson (s : Sim) (i : Nat) :
    uCount (boardPerson s i) = uCount s := rfl

theorem uCount_dropPerson {s : Sim} {i : Nat}
    (hn : (s.people_overview.map Person.id).Nodup) {p : Person}
    (hfind : findPerson s.people_overview i = some p)
    (hdel : p.delivered = false) :
    uCount (dropPerson s i) + 1 = uCount s := by
  unfold uCount dropPerson
  exact length_filter_not_delivered_markDelivered hn hfind hdel

theorem uCount_naiveDeliverMove (F : Nat) (s : Sim) :
    uCount (naiveDeliverMove F s) = uCount s := by
  unfold uCount naiveDeliverMove
  exact filter_delivered_updateCurrentFloors _ _ _ _

theorem uCount_naiveEnRouteScan (d : LDir) (ps : List Person) (s : Sim) :
    uCount (naiveEnRouteScan d ps s).1 = uCount s := by
  unfold uCount
  rw [(naiveEnRouteScan_preserves d ps s).2.2.1]

theorem naiveEnRouteScan_inv {F : Nat} {ids0 : List Nat} (hids0 : ids0.Nodup)
    (d : LDir) {ps : List Person} {s : Sim}
    (hps : ∀ p ∈ ps, p ∈ s.people_overview) (h : NInvAll F ids0 s) :
    NInvAll F ids0 (naiveEnRouteScan d ps s).1 ∧
    ∀ x ∈ (naiveEnRouteScan d ps s).2, NInvAll F ids0 x := by
  induction ps generalizing s with
  | nil => exact ⟨h, by simp [naiveEnRouteScan]⟩
  | cons p rest ih =>
    simp only [naiveEnRouteScan]
    split_ifs with hc
    · have hmem : p ∈ s.people_overview := hps p (List.mem_cons_self p rest)
      have hnids : (s.people_overview.map Person.id).Nodup := by
        rw [h.1]
        exact hids0
      have hfind : findPerson s.people_overview p.id = some p :=
        findPerson_self hnids hmem
      have hno : p.id ∉ s.people_lift := fun hm =>
        hc.1 (nat_contains_iff.mpr hm)
      have h1 := NInvAll_boardPerson h hno ⟨p, hfind, hc.2.2.1⟩
      have hrec := @ih (boardPerson s p.id)
        (fun q hq => hps q (List.mem_cons_of_mem p hq)) h1
      refine ⟨hrec.1, ?_⟩
      intro x hx
      rcases List.mem_cons.mp hx with hx | hx
      · subst hx
        exact h1
      · exact hrec.2 x hx
    · exact @ih s (fun q hq => hps q (List.mem_cons_of_mem p hq)) h

theorem naiveDropScan_preserves (copy : List Nat) (s : Sim) :
    (naiveDropScan copy s).1.lift_floor = s.lift_floor ∧
    (naiveDropScan copy s).1.lift_direction = s.lift_direction ∧
    (naiveDropScan copy s).1.people_pending = s.people_pending ∧
    (naiveDropScan copy s).1.distance_travelled = s.distance_travelled ∧
    ∀ x ∈ (naiveDropScan copy s).2,
      x.lift_floor = s.lift_floor ∧ x.lift_direction = s.lift_direction ∧
      x.people_pending = s.people_pending ∧
      x.distance_travelled = s.distance_travelled := by
  induction copy generalizing s with
  | nil => simp [naiveDropScan]
  | cons i rest ih =>
    cases hf : findPerson s.people_overview i with
    | none =>
      simp only [naiveDropScan, hf]
      exact ih s
    | some p =>
      simp only [naiveDropScan, hf]
      split_ifs with ht
      · have hrec := ih (dropPerson s i)
        refine ⟨hrec.1, hrec.2.1, hrec.2.2.1, hrec.2.2.2.1, ?_⟩
        intro x hx
        rcases List.mem_cons.mp hx with hx | hx
        · subst hx
          exact ⟨rfl, rfl, rfl, rfl⟩
        · exact hrec.2.2.2.2 x hx
      · exact ih s

theorem naiveDropScan_lift_subset (copy : List Nat) (s : Sim) :
    ∀ j ∈ (naiveDropScan copy s).1.people_lift, j ∈ s.people_lift := by
  induction copy generalizing s with
  | nil => simp [naiveDropScan]
  | cons i rest ih =>
    cases hf : findPerson s.people_overview i with
    | none =>
      simp only [naiveDropScan, hf]
      exact ih s
    | some p =>
      simp only [naiveDropScan, hf]
      split_ifs with ht
      · intro j hj
        have := ih (dropPerson s i) j hj
        exact List.mem_of_mem_erase this
      · exact ih s

theorem naiveDropScan_inv {F : Nat} {ids0 : List Nat} (hids0 : ids0.Nodup)
    {copy : List Nat} {s : Sim} (hsub : ∀ j ∈ copy, j ∈ s.people_lift)
    (hnd : copy.Nodup) (h : NInvAll F ids0 s) :
    NInvAll F ids0 (naiveDropScan copy s).1 ∧
    ∀ x ∈ (naiveDropScan copy s).2, NInvAll F ids0 x := by
  induction copy generalizing s with
  | nil => exact ⟨h, by simp [naiveDropScan]⟩
  | cons i rest ih =>
    have hnd' : rest.Nodup := (List.nodup_cons.mp hnd).2
    have hini : i ∉ rest := (List.nodup_cons.mp hnd).1
    cases hf : findPerson s.people_overview i with
    | none =>
      simp only [naiveDropScan, hf]
      exact @ih s (fun j hj => hsub j (List.mem_cons_of_mem i hj)) hnd' h
    | some p =>
      simp only [naiveDropScan, hf]
      split_ifs with ht
      · have hil : i ∈ s.people_lift := hsub i (List.mem_cons_self i rest)
        obtain ⟨q, hq, hqdel⟩ := h.2.2.2.1.2 i hil
        have hpq : q = p := by rw [hq] at hf; exact Option.some.inj hf
        subst hpq
        have h1 := NInvAll_dropPerson hids0 h ⟨q, hq, hqdel⟩
        have hsub' : ∀ j ∈ rest, j ∈ (dropPerson s i).people_lift := by
          intro j hj
          have hjl : j ∈ s.people_lift := hsub j (List.mem_cons_of_mem i hj)
          have hjne : j ≠ i := fun he => hini (he ▸ hj)
          exact (List.mem_erase_of_ne hjne).mpr hjl
        have hrec := @ih (dropPerson s i) hsub' hnd' h1
        refine ⟨hrec.1, ?_⟩
        intro x hx
        rcases List.mem_cons.mp hx with hx | hx
        · subst hx
          exact h1
        · exact hrec.2 x hx
      · exact @ih s (fun j hj => hsub j (List.mem_cons_of_mem i hj)) hnd' h

theorem length_filter_not_delivered_markDelivered_le (ps : List Person) (i : Nat) :
    ((markDelivered ps i).filter (fun q => !q.delivered)).length ≤
      (ps.filter (fun q => !q.delivered)).length := by
  induction ps with
  | nil => simp [markDelivered]
  | cons q rest ih =>
    rw [markDelivered_cons]
    by_cases hq : (q.id == i) = true
    · rw [if_pos hq, List.filter_cons, List.filter_cons]
      split_ifs <;> simp_all <;> omega
    · rw [if_neg hq, List.filter_cons, List.filter_cons]
      split_ifs <;> simp_all <;> omega

theorem uCount_dropPerson_le (s : Sim) (i : Nat) :
    uCount (dropPerson s i) ≤ uCount s :=
  length_filter_not_delivered_markDelivered_le s.people_overview i

theorem uCount_naiveDropScan_le (copy : List Nat) (s : Sim) :
    uCount (naiveDropScan copy s).1 ≤ uCount s := by
  induction copy generalizing s with
  | nil => simp [naiveDropScan]
  | cons i rest ih =>
    cases hf : findPerson s.people_overview i with
    | none =>
      simp only [naiveDropScan, hf]
      exact ih s
    | some p =>
      simp only [naiveDropScan, hf]
      split_ifs with ht
      · exact le_trans (ih (dropPerson s i)) (uCount_dropPerson_le s i)
      · exact ih s

theorem naiveDropScan_unchanged_or_dec {F : Nat} {ids0 : List Nat}
    (hids0 : ids0.Nodup) {copy : List Nat} {s : Sim}
    (hsub : ∀ j ∈ copy, j ∈ s.people_lift) (h : NInvAll F ids0 s) :
    naiveDropScan copy s = (s, []) ∨
      uCount (naiveDropScan copy s).1 < uCount s := by
  induction copy generalizing s with
  | nil => exact Or.inl (by simp [naiveDropScan])
  | cons i rest ih =>
    cases hf : findPerson s.people_overview i with
    | none =>
      simp only [naiveDropScan, hf]
      exact @ih s (fun j hj => hsub j (List.mem_cons_of_mem i hj)) h
    | some p =>
      simp only [naiveDropScan, hf]
      split_ifs with ht
      · refine Or.inr ?_
        have hil : i ∈ s.people_lift := hsub i (List.mem_cons_self i rest)
        obtain ⟨q, hq, hqdel⟩ := h.2.2.2.1.2 i hil
        have hnids : (s.people_overview.map Person.id).Nodup := by
          rw [h.1]
          exact hids0
        have hdec : uCount (dropPerson s i) + 1 = uCount s :=
          uCount_dropPerson hnids hq hqdel
        have hle := uCount_naiveDropScan_le rest (dropPerson s i)
        have hgoal : uCount (naiveDropScan rest (dropPerson s i)).1 < uCount s := by
          omega
        exact hgoal
      · exact @ih s (fun j hj => hsub j (List.mem_cons_of_mem i hj)) h

theorem naiveDropScan_post {F : Nat} {ids0 : List Nat}
    (hids0 : ids0.Nodup) {copy : List Nat} {s : Sim}
    (hsub : ∀ j ∈ copy, j ∈ s.people_lift) (hnd : copy.Nodup)
    (h : NInvAll F ids0 s)
    (hall : ∀ j ∈ s.people_lift, j ∈ copy ∨
      (∃ p, findPerson s.people_overview j = some p ∧
        p.target_floor ≠ s.lift_floor)) :
    ∀ j ∈ (naiveDropScan copy s).1.people_lift,
      ∃ p, findPerson (naiveDropScan copy s).1.people_overview j = some p ∧
        p.target_floor ≠ (naiveDropScan copy s).1.lift_floor := by
  induction copy generalizing s with
  | nil =>
    intro j hj
    simp only [naiveDropScan] at hj ⊢
    rcases hall j hj with hc | hc
    · cases hc
    · exact hc
  | cons i rest ih =>
    have hnd' : rest.Nodup := (List.nodup_cons.mp hnd).2
    have hini : i ∉ rest := (List.nodup_cons.mp hnd).1
    cases hf : findPerson s.people_overview i with
    | none =>
      have hil : i ∈ s.people_lift := hsub i (List.mem_cons_self i rest)
      obtain ⟨q, hq, _⟩ := h.2.2.2.1.2 i hil
      rw [hq] at hf
      cases hf
    | some p =>
      simp only [naiveDropScan, hf]
      split_ifs with ht
      · have hil : i ∈ s.people_lift := hsub i (List.mem_cons_self i rest)
        obtain ⟨q, hq, hqdel⟩ := h.2.2.2.1.2 i hil
        have hpq : q = p := by rw [hq] at hf; exact Option.some.inj hf
        subst hpq
        have h1 := NInvAll_dropPerson hids0 h ⟨q, hq, hqdel⟩
        have hsub' : ∀ j ∈ rest, j ∈ (dropPerson s i).people_lift := by
          intro j hj
          have hjne : j ≠ i := fun he => hini (he ▸ hj)
          exact (List.mem_erase_of_ne hjne).mpr
            (hsub j (List.mem_cons_of_mem i hj))
        refine @ih (dropPerson s i) hsub' hnd' h1 ?_
        intro j hj
        have hjl : j ∈ s.people_lift := List.mem_of_mem_erase hj
        have hjne : j ≠ i := by
          intro he
          subst he
          exact (List.Nodup.not_mem_erase h.2.2.2.1.1) hj
        rcases hall j hjl with hc | hc
        · rcases List.mem_cons.mp hc with hc | hc
          · exact absurd hc hjne
          · exact Or.inl hc
        · obtain ⟨q2, hq2, hqt⟩ := hc
          refine Or.inr ⟨q2, ?_, hqt⟩
          show findPerson (markDelivered s.people_overview i) j = some q2
          rw [findPerson_markDelivered_ne hjne]
          exact hq2
      · refine @ih s (fun j hj => hsub j (List.mem_cons_of_mem i hj)) hnd' h ?_
        intro j hj
        rcases hall j hj with hc | hc
        · rcases List.mem_cons.mp hc with hc | hc
          · subst hc
            exact Or.inr ⟨p, hf, ht⟩
          · exact Or.inl hc
        · exact Or.inr hc

theorem DelivTrue_dropPerson {s : Sim} {j i : Nat} (hd : DelivTrue s i) :
    DelivTrue (dropPerson s j) i := by
  obtain ⟨p, hp, hpd⟩ := hd
  by_cases he : i = j
  · subst he
    exact ⟨{ p with delivered := true }, findPerson_markDelivered_self hp, rfl⟩
  · refine ⟨p, ?_, hpd⟩
    show findPerson (markDelivered s.people_overview j) i = some p
    rw [findPerson_markDelivered_ne he]
    exact hp

theorem DelivTrue_dropPerson_self {s : Sim} {i : Nat} {p : Person}
    (hp : findPerson s.people_overview i = some p) :
    DelivTrue (dropPerson s i) i :=
  ⟨{ p with delivered := true }, findPerson_markDelivered_self hp, rfl⟩

theorem DelivTrue_naiveDeliverMove {F : Nat} {s : Sim} {i : Nat}
    (hd : DelivTrue s i) : DelivTrue (naiveDeliverMove F s) i := by
  obtain ⟨p, hp, hpd⟩ := hd
  obtain ⟨p', hp', _, hpd', _, _, _⟩ := @findPerson_updateCurrentFloors_fields _ s.people_lift
    (s.lift_floor + (if s.lift_direction = LDir.Up then 1 else -1)) _ _ hp
  exact ⟨p', hp', by rw [hpd', hpd]⟩

theorem NInvAll_naiveDeliverMove {F : Nat} {ids0 : List Nat} (hF : 2 ≤ F)
    {s : Sim} (h : NInvAll F ids0 s) : NInvAll F ids0 (naiveDeliverMove F s) := by
  obtain ⟨hids, hcore, hcnt, ⟨hnd, hmem⟩, hninv, hpend⟩ := h
  refine ⟨?_, ?_, ?_, ⟨hnd, ?_⟩, NInv_naiveDeliverMove hF ⟨hninv.1, hninv.2.1, hninv.2.2⟩, hpend⟩
  · show (updateCurrentFloors s.people_overview s.people_lift _).map Person.id = ids0
    rw [updateCurrentFloors_map_id]
    exact hids
  · exact CoresOK_updateCurrentFloors hcore
  · show s.num_people_delivered =
      ((updateCurrentFloors s.people_overview s.people_lift
        (s.lift_floor + (if s.lift_direction = LDir.Up then 1 else -1))).filter
          (fun p => p.delivered)).length
    rw [hcnt]
    exact (filter_delivered_updateCurrentFloors s.people_overview s.people_lift
      _ (fun b => b)).symm
  · intro j hj
    obtain ⟨p, hp, hpd⟩ := hmem j hj
    obtain ⟨p', hp', _, hpd', _, _, _⟩ := @findPerson_updateCurrentFloors_fields _ s.people_lift
      (s.lift_floor + (if s.lift_direction = LDir.Up then 1 else -1)) _ _ hp
    exact ⟨p', hp', by rw [hpd', hpd]⟩

theorem naiveDropScan_mem_or_deliv (copy : List Nat) (s : Sim) :
    ∀ i, (i ∈ s.people_lift ∨ DelivTrue s i) →
      (i ∈ (naiveDropScan copy s).1.people_lift ∨
        DelivTrue (naiveDropScan copy s).1 i) := by
  induction copy generalizing s with
  | nil =>
    intro i hi
    simpa [naiveDropScan] using hi
  | cons j rest ih =>
    intro i hi
    cases hf : findPerson s.people_overview j with
    | none =>
      simp only [naiveDropScan, hf]
      exact ih s i hi
    | some p =>
      simp only [naiveDropScan, hf]
      split_ifs with ht
      · refine ih (dropPerson s j) i ?_
        rcases hi with hi | hi
        · by_cases he : i = j
          · subst he
            exact Or.inr (DelivTrue_dropPerson_self hf)
          · exact Or.inl ((List.mem_erase_of_ne he).mpr hi)
        · exact Or.inr (DelivTrue_dropPerson hi)
      · exact ih s i hi

theorem naiveEnRouteScan_mem_or_deliv (d : LDir) (ps : List Person) (s : Sim) :
    ∀ i, (i ∈ s.people_lift ∨ DelivTrue s i) →
      (i ∈ (naiveEnRouteScan d ps s).1.people_lift ∨
        DelivTrue (naiveEnRouteScan d ps s).1 i) := by
  intro i hi
  rcases hi with hi | hi
  · rcases naiveEnRouteScan_lift_mono d ps s with ⟨new, hnew⟩
    exact Or.inl (by rw [hnew]; exact List.mem_append_left new hi)
  · obtain ⟨p, hp, hpd⟩ := hi
    refine Or.inr ⟨p, ?_, hpd⟩
    rw [(naiveEnRouteScan_preserves d ps s).2.2.1]
    exact hp

theorem deliver_naive_spec {F : Nat} {ids0 : List Nat} (hids0 : ids0.Nodup)
    (hF : 2 ≤ F) (aDir : LDir) :
    ∀ fuel (s : Sim) (out : Sim × List Sim), NInvAll F ids0 s →
      deliver_person_with_naive_algorithm F aDir fuel s = some out →
      NInvAll F ids0 out.1 ∧ out.1.people_lift = [] ∧
      (∀ x ∈ out.2, NInvAll F ids0 x) ∧
      uCount out.1 ≤ uCount s ∧
      (∀ i, (i ∈ s.people_lift ∨ DelivTrue s i) → DelivTrue out.1 i) ∧
      (s.people_lift ≠ [] → uCount out.1 < uCount s) := by
  intro fuel
  induction fuel with
  | zero =>
    intro s out h hrun
    simp only [deliver_person_with_naive_algorithm] at hrun
    split_ifs at hrun with hl
    cases hrun
    refine ⟨h, hl, by simp, le_refl _, ?_, fun hc => absurd hl hc⟩
    intro i hi
    rcases hi with hi | hi
    · rw [hl] at hi
      cases hi
    · exact hi
  | succ fuel ih =>
    intro s out h hrun
    by_cases hl : s.people_lift = []
    · rw [deliver_person_with_naive_algorithm, if_pos hl] at hrun
      cases hrun
      refine ⟨h, hl, by simp, le_refl _, ?_, fun hc => absurd hl hc⟩
      intro i hi
      rcases hi with hi | hi
      · rw [hl] at hi
        cases hi
      · exact hi
    · simp only [deliver_person_with_naive_algorithm, if_neg hl] at hrun
      set r1 := naiveEnRouteScan aDir s.people_overview s with hr1
      set s2 := naiveDeliverMove F r1.1 with hs2
      set r3 := naiveDropScan s2.people_lift s2 with hr3
      have hscan := naiveEnRouteScan_inv hids0 aDir (fun p hp => hp) h
      have h1 : NInvAll F ids0 r1.1 := hscan.1
      have h2 : NInvAll F ids0 s2 := NInvAll_naiveDeliverMove hF h1
      have hsub2 : ∀ j ∈ s2.people_lift, j ∈ s2.people_lift := fun j hj => hj
      have hnd2 : s2.people_lift.Nodup := h2.2.2.2.1.1
      have hdrop := naiveDropScan_inv hids0 hsub2 hnd2 h2
      have h3 : NInvAll F ids0 r3.1 := hdrop.1
      cases hrec : deliver_person_with_naive_algorithm F aDir fuel r3.1 with
      | none =>
        rw [hrec] at hrun
        cases hrun
      | some out' =>
        rw [hrec] at hrun
        simp only [Option.map_some'] at hrun
        obtain ⟨hi1, hi2, hi3, hi4, hi5, hi6⟩ := ih r3.1 out' h3 hrec
        have hu3 : uCount r3.1 ≤ uCount s := by
          have ha : uCount r1.1 = uCount s := uCount_naiveEnRouteScan aDir _ s
          have hb : uCount s2 = uCount r1.1 := uCount_naiveDeliverMove F r1.1
          have hc : uCount r3.1 ≤ uCount s2 := uCount_naiveDropScan_le _ s2
          omega
        have hlift2_eq : s2.people_lift = r1.1.people_lift := rfl
        have hne2 : s2.people_lift ≠ [] := by
          rcases naiveEnRouteScan_lift_mono aDir s.people_overview s with ⟨new, hnew⟩
          rw [hlift2_eq, hnew]
          intro habs
          exact hl (List.append_eq_nil.mp habs).1
        cases hrun
        refine ⟨hi1, hi2, ?_, ?_, ?_, ?_⟩
        · intro x hx
          have hx' : x ∈ r1.2 ∨ x = s2 ∨ x ∈ r3.2 ∨ x ∈ out'.2 := by
            simp only [List.mem_append, List.mem_cons] at hx
            tauto
          rcases hx' with hx | rfl | hx | hx
          · exact hscan.2 x hx
          · exact h2
          · exact hdrop.2 x hx
          · exact hi3 x hx
        · show uCount out'.1 ≤ uCount s
          omega
        · intro i hi
          refine hi5 i ?_
          refine naiveDropScan_mem_or_deliv s2.people_lift s2 i ?_
          have hstep := naiveEnRouteScan_mem_or_deliv aDir s.people_overview s i hi
          rcases hstep with hstep | hstep
          · exact Or.inl hstep
          · exact Or.inr (DelivTrue_naiveDeliverMove hstep)
        · intro _
          show uCount out'.1 < uCount s
          rcases naiveDropScan_unchanged_or_dec (F := F) hids0 hsub2 h2 with hcase | hcase
          · have he3 : r3 = (s2, []) := hr3.trans hcase
            have hrecne : r3.1.people_lift ≠ [] := by
              rw [he3]
              exact hne2
            have hstrict := hi6 hrecne
            have he31 : r3.1 = s2 := by rw [he3]
            have hueq : uCount r3.1 = uCount s := by
              rw [he31]
              have hb : uCount s2 = uCount r1.1 := uCount_naiveDeliverMove F r1.1
              have ha : uCount r1.1 = uCount s := uCount_naiveEnRouteScan aDir _ s
              omega
            omega
          · have hcase' : uCount r3.1 < uCount s2 := by
              rw [hr3]
              exact hcase
            have hb : uCount s2 = uCount r1.1 := uCount_naiveDeliverMove F r1.1
            have ha : uCount r1.1 = uCount s := uCount_naiveEnRouteScan aDir _ s
            omega

theorem sweepSteps_le {F : Nat} (hF : 2 ≤ F) {fl t : Int} {d : LDir}
    (hfl0 : 0 ≤ fl) (hfl1 : fl ≤ (F : Int) - 1) (ht0 : 0 ≤ t)
    (ht1 : t ≤ (F : Int) - 1) : sweepSteps F fl d t ≤ 2 * F := by
  have hmF : (2 : Int) ≤ (F : Int) := by exact_mod_cast hF
  cases d <;> simp only [sweepSteps] <;> split_ifs <;> omega

theorem headSweep_le {F : Nat} {ids0 : List Nat} {s : Sim} (hF : 2 ≤ F)
    (h : NInvAll F ids0 s) : headSweep F s ≤ 2 * F := by
  cases hlift : s.people_lift with
  | nil => simp [headSweep, hlift]
  | cons j rest =>
    cases hf : findPerson s.people_overview j with
    | none => simp [headSweep, hlift, hf]
    | some p =>
      have hred : headSweep F s =
          sweepSteps F s.lift_floor s.lift_direction p.target_floor := by
        simp [headSweep, hlift, hf]
      rw [hred]
      have hmem := (findPerson_mem hf).1
      have hcore := h.2.1 p hmem
      have hninv := h.2.2.2.2.1
      refine sweepSteps_le hF hninv.1 hninv.2.1 hcore.2.2.1 ?_
      have := hcore.2.2.2.1
      omega

theorem naiveDeliverMove_floor (F : Nat) (s : Sim) :
    (naiveDeliverMove F s).lift_floor =
      s.lift_floor + (if s.lift_direction = LDir.Up then 1 else -1) := rfl

theorem naiveDeliverMove_dir (F : Nat) (s : Sim) :
    (naiveDeliverMove F s).lift_direction =
      switch_lift_direction_if_at_top_or_bottom_floor F
        (s.lift_floor + (if s.lift_direction = LDir.Up then 1 else -1))
        s.lift_direction := rfl

theorem naiveDeliverMove_lift (F : Nat) (s : Sim) :
    (naiveDeliverMove F s).people_lift = s.people_lift := rfl

theorem naiveDeliverMove_people (F : Nat) (s : Sim) :
    (naiveDeliverMove F s).people_overview =
      updateCurrentFloors s.people_overview s.people_lift
        (s.lift_floor + (if s.lift_direction = LDir.Up then 1 else -1)) := rfl

theorem deliver_naive_term {F : Nat} {ids0 : List Nat} (hids0 : ids0.Nodup)
    (hF : 2 ≤ F) (aDir : LDir) :
    ∀ fuel (s : Sim), NInvAll F ids0 s →
      (∀ j ∈ s.people_lift, ∃ p, findPerson s.people_overview j = some p ∧
        p.target_floor ≠ s.lift_floor) →
      uCount s * (2 * F + 1) + headSweep F s < fuel →
      ∃ out, deliver_person_with_naive_algorithm F aDir fuel s = some out := by
  intro fuel
  induction fuel with
  | zero =>
    intro s h hpre hm
    exact absurd hm (Nat.not_lt_zero _)
  | succ fuel ih =>
    intro s h hpre hm
    by_cases hl : s.people_lift = []
    · exact ⟨(s, []), by rw [deliver_person_with_naive_algorithm, if_pos hl]⟩
    · set r1 := naiveEnRouteScan aDir s.people_overview s with hr1
      set s2 := naiveDeliverMove F r1.1 with hs2
      set r3 := naiveDropScan s2.people_lift s2 with hr3
      have hscan := naiveEnRouteScan_inv hids0 aDir (fun p hp => hp) h
      have h1 : NInvAll F ids0 r1.1 := hscan.1
      have h2 : NInvAll F ids0 s2 := NInvAll_naiveDeliverMove hF h1
      have hsub2 : ∀ j ∈ s2.people_lift, j ∈ s2.people_lift := fun j hj => hj
      have hnd2 : s2.people_lift.Nodup := h2.2.2.2.1.1
      have h3 : NInvAll F ids0 r3.1 := (naiveDropScan_inv hids0 hsub2 hnd2 h2).1
      have hpost : ∀ j ∈ r3.1.people_lift,
          ∃ p, findPerson r3.1.people_overview j = some p ∧
            p.target_floor ≠ r3.1.lift_floor := by
        rw [hr3]
        exact naiveDropScan_post hids0 hsub2 hnd2 h2 (fun j hj => Or.inl hj)
      have hstep : deliver_person_with_naive_algorithm F aDir (fuel + 1) s =
          (deliver_person_with_naive_algorithm F aDir fuel r3.1).map
            (fun r => (r.1, r1.2 ++ (s2 :: r3.2) ++ r.2)) := by
        rw [deliver_person_with_naive_algorithm, if_neg hl]
      have ha : uCount r1.1 = uCount s := by
        rw [hr1]
        exact uCount_naiveEnRouteScan aDir _ s
      have hb : uCount s2 = uCount r1.1 := by
        rw [hs2]
        exact uCount_naiveDeliverMove F r1.1
      obtain ⟨h0, t0, hlift_s⟩ : ∃ h0 t0, s.people_lift = h0 :: t0 := by
        cases hls : s.people_lift with
        | nil => exact absurd hls hl
        | cons a b => exact ⟨a, b, rfl⟩
      have hmeas : uCount r3.1 * (2 * F + 1) + headSweep F r3.1 < fuel := by
        rcases naiveDropScan_unchanged_or_dec (F := F) hids0 hsub2 h2 with hcase | hcase
        · -- no drop-off happened: the sweep distance to the head passenger's
          -- target decreased by exactly one
          have he3 : r3 = (s2, []) := hr3.trans hcase
          have he31 : r3.1 = s2 := by rw [he3]
          obtain ⟨pq, hpq, hpqt⟩ :=
            hpre h0 (by rw [hlift_s]; exact List.mem_cons_self h0 t0)
          obtain ⟨new, hnew⟩ := naiveEnRouteScan_lift_mono aDir s.people_overview s
          have hlifts2 : s2.people_lift = h0 :: (t0 ++ new) := by
            rw [hs2, naiveDeliverMove_lift, hr1, hnew, hlift_s]
            simp
          have hfind1 : findPerson r1.1.people_overview h0 = some pq := by
            rw [hr1, (naiveEnRouteScan_preserves aDir s.people_overview s).2.2.1]
            exact hpq
          obtain ⟨p2, hp2, _, _, hp2t, _, _⟩ :=
            @findPerson_updateCurrentFloors_fields _ r1.1.people_lift
              (r1.1.lift_floor +
                (if r1.1.lift_direction = LDir.Up then 1 else -1)) _ _ hfind1
          have hfind2 : findPerson s2.people_overview h0 = some p2 := by
            rw [hs2, naiveDeliverMove_people]
            exact hp2
          have hfls : r1.1.lift_floor = s.lift_floor := by
            rw [hr1]
            exact (naiveEnRouteScan_preserves aDir s.people_overview s).1
          have hdirs : r1.1.lift_direction = s.lift_direction := by
            rw [hr1]
            exact (naiveEnRouteScan_preserves aDir s.people_overview s).2.1
          have hcore := h.2.1 pq (findPerson_mem hpq).1
          have hninv := h.2.2.2.2.1
          have e1 : headSweep F s2 =
              sweepSteps F s2.lift_floor s2.lift_direction p2.target_floor := by
            simp [headSweep, hlifts2, hfind2]
          have e2 : headSweep F s =
              sweepSteps F s.lift_floor s.lift_direction pq.target_floor := by
            simp [headSweep, hlift_s, hpq]
          have e3 : s2.lift_floor =
              s.lift_floor + (if s.lift_direction = LDir.Up then 1 else -1) := by
            rw [hs2, naiveDeliverMove_floor, hfls, hdirs]
          have e4 : s2.lift_direction =
              switch_lift_direction_if_at_top_or_bottom_floor F
                (s.lift_floor + (if s.lift_direction = LDir.Up then 1 else -1))
                s.lift_direction := by
            rw [hs2, naiveDeliverMove_dir, hfls, hdirs]
          have hswE : headSweep F s2 + 1 = headSweep F s := by
            rw [e1, e2, e3, e4, hp2t]
            exact sweepSteps_move hF hninv.2.2 hninv.1 hninv.2.1
              hcore.2.2.1 (by have := hcore.2.2.2.1; omega) hpqt
          have hueq : uCount r3.1 = uCount s := by
            rw [he31]
            omega
          have hmul : uCount r3.1 * (2 * F + 1) = uCount s * (2 * F + 1) := by
            rw [hueq]
          have hhe : headSweep F r3.1 = headSweep F s2 := by rw [he31]
          omega
        · -- a drop-off happened: the undelivered count decreased
          have hcase' : uCount r3.1 < uCount s2 := by
            rw [hr3]
            exact hcase
          have hhead3 : headSweep F r3.1 ≤ 2 * F := headSweep_le hF h3
          have hu3 : uCount r3.1 + 1 ≤ uCount s := by omega
          have hexp : (uCount r3.1 + 1) * (2 * F + 1) =
              uCount r3.1 * (2 * F + 1) + (2 * F + 1) := by ring
          have hmono : (uCount r3.1 + 1) * (2 * F + 1) ≤
              uCount s * (2 * F + 1) := Nat.mul_le_mul_right _ hu3
          omega
      obtain ⟨out', hout'⟩ := ih r3.1 h3 hpost hmeas
      refine ⟨(out'.1, r1.2 ++ (s2 :: r3.2) ++ out'.2), ?_⟩
      rw [hstep, hout']
      rfl

theorem NInvAll_naiveCollectMove {F : Nat} {ids0 : List Nat} (hF : 2 ≤ F)
    {s : Sim} (h : NInvAll F ids0 s) : NInvAll F ids0 (naiveCollectMove F s) := by
  obtain ⟨hids, hcore, hcnt, hlift, hninv, hpend⟩ := h
  exact ⟨hids, hcore, hcnt, hlift, NInv_naiveCollectMove hF hninv, hpend⟩

theorem collectLoop_spec {F : Nat} {ids0 : List Nat} (hF : 2 ≤ F)
    (startT : Int) :
    ∀ fuel (s : Sim) (out : Sim × List Sim), NInvAll F ids0 s →
      naiveCollectLoop F startT fuel s = some out →
      NInvAll F ids0 out.1 ∧ (∀ x ∈ out.2, NInvAll F ids0 x) ∧
      out.1.lift_floor = startT ∧
      out.1.people_overview = s.people_overview ∧
      out.1.people_lift = s.people_lift ∧
      out.1.num_people_delivered = s.num_people_delivered := by
  intro fuel
  induction fuel with
  | zero =>
    intro s out h hrun
    simp only [naiveCollectLoop] at hrun
    split_ifs at hrun with hfl
    cases hrun
    exact ⟨h, by simp, hfl, rfl, rfl, rfl⟩
  | succ fuel ih =>
    intro s out h hrun
    simp only [naiveCollectLoop] at hrun
    split_ifs at hrun with hfl
    · cases hrun
      exact ⟨h, by simp, hfl, rfl, rfl, rfl⟩
    · cases hrec : naiveCollectLoop F startT fuel (naiveCollectMove F s) with
      | none =>
        rw [hrec] at hrun
        cases hrun
      | some out' =>
        rw [hrec] at hrun
        simp only [Option.map_some'] at hrun
        cases hrun
        have h1 := NInvAll_naiveCollectMove hF h
        obtain ⟨hi1, hi2, hi3, hi4, hi5, hi6⟩ := ih (naiveCollectMove F s) out' h1 hrec
        refine ⟨hi1, ?_, hi3, hi4, hi5, hi6⟩
        intro x hx
        rcases List.mem_cons.mp hx with hx | hx
        · subst hx
          exact h1
        · exact hi2 x hx

theorem collectLoop_term {F : Nat} {ids0 : List Nat} (hF : 2 ≤ F)
    {startT : Int} (ht0 : 0 ≤ startT) (ht1 : startT ≤ (F : Int) - 1) :
    ∀ fuel (s : Sim), NInvAll F ids0 s →
      sweepSteps F s.lift_floor s.lift_direction startT < fuel →
      ∃ out, naiveCollectLoop F startT fuel s = some out := by
  intro fuel
  induction fuel with
  | zero =>
    intro s _ hm
    exact absurd hm (Nat.not_lt_zero _)
  | succ fuel ih =>
    intro s h hm
    by_cases hfl : s.lift_floor = startT
    · exact ⟨(s, []), by rw [naiveCollectLoop, if_pos hfl]⟩
    · have hninv := h.2.2.2.2.1
      have hdec := sweepSteps_move hF hninv.2.2 hninv.1 hninv.2.1 ht0 ht1
        (fun he => hfl he.symm)
      have h1 := NInvAll_naiveCollectMove hF h
      have hm1 : sweepSteps F (naiveCollectMove F s).lift_floor
          (naiveCollectMove F s).lift_direction startT < fuel := by
        have e1 : (naiveCollectMove F s).lift_floor =
            s.lift_floor + (if s.lift_direction = LDir.Up then 1 else -1) := rfl
        have e2 : (naiveCollectMove F s).lift_direction =
            switch_lift_direction_if_at_top_or_bottom_floor F
              (s.lift_floor + (if s.lift_direction = LDir.Up then 1 else -1))
              s.lift_direction := rfl
        rw [e1, e2]
        omega
      obtain ⟨out', hout'⟩ := ih (naiveCollectMove F s) h1 hm1
      have hstep : naiveCollectLoop F startT (fuel + 1) s =
          (naiveCollectLoop F startT fuel (naiveCollectMove F s)).map
            (fun r => (r.1, naiveCollectMove F s :: r.2)) := by
        rw [naiveCollectLoop, if_neg hfl]
      refine ⟨(out'.1, naiveCollectMove F s :: out'.2), ?_⟩
      rw [hstep, hout']
      rfl

theorem uCount_le_length {ids0 : List Nat} {s : Sim} (h : IdsOK ids0 s) :
    uCount s ≤ ids0.length := by
  have h1 : uCount s ≤ s.people_overview.length := List.length_filter_le _ _
  have h2 : s.people_overview.length = ids0.length := by
    rw [← h]
    exact (List.length_map _ _).symm
  omega

theorem all_delivered_of_ids {ids0 : List Nat} {s : Sim} (hids0 : ids0.Nodup)
    (hids : IdsOK ids0 s) (h : ∀ i ∈ ids0, DelivTrue s i) :
    ∀ p ∈ s.people_overview, p.delivered = true := by
  intro p hp
  have hpi : p.id ∈ ids0 := by
    rw [← hids]
    exact List.mem_map_of_mem Person.id hp
  obtain ⟨q, hq, hqdel⟩ := h p.id hpi
  have hnids : (s.people_overview.map Person.id).Nodup := by
    rw [hids]
    exact hids0
  have hself : findPerson s.people_overview p.id = some p := findPerson_self hnids hp
  rw [hself] at hq
  cases hq
  exact hqdel

theorem initSim_inv {F : Nat} {people : List Person} (hF : 2 ≤ F)
    (hv : ValidPeople F people) :
    NInvAll F (people.map Person.id) (initSim people) := by
  have hmF : (2 : Int) ≤ (F : Int) := by exact_mod_cast hF
  refine ⟨rfl, ?_, ?_, ⟨List.nodup_nil, ?_⟩, ?_, rfl⟩
  · intro p hp
    exact (hv.2 p hp).1
  · show 0 = (people.filter (fun p => p.delivered)).length
    have : people.filter (fun p => p.delivered) = [] := by
      rw [List.filter_eq_nil]
      intro p hp
      simp [(hv.2 p hp).2.2]
    rw [this]
    rfl
  · intro i hi
    cases hi
  · refine ⟨?_, ?_, ?_⟩
    · show (0 : Int) ≤ (0 : Int)
      exact le_refl 0
    · show (0 : Int) ≤ (F : Int) - 1
      omega
    · show dirOK F (0 : Int) LDir.Up
      exact Or.inl ⟨rfl, by omega⟩

theorem collect_naive_spec2 {F : Nat} {ids0 : List Nat} (hids0 : ids0.Nodup)
    (hF : 2 ≤ F) {fuel : Nat} {s : Sim} {p : Person} {out : Sim × List Sim}
    (h : NInvAll F ids0 s) (hl : s.people_lift = [])
    (hfind : findPerson s.people_overview p.id = some p)
    (hdel : p.delivered = false)
    (hrun : collect_person_with_naive_algorithm F fuel s p = some out) :
    NInvAll F ids0 out.1 ∧ (∀ x ∈ out.2, NInvAll F ids0 x) ∧
    out.1.lift_floor = p.start_floor ∧
    out.1.people_overview = s.people_overview ∧
    out.1.people_lift = [p.id] ∧
    out.1.num_people_delivered = s.num_people_delivered := by
  unfold collect_person_with_naive_algorithm at hrun
  cases hloop : naiveCollectLoop F p.start_floor fuel s with
  | none =>
    rw [hloop] at hrun
    cases hrun
  | some lout =>
    rw [hloop] at hrun
    simp only [Option.map_some'] at hrun
    cases hrun
    obtain ⟨hc1, hc2, hc3, hc4, hc5, hc6⟩ := collectLoop_spec hF p.start_floor fuel s lout h hloop
    have hfind' : findPerson lout.1.people_overview p.id = some p := by
      rw [hc4]
      exact hfind
    have hno : p.id ∉ lout.1.people_lift := by
      rw [hc5, hl]
      exact List.not_mem_nil p.id
    have hboard := NInvAll_boardPerson hc1 hno ⟨p, hfind', hdel⟩
    refine ⟨hboard, ?_, hc3, hc4, ?_, hc6⟩
    · intro x hx
      rcases List.mem_append.mp hx with hx | hx
      · exact hc2 x hx
      · rcases List.mem_singleton.mp hx with rfl
        exact hboard
    · show lout.1.people_lift ++ [p.id] = [p.id]
      rw [hc5, hl]
      rfl

theorem collect_naive_full {F : Nat} {ids0 : List Nat} (hids0 : ids0.Nodup)
    (hF : 2 ≤ F) (fuel : Nat) {s : Sim} {p : Person}
    (h : NInvAll F ids0 s) (hl : s.people_lift = [])
    (hfind : findPerson s.people_overview p.id = some p)
    (hdel : p.delivered = false) (hfuel : 2 * F < fuel) :
    ∃ out, collect_person_with_naive_algorithm F fuel s p = some out := by
  have hcore := h.2.1 p (findPerson_mem hfind).1
  have hninv := h.2.2.2.2.1
  have hm : sweepSteps F s.lift_floor s.lift_direction p.start_floor < fuel := by
    have := sweepSteps_le hF hninv.1 hninv.2.1 hcore.1 (by have := hcore.2.1; omega)
      (d := s.lift_direction) (t := p.start_floor)
    omega
  obtain ⟨lout, hlout⟩ := collectLoop_term hF hcore.1
    (by have := hcore.2.1; omega) fuel s h hm
  refine ⟨(boardPerson lout.1 p.id, lout.2 ++ [boardPerson lout.1 p.id]), ?_⟩
  unfold collect_person_with_naive_algorithm
  rw [hlout]
  rfl

theorem bool_eq_false_of_not_true {b : Bool} (h : ¬b = true) : b = false := by
  cases b
  · rfl
  · exact absurd rfl h

theorem naiveForPass_props {F : Nat} {ids0 : List Nat} (hids0 : ids0.Nodup)
    (hF : 2 ≤ F) (fuel : Nat) :
    ∀ (pids : List Nat) (s : Sim) (out : Sim × List Sim), NInvAll F ids0 s →
      s.people_lift = [] →
      naiveForPass F fuel pids s = some out →
      NInvAll F ids0 out.1 ∧ out.1.people_lift = [] ∧
      (∀ x ∈ out.2, NInvAll F ids0 x) ∧
      (∀ j, DelivTrue s j → DelivTrue out.1 j) := by
  intro pids
  induction pids with
  | nil =>
    intro s out h hl hrun
    cases hrun
    exact ⟨h, hl, by simp, fun j hj => hj⟩
  | cons i rest ih =>
    intro s out h hl hrun
    simp only [naiveForPass] at hrun
    cases hfp : findPerson s.people_overview i with
    | none =>
      simp only [hfp] at hrun
      exact ih s out h hl hrun
    | some p =>
      simp only [hfp] at hrun
      by_cases hpd : p.delivered = true
      · rw [if_pos hpd] at hrun
        exact ih s out h hl hrun
      · rw [if_neg hpd] at hrun
        have hdel : p.delivered = false := bool_eq_false_of_not_true hpd
        have hfind : findPerson s.people_overview p.id = some p := by
          rw [(findPerson_mem hfp).2]
          exact hfp
        cases hco : collect_person_with_naive_algorithm F fuel s p with
        | none =>
          simp only [hco] at hrun
          cases hrun
        | some outc =>
          obtain ⟨s1, tr1⟩ := outc
          simp only [hco] at hrun
          obtain ⟨hc1, hc2, hc3, hc4, hc5, hc6⟩ :=
            collect_naive_spec2 hids0 hF h hl hfind hdel hco
          cases hde : deliver_person_with_naive_algorithm F p.direction fuel s1 with
          | none =>
            simp only [hde] at hrun
            cases hrun
          | some outd =>
            obtain ⟨s2, tr2⟩ := outd
            simp only [hde] at hrun
            obtain ⟨hd1, hd2, hd3, hd4, hd5, _⟩ :=
              deliver_naive_spec hids0 hF p.direction fuel s1 (s2, tr2) hc1 hde
            cases hrec : naiveForPass F fuel rest s2 with
            | none =>
              simp only [hrec] at hrun
              cases hrun
            | some outr =>
              simp only [hrec, Option.map_some'] at hrun
              cases hrun
              obtain ⟨hr1, hr2, hr3, hr4⟩ := ih s2 outr hd1 hd2 hrec
              refine ⟨hr1, hr2, ?_, ?_⟩
              · intro x hx
                have hx' : x ∈ tr1 ∨ x ∈ tr2 ∨ x ∈ outr.2 := by
                  simp only [List.mem_append] at hx
                  tauto
                rcases hx' with hx | hx | hx
                · exact hc2 x hx
                · exact hd3 x hx
                · exact hr3 x hx
              · intro j hj
                refine hr4 j ?_
                refine hd5 j (Or.inr ?_)
                obtain ⟨q, hq, hqd⟩ := hj
                refine ⟨q, ?_, hqd⟩
                rw [hc4]
                exact hq

theorem naiveForPass_term {F : Nat} {ids0 : List Nat} (hids0 : ids0.Nodup)
    (hF : 2 ≤ F) {fuel : Nat}
    (hfuel : ids0.length * (2 * F + 1) + 2 * F + 1 ≤ fuel) :
    ∀ (pids : List Nat) (s : Sim), (∀ i ∈ pids, i ∈ ids0) →
      NInvAll F ids0 s → s.people_lift = [] →
      ∃ out, naiveForPass F fuel pids s = some out ∧
        (∀ i ∈ pids, DelivTrue out.1 i) ∧
        (∀ j, DelivTrue s j → DelivTrue out.1 j) := by
  intro pids
  induction pids with
  | nil =>
    intro s _ h hl
    exact ⟨(s, []), rfl, by simp, fun j hj => hj⟩
  | cons i rest ih =>
    intro s hpids h hl
    have hiid : i ∈ ids0 := hpids i (List.mem_cons_self i rest)
    have hmemids : i ∈ s.people_overview.map Person.id := by
      rw [h.1]
      exact hiid
    obtain ⟨p, hfp, hpid⟩ := findPerson_isSome_of_mem_ids hmemids
    by_cases hpd : p.delivered = true
    · obtain ⟨out, hout, ho1, ho2⟩ :=
        ih s (fun j hj => hpids j (List.mem_cons_of_mem i hj)) h hl
      refine ⟨out, ?_, ?_, ho2⟩
      · simp only [naiveForPass, hfp, if_pos hpd]
        exact hout
      · intro j hj
        rcases List.mem_cons.mp hj with hj | hj
        · subst hj
          exact ho2 j ⟨p, hfp, hpd⟩
        · exact ho1 j hj
    · have hdel : p.delivered = false := bool_eq_false_of_not_true hpd
      have hfind : findPerson s.people_overview p.id = some p := by
        rw [hpid]
        exact hfp
      obtain ⟨outc, hco⟩ := collect_naive_full hids0 hF fuel h hl hfind hdel
        (by omega)
      obtain ⟨s1, tr1⟩ := outc
      obtain ⟨hc1, hc2, hc3, hc4, hc5, hc6⟩ :=
        collect_naive_spec2 hids0 hF h hl hfind hdel hco
      have hcore := h.2.1 p (findPerson_mem hfind).1
      -- the freshly boarded anchor still has its target ahead of the lift
      have hpre : ∀ j ∈ s1.people_lift,
          ∃ q, findPerson s1.people_overview j = some q ∧
            q.target_floor ≠ s1.lift_floor := by
        intro j hj
        rw [hc5] at hj
        rcases List.mem_singleton.mp hj with rfl
        refine ⟨p, by rw [hc4]; exact hfind, ?_⟩
        rw [hc3]
        have hst := hcore.2.2.2.2.1
        intro he
        exact hst (he.symm)
      have hm1 : uCount s1 * (2 * F + 1) + headSweep F s1 < fuel := by
        have hu : uCount s1 ≤ ids0.length := uCount_le_length hc1.1
        have hh : headSweep F s1 ≤ 2 * F := headSweep_le hF hc1
        have hmono : uCount s1 * (2 * F + 1) ≤ ids0.length * (2 * F + 1) :=
          Nat.mul_le_mul_right _ hu
        omega
      obtain ⟨outd, hde⟩ := deliver_naive_term hids0 hF p.direction fuel s1 hc1 hpre hm1
      obtain ⟨s2, tr2⟩ := outd
      obtain ⟨hd1, hd2, hd3, hd4, hd5, _⟩ :=
        deliver_naive_spec hids0 hF p.direction fuel s1 (s2, tr2) hc1 hde
      obtain ⟨outr, hrec, hr1, hr2⟩ :=
        ih s2 (fun j hj => hpids j (List.mem_cons_of_mem i hj)) hd1 hd2
      refine ⟨(outr.1, tr1 ++ tr2 ++ outr.2), ?_, ?_, ?_⟩
      · simp only [naiveForPass, hfp, if_neg hpd, hco, hde, hrec, Option.map_some']
      · intro j hj
        rcases List.mem_cons.mp hj with hj | hj
        · subst hj
          refine hr2 j ?_
          refine hd5 j (Or.inl ?_)
          rw [hc5, ← hpid]
          exact List.mem_singleton.mpr rfl
        · exact hr1 j hj
      · intro j hj
        refine hr2 j ?_
        refine hd5 j (Or.inr ?_)
        obtain ⟨q, hq, hqd⟩ := hj
        exact ⟨q, by rw [hc4]; exact hq, hqd⟩

theorem naiveOuter_props {F : Nat} {ids0 : List Nat} (hids0 : ids0.Nodup)
    (hF : 2 ≤ F) (pids : List Nat) (passFuel : Nat) :
    ∀ (fuel : Nat) (s : Sim) (out : Sim × List Sim), NInvAll F ids0 s →
      s.people_lift = [] →
      naiveOuterLoop F pids passFuel fuel s = some out →
      NInvAll F ids0 out.1 ∧ out.1.people_lift = [] ∧
      ∀ x ∈ out.2, NInvAll F ids0 x := by
  intro fuel
  induction fuel with
  | zero =>
    intro s out h hl hrun
    simp only [naiveOuterLoop] at hrun
    split_ifs at hrun
    cases hrun
    exact ⟨h, hl, by simp⟩
  | succ fuel ih =>
    intro s out h hl hrun
    simp only [naiveOuterLoop] at hrun
    split_ifs at hrun with hall
    · cases hrun
      exact ⟨h, hl, by simp⟩
    · cases hpass : naiveForPass F passFuel pids s with
      | none =>
        simp only [hpass] at hrun
        cases hrun
      | some out1 =>
        obtain ⟨s1, tr1⟩ := out1
        simp only [hpass] at hrun
        obtain ⟨hp1, hp2, hp3, _⟩ :=
          naiveForPass_props hids0 hF passFuel pids s (s1, tr1) h hl hpass
        cases hrec : naiveOuterLoop F pids passFuel fuel s1 with
        | none =>
          simp only [hrec] at hrun
          cases hrun
        | some outr =>
          simp only [hrec, Option.map_some'] at hrun
          cases hrun
          obtain ⟨hr1, hr2, hr3⟩ := ih s1 outr hp1 hp2 hrec
          refine ⟨hr1, hr2, ?_⟩
          intro x hx
          rcases List.mem_append.mp hx with hx | hx
          · exact hp3 x hx
          · exact hr3 x hx

theorem naiveOuter_term {F : Nat} {ids0 : List Nat} (hids0 : ids0.Nodup)
    (hF : 2 ≤ F) {passFuel : Nat}
    (hpf : ids0.length * (2 * F + 1) + 2 * F + 1 ≤ passFuel)
    (k : Nat) (s : Sim) (h : NInvAll F ids0 s) (hl : s.people_lift = []) :
    ∃ out, naiveOuterLoop F ids0 passFuel (k + 2) s = some out ∧
      ∀ p ∈ out.1.people_overview, p.delivered = true := by
  by_cases hall : s.people_overview.all (fun p => p.delivered) = true
  · refine ⟨(s, []), ?_, ?_⟩
    · rw [naiveOuterLoop, if_pos hall]
    · intro p hp
      exact List.all_eq_true.mp hall p hp
  · obtain ⟨out1, hout1, hdel1, _⟩ :=
      naiveForPass_term hids0 hF hpf ids0 s (fun j hj => hj) h hl
    obtain ⟨s1, tr1⟩ := out1
    obtain ⟨hp1, hp2, _, _⟩ :=
      naiveForPass_props hids0 hF passFuel ids0 s (s1, tr1) h hl hout1
    have hdeliv : ∀ p ∈ s1.people_overview, p.delivered = true :=
      all_delivered_of_ids hids0 hp1.1 hdel1
    have hall1 : s1.people_overview.all (fun p => p.delivered) = true :=
      List.all_eq_true.mpr hdeliv
    refine ⟨(s1, tr1), ?_, hdeliv⟩
    rw [naiveOuterLoop, if_neg hall]
    simp only [hout1]
    rw [naiveOuterLoop, if_pos hall1]
    simp

theorem run_naive_props {F : Nat} {people : List Person} {fuel : Nat}
    {out : Sim × List Sim} (hF : 2 ≤ F) (hv : ValidPeople F people)
    (hrun : run_simulation_with_naive_algorithm F fuel people = some out) :
    NInvAll F (people.map Person.id) out.1 ∧
    ∀ x ∈ out.2, NInvAll F (people.map Person.id) x := by
  unfold run_simulation_with_naive_algorithm at hrun
  cases houter : naiveOuterLoop F (people.map Person.id) fuel fuel (initSim people) with
  | none =>
    simp only [houter] at hrun
    cases hrun
  | some outo =>
    simp only [houter, Option.map_some'] at hrun
    cases hrun
    have h0 := initSim_inv hF hv
    obtain ⟨ho1, _, ho3⟩ :=
      naiveOuter_props hv.1 hF (people.map Person.id) fuel fuel
        (initSim people) outo h0 rfl houter
    refine ⟨ho1, ?_⟩
    intro x hx
    rcases List.mem_cons.mp hx with hx | hx
    · subst hx
      exact h0
    · exact ho3 x hx

theorem run_naive_total {F : Nat} {people : List Person} (hF : 2 ≤ F)
    (hv : ValidPeople F people) :
    ∃ fuel out, run_simulation_with_naive_algorithm F fuel people = some out ∧
      (∀ p ∈ out.1.people_overview, p.delivered = true) ∧
      out.1.num_people_delivered = people.length := by
  refine ⟨people.length * (2 * F + 1) + 2 * F + 3, ?_⟩
  have hlen : (people.map Person.id).length = people.length := List.length_map _ _
  have hpf : (people.map Person.id).length * (2 * F + 1) + 2 * F + 1 ≤
      people.length * (2 * F + 1) + 2 * F + 3 := by
    rw [hlen]
    omega
  have h0 := initSim_inv hF hv
  obtain ⟨outo, houter, hdeliv⟩ :=
    naiveOuter_term hv.1 hF hpf (people.length * (2 * F + 1) + 2 * F + 1)
      (initSim people) h0 rfl
  refine ⟨(outo.1, initSim people :: outo.2), ?_, hdeliv, ?_⟩
  · unfold run_simulation_with_naive_algorithm
    nth_rewrite 2 [show people.length * (2 * F + 1) + 2 * F + 3 =
      people.length * (2 * F + 1) + 2 * F + 1 + 2 by ring]
    simp only [houter, Option.map_some']
  · obtain ⟨ho1, _, _⟩ :=
      naiveOuter_props hv.1 hF (people.map Person.id)
        (people.length * (2 * F + 1) + 2 * F + 3)
        (people.length * (2 * F + 1) + 2 * F + 1 + 2)
        (initSim people) outo h0 rfl houter
    have hcnt := ho1.2.2.1
    have hfil : outo.1.people_overview.filter (fun p => p.delivered) =
        outo.1.people_overview := by
      rw [List.filter_eq_self]
      intro p hp
      simp [hdeliv p hp]
    show outo.1.num_people_delivered = people.length
    rw [hcnt, hfil]
    have : outo.1.people_overview.length = (people.map Person.id).length := by
      rw [← ho1.1]
      exact (List.length_map _ _).symm
    rw [this, hlen]

/-- C9: In the naive dispatcher the lift is empty whenever a collect phase
begins.  The deliver phase (`deliver_person_with_naive_algorithm`) always
returns a state with an empty `people_lift`, and a per-pass loop
(`naiveForPass`) started with an empty lift ends with an empty lift; since
each collect call inside the pass receives either the pass's initial state or
the state returned by the previous iteration's deliver phase, the lift never
carries passengers when a collect phase is entered. -/
theorem naive_lift_empty_at_collect {F : Nat} {ids0 : List Nat}
    (hids0 : ids0.Nodup) (hF : 2 ≤ F) (aDir : LDir) (fuel : Nat)
    (pids : List Nat) (s : Sim) (h : NInvAll F ids0 s) :
    (∀ out, deliver_person_with_naive_algorithm F aDir fuel s = some out →
      out.1.people_lift = []) ∧
    (s.people_lift = [] →
      ∀ out, naiveForPass F fuel pids s = some out →
        out.1.people_lift = []) := by
  constructor
  · intro out hrun
    exact (deliver_naive_spec hids0 hF aDir fuel s out h hrun).2.1
  · intro hl out hrun
    exact (naiveForPass_props hids0 hF fuel pids s out h hl hrun).2.1

theorem naive_lift_empty_at_collect_witness :
    (∀ out, deliver_person_with_naive_algorithm 5 LDir.Up 20
        (initSim scenarioBPeople) = some out → out.1.people_lift = []) ∧
    ((initSim scenarioBPeople).people_lift = [] →
      ∀ out, naiveForPass 5 20 [0, 1] (initSim scenarioBPeople) = some out →
        out.1.people_lift = []) :=
  naive_lift_empty_at_collect (by decide) (by decide) LDir.Up 20 [0, 1]
    (initSim scenarioBPeople) (initSim_inv (by decide) (by decide))

theorem uCount_improvedMove (d : LDir) (s : Sim) :
    uCount (improvedMove d s) = uCount s := by
  unfold uCount improvedMove
  exact filter_delivered_updateCurrentFloors _ _ _ _

theorem improvedMove_floor (d : LDir) (s : Sim) :
    (improvedMove d s).lift_floor =
      s.lift_floor + (if d = LDir.Up then 1 else -1) := rfl

theorem improvedMove_lift (d : LDir) (s : Sim) :
    (improvedMove d s).people_lift = s.people_lift := rfl

theorem improvedMove_pending (d : LDir) (s : Sim) :
    (improvedMove d s).people_pending = s.people_pending := rfl

theorem DelivTrue_improvedMove {d : LDir} {s : Sim} {i : Nat}
    (hd : DelivTrue s i) : DelivTrue (improvedMove d s) i := by
  obtain ⟨p, hp, hpd⟩ := hd
  obtain ⟨p', hp', _, hpd', _, _, _⟩ := @findPerson_updateCurrentFloors_fields _ s.people_lift
    (s.lift_floor + (if d = LDir.Up then 1 else -1)) _ _ hp
  exact ⟨p', hp', by rw [hpd', hpd]⟩

theorem IInv_improvedMove {F : Nat} {ids0 : List Nat} {d : LDir} {s : Sim}
    (h : IInv F ids0 s)
    (hside : ∀ i ∈ s.people_lift, ∃ p, findPerson s.people_overview i = some p ∧
      sideOK p s.lift_floor ∧ p.target_floor ≠ s.lift_floor)
    (hfl : -1 ≤ s.lift_floor + (if d = LDir.Up then 1 else -1) ∧
      s.lift_floor + (if d = LDir.Up then 1 else -1) ≤ (F : Int) - 1) :
    IInv F ids0 (improvedMove d s) := by
  obtain ⟨hids, hcore, hcnt, ⟨hnd, hmem⟩, _, ⟨hpnd, hpmem⟩, hflo⟩ := h
  refine ⟨?_, ?_, ?_, ⟨hnd, ?_⟩, ?_, ⟨hpnd, ?_⟩, hfl⟩
  · show (updateCurrentFloors s.people_overview s.people_lift _).map Person.id = ids0
    rw [updateCurrentFloors_map_id]
    exact hids
  · exact CoresOK_updateCurrentFloors hcore
  · show s.num_people_delivered =
      ((updateCurrentFloors s.people_overview s.people_lift
        (s.lift_floor + (if d = LDir.Up then 1 else -1))).filter
          (fun p => p.delivered)).length
    rw [hcnt]
    exact (filter_delivered_updateCurrentFloors s.people_overview s.people_lift
      _ (fun b => b)).symm
  · intro j hj
    obtain ⟨p, hp, hpd⟩ := hmem j hj
    obtain ⟨p', hp', _, hpd', _, _, _⟩ := @findPerson_updateCurrentFloors_fields _ s.people_lift
      (s.lift_floor + (if d = LDir.Up then 1 else -1)) _ _ hp
    exact ⟨p', hp', by rw [hpd', hpd]⟩
  · intro j hj
    obtain ⟨p, hp, hps, hpt⟩ := hside j hj
    obtain ⟨p', hp', _, _, hpt', _, hpdir'⟩ := @findPerson_updateCurrentFloors_fields _ s.people_lift
      (s.lift_floor + (if d = LDir.Up then 1 else -1)) _ _ hp
    refine ⟨p', hp', ?_, ?_⟩
    · intro hup
      rw [hpdir'] at hup
      have h1 := hps.1 hup
      show s.lift_floor + (if d = LDir.Up then 1 else -1) ≤ p'.target_floor
      rw [hpt']
      split <;> omega
    · intro hdn
      rw [hpdir'] at hdn
      have h1 := hps.2 hdn
      show p'.target_floor ≤ s.lift_floor + (if d = LDir.Up then 1 else -1)
      rw [hpt']
      split <;> omega
  · intro j hj
    obtain ⟨p, hp, hpd⟩ := hpmem j hj
    obtain ⟨p', hp', _, hpd', _, _, _⟩ := @findPerson_updateCurrentFloors_fields _ s.people_lift
      (s.lift_floor + (if d = LDir.Up then 1 else -1)) _ _ hp
    exact ⟨p', hp', by rw [hpd', hpd]⟩

theorem improvedPendingScan_preserves (cap : Nat) (d : LDir) (away : Int) :
    ∀ (ps : List Person) (s : Sim),
      (improvedPendingScan cap d away ps s).people_overview = s.people_overview ∧
      (improvedPendingScan cap d away ps s).people_lift = s.people_lift ∧
      (improvedPendingScan cap d away ps s).lift_floor = s.lift_floor ∧
      (improvedPendingScan cap d away ps s).lift_direction = s.lift_direction ∧
      (improvedPendingScan cap d away ps s).distance_travelled =
        s.distance_travelled ∧
      (improvedPendingScan cap d away ps s).num_people_delivered =
        s.num_people_delivered ∧
      ∃ ext, (improvedPendingScan cap d away ps s).people_pending =
        s.people_pending ++ ext := by
  intro ps
  induction ps with
  | nil =>
    intro s
    exact ⟨rfl, rfl, rfl, rfl, rfl, rfl, [], by simp [improvedPendingScan]⟩
  | cons p rest ih =>
    intro s
    rw [improvedPendingScan]
    split_ifs with hc
    · obtain ⟨h1, h2, h3, h4, h5, h6, ext, h7⟩ :=
        ih { s with people_pending := s.people_pending ++ [p.id] }
      exact ⟨h1, h2, h3, h4, h5, h6, p.id :: ext, by
        rw [h7]
        simp⟩
    · exact ih s

theorem IInv_improvedPendingScan {F : Nat} {ids0 : List Nat}
    (hids0 : ids0.Nodup) (cap : Nat) (d : LDir) (away : Int) :
    ∀ (ps : List Person) (s : Sim), (∀ p ∈ ps, p ∈ s.people_overview) →
      IInv F ids0 s → IInv F ids0 (improvedPendingScan cap d away ps s) := by
  intro ps
  induction ps with
  | nil =>
    intro s _ h
    simpa [improvedPendingScan] using h
  | cons p rest ih =>
    intro s hmem h
    rw [improvedPendingScan]
    split_ifs with hc
    · refine ih { s with people_pending := s.people_pending ++ [p.id] }
        (fun q hq => hmem q (List.mem_cons_of_mem p hq)) ?_
      obtain ⟨hids, hcore, hcnt, hlift, hlside, ⟨hpnd, hpmem⟩, hflo⟩ := h
      refine ⟨hids, hcore, hcnt, hlift, hlside, ⟨?_, ?_⟩, hflo⟩
      · show (s.people_pending ++ [p.id]).Nodup
        rw [List.nodup_append]
        refine ⟨hpnd, List.nodup_singleton _, ?_⟩
        intro a ha hb
        rw [List.mem_singleton] at hb
        subst hb
        exact hc.1 (nat_contains_iff.mpr ha)
      · intro j hj
        rcases List.mem_append.mp hj with hj | hj
        · exact hpmem j hj
        · rw [List.mem_singleton] at hj
          subst hj
          have hps : p ∈ s.people_overview := hmem p (List.mem_cons_self p rest)
          have hnids : (s.people_overview.map Person.id).Nodup := by
            rw [hids]
            exact hids0
          exact ⟨p, findPerson_self hnids hps, hc.2.2.1⟩
    · exact ih s (fun q hq => hmem q (List.mem_cons_of_mem p hq)) h

theorem IInv_pickupBoard {F : Nat} {ids0 : List Nat} {s : Sim} {i : Nat}
    {p : Person} (h : IInv F ids0 s)
    (hfind : findPerson s.people_overview i = some p)
    (hstart : p.start_floor = s.lift_floor)
    (hpend : i ∈ s.people_pending) (hnl : i ∉ s.people_lift) :
    IInv F ids0
      { boardPerson s i with people_pending := s.people_pending.erase i } := by
  obtain ⟨hids, hcore, hcnt, ⟨hnd, hmem⟩, hlside, ⟨hpnd, hpmem⟩, hflo⟩ := h
  have hpdel : p.delivered = false := by
    obtain ⟨q, hq, hqdel⟩ := hpmem i hpend
    rw [hfind] at hq
    cases hq
    exact hqdel
  have hcp : CorePerson F p := hcore p (findPerson_mem hfind).1
  refine ⟨hids, hcore, hcnt, ⟨?_, ?_⟩, ?_, ⟨hpnd.erase i, ?_⟩, hflo⟩
  · show (s.people_lift ++ [i]).Nodup
    rw [List.nodup_append]
    refine ⟨hnd, List.nodup_singleton i, ?_⟩
    intro a ha hb
    rw [List.mem_singleton] at hb
    subst hb
    exact hnl ha
  · intro j hj
    rcases List.mem_append.mp hj with hj | hj
    · exact hmem j hj
    · rw [List.mem_singleton] at hj
      subst hj
      exact ⟨p, hfind, hpdel⟩
  · intro j hj
    rcases List.mem_append.mp hj with hj | hj
    · exact hlside j hj
    · rw [List.mem_singleton] at hj
      subst hj
      refine ⟨p, hfind, ?_, ?_⟩
      · intro hup
        have := hcp.2.2.2.2.2
        rw [hup] at this
        have hgt : p.target_floor - p.start_floor > 0 := by
          by_contra hgt
          rw [if_neg hgt] at this
          cases this
        show s.lift_floor ≤ p.target_floor
        omega
      · intro hdn
        have := hcp.2.2.2.2.2
        rw [hdn] at this
        have hgt : ¬ p.target_floor - p.start_floor > 0 := by
          by_contra hgt
          rw [if_pos hgt] at this
          cases this
        show p.target_floor ≤ s.lift_floor
        omega
  · intro j hj
    exact hpmem j (List.mem_of_mem_erase hj)

theorem improvedPickupScan_preserves (todo : List Nat) (s : Sim) :
    (improvedPickupScan todo s).1.people_overview = s.people_overview ∧
    (improvedPickupScan todo s).1.lift_floor = s.lift_floor ∧
    (improvedPickupScan todo s).1.lift_direction = s.lift_direction ∧
    (improvedPickupScan todo s).1.distance_travelled = s.distance_travelled ∧
    (improvedPickupScan todo s).1.num_people_delivered =
      s.num_people_delivered := by
  induction todo generalizing s with
  | nil => exact ⟨rfl, rfl, rfl, rfl, rfl⟩
  | cons i rest ih =>
    cases hf : findPerson s.people_overview i with
    | none =>
      simp only [improvedPickupScan, hf]
      exact ih s
    | some p =>
      simp only [improvedPickupScan, hf]
      split_ifs with ht
      · exact ih { boardPerson s i with people_pending := s.people_pending.erase i }
      · exact ih s

theorem improvedPickupScan_lift_mono (todo : List Nat) (s : Sim) :
    ∃ ext, (improvedPickupScan todo s).1.people_lift = s.people_lift ++ ext := by
  induction todo generalizing s with
  | nil => exact ⟨[], by simp [improvedPickupScan]⟩
  | cons i rest ih =>
    cases hf : findPerson s.people_overview i with
    | none =>
      simp only [improvedPickupScan, hf]
      exact ih s
    | some p =>
      simp only [improvedPickupScan, hf]
      split_ifs with ht
      · obtain ⟨ext, hext⟩ :=
          ih { boardPerson s i with people_pending := s.people_pending.erase i }
        exact ⟨i :: ext, by
          rw [hext]
          simp [boardPerson]⟩
      · exact ih s

theorem improvedPickupScan_pending_sub (todo : List Nat) (s : Sim) :
    ∀ j ∈ (improvedPickupScan todo s).1.people_pending,
      j ∈ s.people_pending := by
  induction todo generalizing s with
  | nil => simp [improvedPickupScan]
  | cons i rest ih =>
    cases hf : findPerson s.people_overview i with
    | none =>
      simp only [improvedPickupScan, hf]
      exact ih s
    | some p =>
      simp only [improvedPickupScan, hf]
      split_ifs with ht
      · intro j hj
        have := ih { boardPerson s i with people_pending := s.people_pending.erase i } j hj
        exact List.mem_of_mem_erase this
      · exact ih s

theorem improvedPickupScan_new_aboard (todo : List Nat) (s : Sim) :
    ∀ j ∈ (improvedPickupScan todo s).1.people_lift,
      j ∈ s.people_lift ∨
        ∃ p, findPerson s.people_overview j = some p ∧
          p.start_floor = s.lift_floor := by
  induction todo generalizing s with
  | nil =>
    intro j hj
    exact Or.inl hj
  | cons i rest ih =>
    cases hf : findPerson s.people_overview i with
    | none =>
      simp only [improvedPickupScan, hf]
      exact ih s
    | some p =>
      simp only [improvedPickupScan, hf]
      split_ifs with ht
      · intro j hj
        have hrec := ih
          { boardPerson s i with people_pending := s.people_pending.erase i } j hj
        rcases hrec with hrec | hrec
        · show j ∈ s.people_lift ∨ _
          rcases List.mem_append.mp hrec with hm | hm
          · exact Or.inl hm
          · rw [List.mem_singleton] at hm
            subst hm
            exact Or.inr ⟨p, hf, ht⟩
        · exact Or.inr hrec
      · exact ih s

theorem improvedPickupScan_inv {F : Nat} {ids0 : List Nat} (hids0 : ids0.Nodup) :
    ∀ (todo : List Nat) (s : Sim), todo.Nodup →
      (∀ i ∈ todo, i ∈ s.people_pending) →
      (∀ i ∈ todo, i ∉ s.people_lift) → IInv F ids0 s →
      IInv F ids0 (improvedPickupScan todo s).1 ∧
      ∀ x ∈ (improvedPickupScan todo s).2, IInv F ids0 x := by
  intro todo
  induction todo with
  | nil =>
    intro s _ _ _ h
    exact ⟨h, by simp [improvedPickupScan]⟩
  | cons i rest ih =>
    intro s hnd hpend hnl h
    have hnd' : rest.Nodup := (List.nodup_cons.mp hnd).2
    have hini : i ∉ rest := (List.nodup_cons.mp hnd).1
    cases hf : findPerson s.people_overview i with
    | none =>
      simp only [improvedPickupScan, hf]
      exact ih s hnd' (fun j hj => hpend j (List.mem_cons_of_mem i hj))
        (fun j hj => hnl j (List.mem_cons_of_mem i hj)) h
    | some p =>
      simp only [improvedPickupScan, hf]
      split_ifs with ht
      · have hil : i ∈ s.people_pending := hpend i (List.mem_cons_self i rest)
        have hinl : i ∉ s.people_lift := hnl i (List.mem_cons_self i rest)
        have h1 := IInv_pickupBoard h hf ht hil hinl
        have hrec := ih
          { boardPerson s i with people_pending := s.people_pending.erase i }
          hnd' ?_ ?_ h1
        · refine ⟨hrec.1, ?_⟩
          intro x hx
          rcases List.mem_cons.mp hx with hx | hx
          · subst hx
            exact h1
          · exact hrec.2 x hx
        · intro j hj
          have hjne : j ≠ i := fun he => hini (he ▸ hj)
          show j ∈ s.people_pending.erase i
          exact (List.mem_erase_of_ne hjne).mpr
            (hpend j (List.mem_cons_of_mem i hj))
        · intro j hj
          have hjne : j ≠ i := fun he => hini (he ▸ hj)
          show j ∉ s.people_lift ++ [i]
          intro hm
          rcases List.mem_append.mp hm with hm | hm
          · exact hnl j (List.mem_cons_of_mem i hj) hm
          · rw [List.mem_singleton] at hm
            exact hjne hm
      · exact ih s hnd' (fun j hj => hpend j (List.mem_cons_of_mem i hj))
          (fun j hj => hnl j (List.mem_cons_of_mem i hj)) h

theorem improvedPickupScan_no_board {todo : List Nat} {s : Sim}
    (hlen : (improvedPickupScan todo s).1.people_lift.length =
      s.people_lift.length) :
    improvedPickupScan todo s = (s, []) := by
  induction todo generalizing s with
  | nil => simp [improvedPickupScan]
  | cons i rest ih =>
    cases hf : findPerson s.people_overview i with
    | none =>
      simp only [improvedPickupScan, hf] at hlen ⊢
      exact ih hlen
    | some p =>
      simp only [improvedPickupScan, hf] at hlen ⊢
      split_ifs at hlen ⊢ with ht
      · exfalso
        obtain ⟨ext, hext⟩ := improvedPickupScan_lift_mono rest
          { boardPerson s i with people_pending := s.people_pending.erase i }
        rw [hext] at hlen
        simp only [boardPerson, List.length_append, List.length_singleton] at hlen
        omega
      · exact ih hlen

theorem IInv_improvedDropPerson {F : Nat} {ids0 : List Nat} {s : Sim} {i : Nat}
    (hids0 : ids0.Nodup) (h : IInv F ids0 s)
    (hp : ∃ p, findPerson s.people_overview i = some p ∧ p.delivered = false)
    {pend' : List Nat}
    (hpend' : pend' = s.people_pending.erase i ∨
      (pend' = s.people_pending ∧ i ∉ s.people_pending)) :
    IInv F ids0 { dropPerson s i with people_pending := pend' } := by
  obtain ⟨hids, hcore, hcnt, ⟨hnd, hmem⟩, hlside, ⟨hpnd, hpmem⟩, hflo⟩ := h
  obtain ⟨p, hfind, hdel⟩ := hp
  have hnids : (s.people_overview.map Person.id).Nodup := by
    rw [hids]
    exact hids0
  have hjpend : ∀ j ∈ pend', j ∈ s.people_pending ∧ j ≠ i := by
    intro j hj
    rcases hpend' with hc | ⟨hc, hni⟩
    · rw [hc] at hj
      exact ⟨List.mem_of_mem_erase hj, (hpnd.mem_erase_iff.mp hj).1⟩
    · rw [hc] at hj
      exact ⟨hj, fun he => hni (he ▸ hj)⟩
  refine ⟨?_, ?_, ?_, ⟨hnd.erase i, ?_⟩, ?_, ⟨?_, ?_⟩, hflo⟩
  · show (markDelivered s.people_overview i).map Person.id = ids0
    rw [markDelivered_map_id]
    exact hids
  · exact CoresOK_markDelivered hcore
  · show s.num_people_delivered + 1 = _
    rw [hcnt]
    exact (length_filter_delivered_markDelivered hnids hfind hdel).symm
  · intro j hj
    have hj' : j ∈ s.people_lift := List.mem_of_mem_erase hj
    have hjne : j ≠ i := by
      intro he
      subst he
      exact (List.Nodup.not_mem_erase hnd) hj
    obtain ⟨q, hq, hqdel⟩ := hmem j hj'
    refine ⟨q, ?_, hqdel⟩
    show findPerson (markDelivered s.people_overview i) j = some q
    rw [findPerson_markDelivered_ne hjne]
    exact hq
  · intro j hj
    have hj' : j ∈ s.people_lift := List.mem_of_mem_erase hj
    have hjne : j ≠ i := by
      intro he
      subst he
      exact (List.Nodup.not_mem_erase hnd) hj
    obtain ⟨q, hq, hqs⟩ := hlside j hj'
    refine ⟨q, ?_, hqs⟩
    show findPerson (markDelivered s.people_overview i) j = some q
    rw [findPerson_markDelivered_ne hjne]
    exact hq
  · rcases hpend' with hc | ⟨hc, _⟩
    · rw [hc]
      exact hpnd.erase i
    · rw [hc]
      exact hpnd
  · intro j hj
    obtain ⟨hjp, hjne⟩ := hjpend j hj
    obtain ⟨q, hq, hqdel⟩ := hpmem j hjp
    refine ⟨q, ?_, hqdel⟩
    show findPerson (markDelivered s.people_overview i) j = some q
    rw [findPerson_markDelivered_ne hjne]
    exact hq

theorem improvedDropScan_preserves (copy : List Nat) (s : Sim) :
    (improvedDropScan copy s).1.lift_floor = s.lift_floor ∧
    (improvedDropScan copy s).1.lift_direction = s.lift_direction ∧
    (improvedDropScan copy s).1.distance_travelled = s.distance_travelled ∧
    ∀ x ∈ (improvedDropScan copy s).2,
      x.lift_floor = s.lift_floor ∧ x.lift_direction = s.lift_direction ∧
      x.distance_travelled = s.distance_travelled := by
  induction copy generalizing s with
  | nil => simp [improvedDropScan]
  | cons i rest ih =>
    cases hf : findPerson s.people_overview i with
    | none =>
      simp only [improvedDropScan, hf]
      exact ih s
    | some p =>
      simp only [improvedDropScan, hf]
      split_ifs with ht hc
      · have hrec := ih { dropPerson s i with
          people_pending := s.people_pending.erase i }
        refine ⟨hrec.1, hrec.2.1, hrec.2.2.1, ?_⟩
        intro x hx
        rcases List.mem_cons.mp hx with hx | hx
        · subst hx
          exact ⟨rfl, rfl, rfl⟩
        · exact hrec.2.2.2 x hx
      · have hrec := ih (dropPerson s i)
        refine ⟨hrec.1, hrec.2.1, hrec.2.2.1, ?_⟩
        intro x hx
        rcases List.mem_cons.mp hx with hx | hx
        · subst hx
          exact ⟨rfl, rfl, rfl⟩
        · exact hrec.2.2.2 x hx
      · exact ih s

theorem improvedDropScan_lift_subset (copy : List Nat) (s : Sim) :
    ∀ j ∈ (improvedDropScan copy s).1.people_lift, j ∈ s.people_lift := by
  induction copy generalizing s with
  | nil => simp [improvedDropScan]
  | cons i rest ih =>
    cases hf : findPerson s.people_overview i with
    | none =>
      simp only [improvedDropScan, hf]
      exact ih s
    | some p =>
      simp only [improvedDropScan, hf]
      split_ifs with ht hc
      · intro j hj
        have := ih { dropPerson s i with
          people_pending := s.people_pending.erase i } j hj
        exact List.mem_of_mem_erase this
      · intro j hj
        have := ih (dropPerson s i) j hj
        exact List.mem_of_mem_erase this
      · exact ih s

theorem uCount_improvedDropScan_le (copy : List Nat) (s : Sim) :
    uCount (improvedDropScan copy s).1 ≤ uCount s := by
  induction copy generalizing s with
  | nil => simp [improvedDropScan]
  | cons i rest ih =>
    cases hf : findPerson s.people_overview i with
    | none =>
      simp only [improvedDropScan, hf]
      exact ih s
    | some p =>
      simp only [improvedDropScan, hf]
      split_ifs with ht hc
      · exact le_trans
          (ih { dropPerson s i with people_pending := s.people_pending.erase i })
          (uCount_dropPerson_le s i)
      · exact le_trans (ih (dropPerson s i)) (uCount_dropPerson_le s i)
      · exact ih s

theorem improvedDropScan_inv {F : Nat} {ids0 : List Nat} (hids0 : ids0.Nodup) :
    ∀ (copy : List Nat) (s : Sim), (∀ j ∈ copy, j ∈ s.people_lift) →
      copy.Nodup → IInv F ids0 s →
      IInv F ids0 (improvedDropScan copy s).1 ∧
      ∀ x ∈ (improvedDropScan copy s).2, IInv F ids0 x := by
  intro copy
  induction copy with
  | nil =>
    intro s _ _ h
    exact ⟨h, by simp [improvedDropScan]⟩
  | cons i rest ih =>
    intro s hsub hnd h
    have hnd' : rest.Nodup := (List.nodup_cons.mp hnd).2
    have hini : i ∉ rest := (List.nodup_cons.mp hnd).1
    cases hf : findPerson s.people_overview i with
    | none =>
      simp only [improvedDropScan, hf]
      exact ih s (fun j hj => hsub j (List.mem_cons_of_mem i hj)) hnd' h
    | some p =>
      simp only [improvedDropScan, hf]
      have hil : i ∈ s.people_lift := hsub i (List.mem_cons_self i rest)
      obtain ⟨q, hq, hqdel⟩ := h.2.2.2.1.2 i hil
      have hpq : q = p := by rw [hq] at hf; exact Option.some.inj hf
      subst hpq
      have hrest : ∀ (s1 : Sim), s1.people_lift = s.people_lift.erase i →
          ∀ j ∈ rest, j ∈ s1.people_lift := by
        intro s1 hs1 j hj
        rw [hs1]
        have hjne : j ≠ i := fun he => hini (he ▸ hj)
        exact (List.mem_erase_of_ne hjne).mpr
          (hsub j (List.mem_cons_of_mem i hj))
      split_ifs with ht hc
      · have h1 := IInv_improvedDropPerson hids0 h ⟨q, hq, hqdel⟩
          (Or.inl rfl)
        have hrec := ih { dropPerson s i with
            people_pending := s.people_pending.erase i }
          (hrest _ rfl) hnd' h1
        refine ⟨hrec.1, ?_⟩
        intro x hx
        rcases List.mem_cons.mp hx with hx | hx
        · subst hx
          exact h1
        · exact hrec.2 x hx
      · have hnc : i ∉ s.people_pending := by
          intro hm
          exact hc (nat_contains_iff.mpr hm)
        have h1 : IInv F ids0 (dropPerson s i) :=
          IInv_improvedDropPerson hids0 h ⟨q, hq, hqdel⟩ (Or.inr ⟨rfl, hnc⟩)
        have hrec := ih (dropPerson s i) (hrest _ rfl) hnd' h1
        refine ⟨hrec.1, ?_⟩
        intro x hx
        rcases List.mem_cons.mp hx with hx | hx
        · subst hx
          exact h1
        · exact hrec.2 x hx
      · exact ih s (fun j hj => hsub j (List.mem_cons_of_mem i hj)) hnd' h

theorem improvedDropScan_unchanged_or_dec {F : Nat} {ids0 : List Nat}
    (hids0 : ids0.Nodup) :
    ∀ (copy : List Nat) (s : Sim), (∀ j ∈ copy, j ∈ s.people_lift) →
      IInv F ids0 s →
      improvedDropScan copy s = (s, []) ∨
        uCount (improvedDropScan copy s).1 < uCount s := by
  intro copy
  induction copy with
  | nil =>
    intro s _ _
    exact Or.inl (by simp [improvedDropScan])
  | cons i rest ih =>
    intro s hsub h
    cases hf : findPerson s.people_overview i with
    | none =>
      simp only [improvedDropScan, hf]
      exact ih s (fun j hj => hsub j (List.mem_cons_of_mem i hj)) h
    | some p =>
      simp only [improvedDropScan, hf]
      have hil : i ∈ s.people_lift := hsub i (List.mem_cons_self i rest)
      obtain ⟨q, hq, hqdel⟩ := h.2.2.2.1.2 i hil
      have hpq : q = p := by rw [hq] at hf; exact Option.some.inj hf
      subst hpq
      have hnids : (s.people_overview.map Person.id).Nodup := by
        rw [h.1]
        exact hids0
      have hdec : uCount (dropPerson s i) + 1 = uCount s :=
        uCount_dropPerson hnids hq hqdel
      split_ifs with ht hc
      · refine Or.inr ?_
        have hle := uCount_improvedDropScan_le rest
          { dropPerson s i with people_pending := s.people_pending.erase i }
        have hbridge : uCount { dropPerson s i with
            people_pending := s.people_pending.erase i } =
          uCount (dropPerson s i) := rfl
        show uCount (improvedDropScan rest
          { dropPerson s i with
            people_pending := s.people_pending.erase i }).1 < uCount s
        omega
      · refine Or.inr ?_
        have hle := uCount_improvedDropScan_le rest (dropPerson s i)
        show uCount (improvedDropScan rest (dropPerson s i)).1 < uCount s
        omega
      · exact ih s (fun j hj => hsub j (List.mem_cons_of_mem i hj)) h

theorem improvedDropScan_mem_or_deliv (copy : List Nat) (s : Sim) :
    ∀ i, (i ∈ s.people_lift ∨ DelivTrue s i) →
      (i ∈ (improvedDropScan copy s).1.people_lift ∨
        DelivTrue (improvedDropScan copy s).1 i) := by
  induction copy generalizing s with
  | nil =>
    intro i hi
    simpa [improvedDropScan] using hi
  | cons j rest ih =>
    intro i hi
    cases hf : findPerson s.people_overview j with
    | none =>
      simp only [improvedDropScan, hf]
      exact ih s i hi
    | some p =>
      simp only [improvedDropScan, hf]
      have hstep : ∀ (pend' : List Nat),
          (i ∈ ({ dropPerson s j with people_pending := pend' } : Sim).people_lift ∨
            DelivTrue { dropPerson s j with people_pending := pend' } i) := by
        intro pend'
        rcases hi with hi | hi
        · by_cases he : i = j
          · subst he
            exact Or.inr (DelivTrue_dropPerson_self hf)
          · exact Or.inl ((List.mem_erase_of_ne he).mpr hi)
        · exact Or.inr (DelivTrue_dropPerson hi)
      split_ifs with ht hc
      · exact ih { dropPerson s j with
          people_pending := s.people_pending.erase j } i (hstep _)
      · exact ih (dropPerson s j) i (hstep _)
      · exact ih s i hi

theorem improvedDropScan_post {F : Nat} {ids0 : List Nat} (hids0 : ids0.Nodup) :
    ∀ (copy : List Nat) (s : Sim), (∀ j ∈ copy, j ∈ s.people_lift) →
      copy.Nodup → IInv F ids0 s →
      (∀ j ∈ s.people_lift, j ∈ copy ∨
        (∃ p, findPerson s.people_overview j = some p ∧
          p.target_floor ≠ s.lift_floor)) →
      ∀ j ∈ (improvedDropScan copy s).1.people_lift,
        ∃ p, findPerson (improvedDropScan copy s).1.people_overview j = some p ∧
          p.target_floor ≠ (improvedDropScan copy s).1.lift_floor := by
  intro copy
  induction copy with
  | nil =>
    intro s _ _ _ hall j hj
    rcases hall j hj with hc | hc
    · cases hc
    · exact hc
  | cons i rest ih =>
    intro s hsub hnd h hall
    have hnd' : rest.Nodup := (List.nodup_cons.mp hnd).2
    have hini : i ∉ rest := (List.nodup_cons.mp hnd).1
    have hil : i ∈ s.people_lift := hsub i (List.mem_cons_self i rest)
    obtain ⟨q, hq, hqdel⟩ := h.2.2.2.1.2 i hil
    cases hf : findPerson s.people_overview i with
    | none =>
      rw [hq] at hf
      cases hf
    | some p =>
      have hpq : q = p := by rw [hq] at hf; exact Option.some.inj hf
      subst hpq
      simp only [improvedDropScan, hf]
      have hcont : ∀ (pend' : List Nat),
          (∀ x ∈ pend', x ∈ s.people_pending) →
          (pend' = s.people_pending.erase i ∨
            (pend' = s.people_pending ∧ i ∉ s.people_pending)) →
          ∀ j ∈ (improvedDropScan rest
              { dropPerson s i with people_pending := pend' }).1.people_lift,
            ∃ p2, findPerson (improvedDropScan rest
                { dropPerson s i with people_pending := pend' }).1.people_overview
                j = some p2 ∧
              p2.target_floor ≠ (improvedDropScan rest
                { dropPerson s i with people_pending := pend' }).1.lift_floor := by
        intro pend' _ hpend'
        have h1 := IInv_improvedDropPerson hids0 h ⟨q, hq, hqdel⟩ hpend'
        refine ih { dropPerson s i with people_pending := pend' } ?_ hnd' h1 ?_
        · intro j hj
          have hjne : j ≠ i := fun he => hini (he ▸ hj)
          show j ∈ s.people_lift.erase i
          exact (List.mem_erase_of_ne hjne).mpr
            (hsub j (List.mem_cons_of_mem i hj))
        · intro j hj
          have hjl : j ∈ s.people_lift := List.mem_of_mem_erase hj
          have hjne : j ≠ i := by
            intro he
            subst he
            exact (List.Nodup.not_mem_erase h.2.2.2.1.1) hj
          rcases hall j hjl with hc | hc
          · rcases List.mem_cons.mp hc with hc | hc
            · exact absurd hc hjne
            · exact Or.inl hc
          · obtain ⟨q2, hq2, hqt⟩ := hc
            refine Or.inr ⟨q2, ?_, hqt⟩
            show findPerson (markDelivered s.people_overview i) j = some q2
            rw [findPerson_markDelivered_ne hjne]
            exact hq2
      split_ifs with ht hc
      · exact hcont (s.people_pending.erase i)
          (fun x hx => List.mem_of_mem_erase hx) (Or.inl rfl)
      · have hnc : i ∉ s.people_pending := fun hm => hc (nat_contains_iff.mpr hm)
        exact hcont s.people_pending (fun x hx => hx) (Or.inr ⟨rfl, hnc⟩)
      · refine ih s (fun j hj => hsub j (List.mem_cons_of_mem i hj)) hnd' h ?_
        intro j hj
        rcases hall j hj with hc2 | hc2
        · rcases List.mem_cons.mp hc2 with hc2 | hc2
          · subst hc2
            exact Or.inr ⟨q, hf, ht⟩
          · exact Or.inl hc2
        · exact Or.inr hc2

theorem improvedBoardScan_preserves (cap : Nat) (hDir : LDir) :
    ∀ (ps : List Person) (s : Sim),
      (improvedBoardScan cap hDir ps s).1.people_overview = s.people_overview ∧
      (improvedBoardScan cap hDir ps s).1.lift_floor = s.lift_floor ∧
      (improvedBoardScan cap hDir ps s).1.lift_direction = s.lift_direction ∧
      (improvedBoardScan cap hDir ps s).1.distance_travelled =
        s.distance_travelled ∧
      (improvedBoardScan cap hDir ps s).1.num_people_delivered =
        s.num_people_delivered ∧
      (improvedBoardScan cap hDir ps s).1.people_pending = s.people_pending := by
  intro ps
  induction ps with
  | nil =>
    intro s
    exact ⟨rfl, rfl, rfl, rfl, rfl, rfl⟩
  | cons p rest ih =>
    intro s
    rw [improvedBoardScan]
    split_ifs with hc
    · exact ih (boardPerson s p.id)
    · exact ih s

theorem improvedBoardScan_lift_mono (cap : Nat) (hDir : LDir) :
    ∀ (ps : List Person) (s : Sim),
      ∃ ext, (improvedBoardScan cap hDir ps s).1.people_lift =
        s.people_lift ++ ext := by
  intro ps
  induction ps with
  | nil =>
    intro s
    exact ⟨[], by simp [improvedBoardScan]⟩
  | cons p rest ih =>
    intro s
    rw [improvedBoardScan]
    split_ifs with hc
    · obtain ⟨ext, hext⟩ := ih (boardPerson s p.id)
      exact ⟨p.id :: ext, by
        rw [hext]
        simp [boardPerson]⟩
    · exact ih s

theorem improvedBoardScan_len (cap : Nat) (hDir : LDir) :
    ∀ (ps : List Person) (s : Sim),
      (improvedBoardScan cap hDir ps s).1.people_lift.length ≤
        max s.people_lift.length cap := by
  intro ps
  induction ps with
  | nil =>
    intro s
    exact le_max_left _ _
  | cons p rest ih =>
    intro s
    rw [improvedBoardScan]
    split_ifs with hc
    · have hrec := ih (boardPerson s p.id)
      have hlen : (boardPerson s p.id).people_lift.length =
          s.people_lift.length + 1 := by
        simp [boardPerson]
      have hcap : (s.people_lift.length : Int) < (cap : Int) := hc.2.1
      have hcap' : s.people_lift.length < cap := by exact_mod_cast hcap
      rw [hlen] at hrec
      show (improvedBoardScan cap hDir rest (boardPerson s p.id)).1.people_lift.length ≤
        max s.people_lift.length cap
      omega
    · exact ih s

theorem improvedBoardScan_new_aboard (cap : Nat) (hDir : LDir) :
    ∀ (ps : List Person) (s : Sim),
      (s.people_overview.map Person.id).Nodup →
      (∀ p ∈ ps, p ∈ s.people_overview) →
      ∀ j ∈ (improvedBoardScan cap hDir ps s).1.people_lift,
        j ∈ s.people_lift ∨
          ∃ p, findPerson s.people_overview j = some p ∧
            p.start_floor = s.lift_floor ∧ p.delivered = false := by
  intro ps
  induction ps with
  | nil =>
    intro s _ _ j hj
    exact Or.inl hj
  | cons p rest ih =>
    intro s hnids hmem j hj
    rw [improvedBoardScan] at hj
    split_ifs at hj with hc
    · rcases ih (boardPerson s p.id) hnids
        (fun q hq => hmem q (List.mem_cons_of_mem p hq)) j hj with hm | hm
      · rcases List.mem_append.mp hm with hm | hm
        · exact Or.inl hm
        · rw [List.mem_singleton] at hm
          subst hm
          have hfp : findPerson s.people_overview p.id = some p :=
            findPerson_self hnids (hmem p (List.mem_cons_self p rest))
          exact Or.inr ⟨p, hfp, hc.2.2.1, hc.2.2.2.1⟩
      · exact Or.inr hm
    · exact ih s hnids (fun q hq => hmem q (List.mem_cons_of_mem p hq)) j hj

theorem IInv_boardPersonImp {F : Nat} {ids0 : List Nat} {s : Sim} {i : Nat}
    {p : Person} (h : IInv F ids0 s)
    (hfind : findPerson s.people_overview i = some p)
    (hstart : p.start_floor = s.lift_floor) (hdel : p.delivered = false)
    (hnl : i ∉ s.people_lift) : IInv F ids0 (boardPerson s i) := by
  obtain ⟨hids, hcore, hcnt, ⟨hnd, hmem⟩, hlside, hpend, hflo⟩ := h
  have hcp : CorePerson F p := hcore p (findPerson_mem hfind).1
  refine ⟨hids, hcore, hcnt, ⟨?_, ?_⟩, ?_, hpend, hflo⟩
  · show (s.people_lift ++ [i]).Nodup
    rw [List.nodup_append]
    refine ⟨hnd, List.nodup_singleton i, ?_⟩
    intro a ha hb
    rw [List.mem_singleton] at hb
    subst hb
    exact hnl ha
  · intro j hj
    rcases List.mem_append.mp hj with hj | hj
    · exact hmem j hj
    · rw [List.mem_singleton] at hj
      subst hj
      exact ⟨p, hfind, hdel⟩
  · intro j hj
    rcases List.mem_append.mp hj with hj | hj
    · exact hlside j hj
    · rw [List.mem_singleton] at hj
      subst hj
      refine ⟨p, hfind, ?_, ?_⟩
      · intro hup
        have := hcp.2.2.2.2.2
        rw [hup] at this
        have hgt : p.target_floor - p.start_floor > 0 := by
          by_contra hgt
          rw [if_neg hgt] at this
          cases this
        show s.lift_floor ≤ p.target_floor
        omega
      · intro hdn
        have := hcp.2.2.2.2.2
        rw [hdn] at this
        have hgt : ¬ p.target_floor - p.start_floor > 0 := by
          by_contra hgt
          rw [if_pos hgt] at this
          cases this
        show p.target_floor ≤ s.lift_floor
        omega

theorem improvedBoardScan_inv {F : Nat} {ids0 : List Nat} (hids0 : ids0.Nodup)
    (cap : Nat) (hDir : LDir) :
    ∀ (ps : List Person) (s : Sim), (∀ p ∈ ps, p ∈ s.people_overview) →
      IInv F ids0 s →
      IInv F ids0 (improvedBoardScan cap hDir ps s).1 ∧
      ∀ x ∈ (improvedBoardScan cap hDir ps s).2, IInv F ids0 x := by
  intro ps
  induction ps with
  | nil =>
    intro s _ h
    exact ⟨h, by simp [improvedBoardScan]⟩
  | cons p rest ih =>
    intro s hmem h
    rw [improvedBoardScan]
    split_ifs with hc
    · have hnids : (s.people_overview.map Person.id).Nodup := by
        rw [h.1]
        exact hids0
      have hfp : findPerson s.people_overview p.id = some p :=
        findPerson_self hnids (hmem p (List.mem_cons_self p rest))
      have hnl : p.id ∉ s.people_lift := by
        intro hm
        exact hc.1 (nat_contains_iff.mpr hm)
      have h1 := IInv_boardPersonImp h hfp hc.2.2.1 hc.2.2.2.1 hnl
      have hrec := ih (boardPerson s p.id)
        (fun q hq => hmem q (List.mem_cons_of_mem p hq)) h1
      refine ⟨hrec.1, ?_⟩
      intro x hx
      rcases List.mem_cons.mp hx with hx | hx
      · subst hx
        exact h1
      · exact hrec.2 x hx
    · exact ih s (fun q hq => hmem q (List.mem_cons_of_mem p hq)) h

theorem lift_len_le_ids {F : Nat} {ids0 : List Nat} {s : Sim}
    (h : IInv F ids0 s) : s.people_lift.length ≤ ids0.length := by
  obtain ⟨hids, _, _, ⟨hnd, hmem⟩, _, _, _⟩ := h
  have hsub : s.people_lift ⊆ s.people_overview.map Person.id := by
    intro i hi
    obtain ⟨p, hp, _⟩ := hmem i hi
    obtain ⟨hpm, hpid⟩ := findPerson_mem hp
    rw [← hpid]
    exact List.mem_map_of_mem Person.id hpm
  have hperm := hnd.subperm hsub
  have := hperm.length_le
  rw [hids] at this
  exact this

theorem corePerson_dir_cases {F : Nat} {p : Person} (hcp : CorePerson F p) :
    (p.direction = LDir.Up ∧ p.start_floor < p.target_floor) ∨
    (p.direction = LDir.Down ∧ p.target_floor ≤ p.start_floor) := by
  have hd := hcp.2.2.2.2.2
  by_cases hgt : p.target_floor - p.start_floor > 0
  · rw [if_pos hgt] at hd
    exact Or.inl ⟨hd, by omega⟩
  · rw [if_neg hgt] at hd
    exact Or.inr ⟨hd, by omega⟩

theorem deliver_improved_spec {F : Nat} {ids0 : List Nat} (hids0 : ids0.Nodup)
    (hF : 2 ≤ F) (cap : Nat) :
    ∀ fuel (s : Sim) (out : Sim × List Sim), IInv F ids0 s →
      deliver_person_with_improved_algorithm cap fuel s = some out →
      IInv F ids0 out.1 ∧ out.1.people_lift = [] ∧
      (∀ x ∈ out.2, IInv F ids0 x) ∧
      uCount out.1 ≤ uCount s ∧
      (∀ i, (i ∈ s.people_lift ∨ DelivTrue s i) → DelivTrue out.1 i) ∧
      (s.people_lift ≠ [] → uCount out.1 < uCount s) := by
  intro fuel
  induction fuel with
  | zero =>
    intro s out h hrun
    simp only [deliver_person_with_improved_algorithm] at hrun
    split_ifs at hrun with hl
    cases hrun
    refine ⟨h, hl, by simp, le_refl _, ?_, fun hc => absurd hl hc⟩
    intro i hi
    rcases hi with hi | hi
    · rw [hl] at hi
      cases hi
    · exact hi
  | succ fuel ih =>
    intro s out h hrun
    by_cases hl : s.people_lift = []
    · rw [deliver_person_with_improved_algorithm, if_pos hl] at hrun
      cases hrun
      refine ⟨h, hl, by simp, le_refl _, ?_, fun hc => absurd hl hc⟩
      intro i hi
      rcases hi with hi | hi
      · rw [hl] at hi
        cases hi
      · exact hi
    · simp only [deliver_person_with_improved_algorithm, if_neg hl] at hrun
      set r1 := improvedDropScan s.people_lift s with hr1
      have hnd1 : s.people_lift.Nodup := h.2.2.2.1.1
      have hdrop := improvedDropScan_inv hids0 s.people_lift s
        (fun j hj => hj) hnd1 h
      have h1 : IInv F ids0 r1.1 := hdrop.1
      have hu1 : uCount r1.1 ≤ uCount s := uCount_improvedDropScan_le _ s
      have hpost := improvedDropScan_post hids0 s.people_lift s
        (fun j hj => hj) hnd1 h (fun j hj => Or.inl hj)
      cases hl1 : r1.1.people_lift with
      | nil =>
        simp only [hl1] at hrun
        cases hrun
        refine ⟨h1, hl1, hdrop.2, hu1, ?_, ?_⟩
        · intro i hi
          have := improvedDropScan_mem_or_deliv s.people_lift s i hi
          rcases this with hm | hm
          · rw [← hr1, hl1] at hm
            cases hm
          · rw [← hr1] at hm
            exact hm
        · intro _
          rcases improvedDropScan_unchanged_or_dec hids0 s.people_lift s
            (fun j hj => hj) h with hcase | hcase
          · exfalso
            have : r1.1.people_lift = s.people_lift := by
              rw [hr1, hcase]
            rw [hl1] at this
            exact hl this.symm
          · rw [← hr1] at hcase
            exact hcase
      | cons h0 rest0 =>
        simp only [hl1] at hrun
        cases hf0 : findPerson r1.1.people_overview h0 with
        | none =>
          simp only [hf0] at hrun
          cases hrun
        | some p0 =>
          simp only [hf0] at hrun
          set r2 := improvedBoardScan cap p0.direction r1.1.people_overview r1.1
            with hr2
          set s3 := improvedMove p0.direction r2.1 with hs3
          have hnids1 : (r1.1.people_overview.map Person.id).Nodup := by
            rw [h1.1]
            exact hids0
          have hboard := improvedBoardScan_inv hids0 cap p0.direction
            r1.1.people_overview r1.1 (fun p hp => hp) h1
          have h2 : IInv F ids0 r2.1 := hboard.1
          have hpres2 := improvedBoardScan_preserves cap p0.direction
            r1.1.people_overview r1.1
          have hfl2 : r2.1.lift_floor = r1.1.lift_floor := by
            rw [hr2]
            exact hpres2.2.1
          have hov2 : r2.1.people_overview = r1.1.people_overview := by
            rw [hr2]
            exact hpres2.1
          have hside2 : ∀ i ∈ r2.1.people_lift,
              ∃ p, findPerson r2.1.people_overview i = some p ∧
                sideOK p r2.1.lift_floor ∧
                p.target_floor ≠ r2.1.lift_floor := by
            intro i hi
            have hnew := improvedBoardScan_new_aboard cap p0.direction
              r1.1.people_overview r1.1 hnids1 (fun p hp => hp) i hi
            rcases hnew with hold | ⟨p, hp, hpstart, hpdel⟩
            · obtain ⟨p, hp, hpne⟩ := hpost i hold
              obtain ⟨q, hq, hqs⟩ := h1.2.2.2.2.1 i hold
              have hqp : q = p := by rw [hq] at hp; exact Option.some.inj hp
              subst hqp
              rw [hov2, hfl2]
              exact ⟨q, hq, hqs, hpne⟩
            · have hcp : CorePerson F p := h1.2.1 p (findPerson_mem hp).1
              rw [hov2, hfl2]
              refine ⟨p, hp, ?_, ?_⟩
              · rcases corePerson_dir_cases hcp with ⟨hd, hlt⟩ | ⟨hd, hle⟩
                · refine ⟨fun _ => ?_, fun hdn => ?_⟩
                  · omega
                  · rw [hd] at hdn
                    cases hdn
                · refine ⟨fun hup => ?_, fun _ => ?_⟩
                  · rw [hd] at hup
                    cases hup
                  · omega
              · have hst := hcp.2.2.2.2.1
                omega
          have hp0core : CorePerson F p0 := h1.2.1 p0 (findPerson_mem hf0).1
          have hp0side : sideOK p0 r1.1.lift_floor := by
            obtain ⟨q, hq, hqs⟩ := h1.2.2.2.2.1 h0 (by rw [hl1]; exact List.mem_cons_self _ _)
            have hqp : q = p0 := by rw [hq] at hf0; exact Option.some.inj hf0
            subst hqp
            exact hqs
          have hp0ne : p0.target_floor ≠ r1.1.lift_floor := by
            obtain ⟨q, hq, hqne⟩ := hpost h0 (by rw [hl1]; exact List.mem_cons_self _ _)
            have hqp : q = p0 := by rw [hq] at hf0; exact Option.some.inj hf0
            subst hqp
            exact hqne
          have hfl1b : -1 ≤ r1.1.lift_floor ∧ r1.1.lift_floor ≤ (F : Int) - 1 :=
            h1.2.2.2.2.2.2
          have hmfl : -1 ≤ r2.1.lift_floor +
              (if p0.direction = LDir.Up then 1 else -1) ∧
              r2.1.lift_floor + (if p0.direction = LDir.Up then 1 else -1) ≤
                (F : Int) - 1 := by
            rw [hfl2]
            rcases corePerson_dir_cases hp0core with ⟨hd, _⟩ | ⟨hd, _⟩
            · rw [hd]
              rw [show (if (LDir.Up = LDir.Up) then (1 : Int) else -1) = 1 by simp]
              have hup := hp0side.1 hd
              have ht1 := hp0core.2.2.2.1
              have hne0 := hp0ne
              constructor <;> omega
            · rw [hd]
              rw [show (if (LDir.Down = LDir.Up) then (1 : Int) else -1) = -1 by simp]
              have hdn := hp0side.2 hd
              have ht0 := hp0core.2.2.1
              have hne0 := hp0ne
              constructor <;> omega
          have h3 : IInv F ids0 s3 := IInv_improvedMove h2 hside2 hmfl
          cases hrec : deliver_person_with_improved_algorithm cap fuel s3 with
          | none =>
            rw [hrec] at hrun
            cases hrun
          | some out' =>
            rw [hrec] at hrun
            simp only [Option.map_some'] at hrun
            obtain ⟨hi1, hi2, hi3, hi4, hi5, hi6⟩ := ih s3 out' h3 hrec
            have hu2 : uCount r2.1 = uCount r1.1 := by
              unfold uCount
              rw [hov2]
            have hu3 : uCount s3 = uCount r2.1 := uCount_improvedMove _ _
            cases hrun
            refine ⟨hi1, hi2, ?_, ?_, ?_, ?_⟩
            · intro x hx
              have hx' : x ∈ r1.2 ∨ x ∈ r2.2 ∨ x = s3 ∨ x ∈ out'.2 := by
                simp only [List.mem_append, List.mem_cons, List.mem_singleton] at hx
                tauto
              rcases hx' with hx | hx | rfl | hx
              · exact hdrop.2 x hx
              · exact hboard.2 x hx
              · exact h3
              · exact hi3 x hx
            · show uCount out'.1 ≤ uCount s
              omega
            · intro i hi
              refine hi5 i ?_
              have hstep := improvedDropScan_mem_or_deliv s.people_lift s i hi
              rw [← hr1] at hstep
              rcases hstep with hstep | hstep
              · obtain ⟨ext2, hext2⟩ := improvedBoardScan_lift_mono cap
                  p0.direction r1.1.people_overview r1.1
                have hm2 : i ∈ r2.1.people_lift := by
                  rw [← hr2] at hext2
                  rw [hext2]
                  exact List.mem_append_left _ hstep
                exact Or.inl hm2
              · refine Or.inr (DelivTrue_improvedMove ?_)
                obtain ⟨p, hp, hpd⟩ := hstep
                exact ⟨p, by rw [hov2]; exact hp, hpd⟩
            · intro _
              show uCount out'.1 < uCount s
              rcases improvedDropScan_unchanged_or_dec hids0 s.people_lift s
                (fun j hj => hj) h with hcase | hcase
              · have hs3ne : s3.people_lift ≠ [] := by
                  rw [hs3, improvedMove_lift]
                  obtain ⟨ext2, hext2⟩ := improvedBoardScan_lift_mono cap
                    p0.direction r1.1.people_overview r1.1
                  rw [← hr2] at hext2
                  rw [hext2, hl1]
                  simp
                have hstrict := hi6 hs3ne
                have hueq : uCount r1.1 = uCount s := by
                  rw [hr1, hcase]
                omega
              · rw [← hr1] at hcase
                omega

theorem headTargetDist_le {F : Nat} {ids0 : List Nat} {s : Sim}
    (h : IInv F ids0 s) : headTargetDist s ≤ F := by
  cases hlift : s.people_lift with
  | nil => simp [headTargetDist, hlift]
  | cons j rest =>
    cases hf : findPerson s.people_overview j with
    | none => simp [headTargetDist, hlift, hf]
    | some p =>
      have hred : headTargetDist s = (p.target_floor - s.lift_floor).natAbs := by
        simp [headTargetDist, hlift, hf]
      rw [hred]
      have hcore := h.2.1 p (findPerson_mem hf).1
      have hflo : FloorOK F s := h.2.2.2.2.2.2
      have hf1 : -1 ≤ s.lift_floor := hflo.1
      have hf2 : s.lift_floor ≤ (F : Int) - 1 := hflo.2
      have ht0 := hcore.2.2.1
      have ht1 := hcore.2.2.2.1
      omega

theorem deliver_improved_term {F : Nat} {ids0 : List Nat} (hids0 : ids0.Nodup)
    (hF : 2 ≤ F) (cap : Nat) :
    ∀ fuel (s : Sim), IInv F ids0 s →
      uCount s * (F + 1) + headTargetDist s < fuel →
      ∃ out, deliver_person_with_improved_algorithm cap fuel s = some out := by
  intro fuel
  induction fuel with
  | zero =>
    intro s h hm
    exact absurd hm (Nat.not_lt_zero _)
  | succ fuel ih =>
    intro s h hm
    by_cases hl : s.people_lift = []
    · exact ⟨(s, []), by rw [deliver_person_with_improved_algorithm, if_pos hl]⟩
    · set r1 := improvedDropScan s.people_lift s with hr1
      have hnd1 : s.people_lift.Nodup := h.2.2.2.1.1
      have hdrop := improvedDropScan_inv hids0 s.people_lift s
        (fun j hj => hj) hnd1 h
      have h1 : IInv F ids0 r1.1 := hdrop.1
      have hpost := improvedDropScan_post hids0 s.people_lift s
        (fun j hj => hj) hnd1 h (fun j hj => Or.inl hj)
      have hstep0 : deliver_person_with_improved_algorithm cap (fuel + 1) s =
          match r1.1.people_lift with
          | [] => some (r1.1, r1.2)
          | h0 :: _ =>
            match findPerson r1.1.people_overview h0 with
            | none => none
            | some p0 =>
              (deliver_person_with_improved_algorithm cap fuel
                (improvedMove p0.direction
                  (improvedBoardScan cap p0.direction
                    r1.1.people_overview r1.1).1)).map (fun r =>
                (r.1, r1.2 ++ (improvedBoardScan cap p0.direction
                  r1.1.people_overview r1.1).2 ++
                  [improvedMove p0.direction (improvedBoardScan cap p0.direction
                    r1.1.people_overview r1.1).1] ++ r.2)) := by
        rw [deliver_person_with_improved_algorithm, if_neg hl]
      cases hl1 : r1.1.people_lift with
      | nil =>
        refine ⟨(r1.1, r1.2), ?_⟩
        rw [hstep0]
        simp only [hl1]
      | cons h0 rest0 =>
        obtain ⟨p0, hf0, _⟩ := h1.2.2.2.1.2 h0
          (by rw [hl1]; exact List.mem_cons_self _ _)
        set r2 := improvedBoardScan cap p0.direction r1.1.people_overview r1.1
          with hr2
        set s3 := improvedMove p0.direction r2.1 with hs3
        have hnids1 : (r1.1.people_overview.map Person.id).Nodup := by
          rw [h1.1]
          exact hids0
        have hboard := improvedBoardScan_inv hids0 cap p0.direction
          r1.1.people_overview r1.1 (fun p hp => hp) h1
        have h2 : IInv F ids0 r2.1 := hboard.1
        have hpres2 := improvedBoardScan_preserves cap p0.direction
          r1.1.people_overview r1.1
        have hfl2 : r2.1.lift_floor = r1.1.lift_floor := by
          rw [hr2]
          exact hpres2.2.1
        have hov2 : r2.1.people_overview = r1.1.people_overview := by
          rw [hr2]
          exact hpres2.1
        have hside2 : ∀ i ∈ r2.1.people_lift,
            ∃ p, findPerson r2.1.people_overview i = some p ∧
              sideOK p r2.1.lift_floor ∧
              p.target_floor ≠ r2.1.lift_floor := by
          intro i hi
          have hnew := improvedBoardScan_new_aboard cap p0.direction
            r1.1.people_overview r1.1 hnids1 (fun p hp => hp) i hi
          rcases hnew with hold | ⟨p, hp, hpstart, hpdel⟩
          · obtain ⟨p, hp, hpne⟩ := hpost i hold
            obtain ⟨q, hq, hqs⟩ := h1.2.2.2.2.1 i hold
            have hqp : q = p := by rw [hq] at hp; exact Option.some.inj hp
            subst hqp
            rw [hov2, hfl2]
            exact ⟨q, hq, hqs, hpne⟩
          · have hcp : CorePerson F p := h1.2.1 p (findPerson_mem hp).1
            rw [hov2, hfl2]
            refine ⟨p, hp, ?_, ?_⟩
            · rcases corePerson_dir_cases hcp with ⟨hd, hlt⟩ | ⟨hd, hle⟩
              · refine ⟨fun _ => ?_, fun hdn => ?_⟩
                · omega
                · rw [hd] at hdn
                  cases hdn
              · refine ⟨fun hup => ?_, fun _ => ?_⟩
                · rw [hd] at hup
                  cases hup
                · omega
            · have hst := hcp.2.2.2.2.1
              omega
        have hp0core : CorePerson F p0 := h1.2.1 p0 (findPerson_mem hf0).1
        have hp0side : sideOK p0 r1.1.lift_floor := by
          obtain ⟨q, hq, hqs⟩ := h1.2.2.2.2.1 h0
            (by rw [hl1]; exact List.mem_cons_self _ _)
          have hqp : q = p0 := by rw [hq] at hf0; exact Option.some.inj hf0
          subst hqp
          exact hqs
        have hp0ne : p0.target_floor ≠ r1.1.lift_floor := by
          obtain ⟨q, hq, hqne⟩ := hpost h0
            (by rw [hl1]; exact List.mem_cons_self _ _)
          have hqp : q = p0 := by rw [hq] at hf0; exact Option.some.inj hf0
          subst hqp
          exact hqne
        have hfl1b : -1 ≤ r1.1.lift_floor ∧ r1.1.lift_floor ≤ (F : Int) - 1 :=
          h1.2.2.2.2.2.2
        have hmfl : -1 ≤ r2.1.lift_floor +
            (if p0.direction = LDir.Up then 1 else -1) ∧
            r2.1.lift_floor + (if p0.direction = LDir.Up then 1 else -1) ≤
              (F : Int) - 1 := by
          rw [hfl2]
          rcases corePerson_dir_cases hp0core with ⟨hd, _⟩ | ⟨hd, _⟩
          · rw [hd]
            rw [show (if (LDir.Up = LDir.Up) then (1 : Int) else -1) = 1 by simp]
            have hup := hp0side.1 hd
            have ht1 := hp0core.2.2.2.1
            have hne0 := hp0ne
            constructor <;> omega
          · rw [hd]
            rw [show (if (LDir.Down = LDir.Up) then (1 : Int) else -1) = -1 by simp]
            have hdn := hp0side.2 hd
            have ht0 := hp0core.2.2.1
            have hne0 := hp0ne
            constructor <;> omega
        have h3 : IInv F ids0 s3 := IInv_improvedMove h2 hside2 hmfl
        have hu2 : uCount r2.1 = uCount r1.1 := by
          unfold uCount
          rw [hov2]
        have hu3 : uCount s3 = uCount r2.1 := by
          rw [hs3]
          exact uCount_improvedMove _ _
        have hmeas : uCount s3 * (F + 1) + headTargetDist s3 < fuel := by
          rcases improvedDropScan_unchanged_or_dec hids0 s.people_lift s
            (fun j hj => hj) h with hcase | hcase
          · -- no drop-off: the head passenger's target distance shrinks by one
            have he1 : r1 = (s, []) := hr1.trans hcase
            have he11 : r1.1 = s := by rw [he1]
            have hueq : uCount r1.1 = uCount s := by rw [he11]
            obtain ⟨ext2, hext2⟩ := improvedBoardScan_lift_mono cap
              p0.direction r1.1.people_overview r1.1
            rw [← hr2] at hext2
            have hlift3 : s3.people_lift = h0 :: (rest0 ++ ext2) := by
              rw [hs3, improvedMove_lift, hext2, hl1]
              simp
            have hfind2 : findPerson r2.1.people_overview h0 = some p0 := by
              rw [hov2]
              exact hf0
            obtain ⟨p2, hp2, _, _, hp2t, _, _⟩ :=
              @findPerson_updateCurrentFloors_fields _ r2.1.people_lift
                (r2.1.lift_floor +
                  (if p0.direction = LDir.Up then 1 else -1)) _ _ hfind2
            have hfind3 : findPerson s3.people_overview h0 = some p2 := hp2
            have e1 : headTargetDist s3 =
                (p2.target_floor - s3.lift_floor).natAbs := by
              simp [headTargetDist, hlift3, hfind3]
            have e2 : headTargetDist s =
                (p0.target_floor - s.lift_floor).natAbs := by
              have hlsS : s.people_lift = h0 :: rest0 := by
                rw [← he11]
                exact hl1
              have hf0s : findPerson s.people_overview h0 = some p0 := by
                rw [← he11]
                exact hf0
              simp [headTargetDist, hlsS, hf0s]
            have e3 : s3.lift_floor = r1.1.lift_floor +
                (if p0.direction = LDir.Up then 1 else -1) := by
              rw [hs3, improvedMove_floor, hfl2]
            have hflS : r1.1.lift_floor = s.lift_floor := by rw [he11]
            have hdist : headTargetDist s3 + 1 = headTargetDist s := by
              rw [e1, e2, e3, hp2t, hflS]
              rcases corePerson_dir_cases hp0core with ⟨hd, _⟩ | ⟨hd, _⟩
              · rw [hd]
                rw [show (if (LDir.Up = LDir.Up) then (1 : Int) else -1) = 1
                  by simp]
                have hup := hp0side.1 hd
                rw [hflS] at hup
                have hne0 := hp0ne
                rw [hflS] at hne0
                omega
              · rw [hd]
                rw [show (if (LDir.Down = LDir.Up) then (1 : Int) else -1) = -1
                  by simp]
                have hdn := hp0side.2 hd
                rw [hflS] at hdn
                have hne0 := hp0ne
                rw [hflS] at hne0
                omega
            have hu30 : uCount s3 = uCount s := by omega
            rw [hu30]
            omega
          · -- a drop-off happened: the undelivered count decreased
            have hcase' : uCount r1.1 < uCount s := by
              rw [hr1]
              exact hcase
            have hhd3 : headTargetDist s3 ≤ F := headTargetDist_le h3
            have huu : uCount s3 + 1 ≤ uCount s := by omega
            have hexp : (uCount s3 + 1) * (F + 1) =
                uCount s3 * (F + 1) + (F + 1) := by ring
            have hmono : (uCount s3 + 1) * (F + 1) ≤
                uCount s * (F + 1) := Nat.mul_le_mul_right _ huu
            omega
        obtain ⟨out', hout'⟩ := ih s3 h3 hmeas
        refine ⟨(out'.1, r1.2 ++ r2.2 ++ [s3] ++ out'.2), ?_⟩
        rw [hstep0]
        simp only [hl1, hf0, ← hr2, ← hs3, hout', Option.map_some']

theorem updateCurrentFloors_nil (ps : List Person) (fl : Int) :
    updateCurrentFloors ps [] fl = ps := by
  unfold updateCurrentFloors
  have : ps.map (fun p => if ([] : List Nat).contains p.id then
      { p with current_floor := fl } else p) = ps.map (fun p => p) :=
    List.map_congr_left (fun p _ => by simp)
  rw [this]
  simp

theorem improvedDirection_cases (a b : Int) :
    (improvedDirection a b = LDir.Up ∧ b < a) ∨
    (improvedDirection a b = LDir.Down ∧ a < b) ∨
    (improvedDirection a b = LDir.NoDir ∧ a = b) := by
  unfold improvedDirection
  split_ifs with h1 h2
  · exact Or.inl ⟨rfl, by omega⟩
  · exact Or.inr (Or.inl ⟨rfl, by omega⟩)
  · exact Or.inr (Or.inr ⟨rfl, by omega⟩)

theorem collect_improved_spec {F : Nat} {ids0 : List Nat} (hids0 : ids0.Nodup)
    (hF : 2 ≤ F) (cap : Nat) {s : Sim} (h : IInv F ids0 s)
    (hlift : s.people_lift = []) (hpend : s.people_pending ≠ []) :
    ∃ out, collect_person_with_improved_algorithm cap s = some out ∧
      IInv F ids0 out.1 ∧ (∀ x ∈ out.2, IInv F ids0 x) ∧
      uCount out.1 = uCount s ∧
      (out.1.people_lift ≠ [] ∨
        (out.1.people_lift = [] ∧ out.1.people_pending ≠ [] ∧
          headStartDist out.1 + 1 = headStartDist s)) := by
  obtain ⟨i0, t0, hpl⟩ : ∃ i0 t0, s.people_pending = i0 :: t0 := by
    cases hps : s.people_pending with
    | nil => exact absurd hps hpend
    | cons a b => exact ⟨a, b, rfl⟩
  obtain ⟨hp, hfp, hpdel⟩ := h.2.2.2.2.2.1.2 i0
    (by rw [hpl]; exact List.mem_cons_self _ _)
  have hcp : CorePerson F hp := h.2.1 hp (findPerson_mem hfp).1
  have hflo : FloorOK F s := h.2.2.2.2.2.2
  simp only [collect_person_with_improved_algorithm, hpl, hfp]
  set d := improvedDirection hp.start_floor s.lift_floor with hd
  set s1 := if d = LDir.NoDir then s
    else improvedPendingScan cap d (|hp.start_floor - s.lift_floor|)
      s.people_overview s with hs1
  set r2 := improvedPickupScan s1.people_pending s1 with hr2
  have h1 : IInv F ids0 s1 := by
    rw [hs1]
    split_ifs with hdN
    · exact h
    · exact IInv_improvedPendingScan hids0 cap d _ s.people_overview s
        (fun p hp2 => hp2) h
  have hs1ov : s1.people_overview = s.people_overview := by
    rw [hs1]
    split_ifs with hdN
    · rfl
    · exact (improvedPendingScan_preserves cap d _ s.people_overview s).1
  have hs1lift : s1.people_lift = [] := by
    rw [hs1]
    split_ifs with hdN
    · exact hlift
    · rw [(improvedPendingScan_preserves cap d _ s.people_overview s).2.1]
      exact hlift
  have hs1fl : s1.lift_floor = s.lift_floor := by
    rw [hs1]
    split_ifs with hdN
    · rfl
    · exact (improvedPendingScan_preserves cap d _ s.people_overview s).2.2.1
  obtain ⟨pext, hs1pend⟩ : ∃ pext, s1.people_pending =
      s.people_pending ++ pext := by
    rw [hs1]
    split_ifs with hdN
    · exact ⟨[], by simp⟩
    · exact (improvedPendingScan_preserves cap d _ s.people_overview s).2.2.2.2.2.2
  have hpick := improvedPickupScan_inv hids0 s1.people_pending s1
    h1.2.2.2.2.2.1.1 (fun i hi => hi) (fun i hi => by
      rw [hs1lift]
      exact List.not_mem_nil i) h1
  have h2 : IInv F ids0 r2.1 := by
    rw [hr2]
    exact hpick.1
  have hr2ov : r2.1.people_overview = s1.people_overview := by
    rw [hr2]
    exact (improvedPickupScan_preserves s1.people_pending s1).1
  have hr2fl : r2.1.lift_floor = s1.lift_floor := by
    rw [hr2]
    exact (improvedPickupScan_preserves s1.people_pending s1).2.1
  have hu2 : uCount r2.1 = uCount s := by
    unfold uCount
    rw [hr2ov, hs1ov]
  have hside : ∀ i ∈ r2.1.people_lift,
      ∃ p, findPerson r2.1.people_overview i = some p ∧
        sideOK p r2.1.lift_floor ∧ p.target_floor ≠ r2.1.lift_floor := by
    intro i hi
    have hnew : i ∈ s1.people_lift ∨
        ∃ p, findPerson s1.people_overview i = some p ∧
          p.start_floor = s1.lift_floor := by
      rw [hr2] at hi
      exact improvedPickupScan_new_aboard s1.people_pending s1 i hi
    rcases hnew with hold | ⟨p, hpf, hpstart⟩
    · rw [hs1lift] at hold
      cases hold
    · have hcp2 : CorePerson F p := h1.2.1 p (findPerson_mem hpf).1
      rw [hr2ov, hr2fl]
      refine ⟨p, hpf, ?_, ?_⟩
      · rcases corePerson_dir_cases hcp2 with ⟨hdp, hlt⟩ | ⟨hdp, hle⟩
        · refine ⟨fun _ => ?_, fun hdn => ?_⟩
          · omega
          · rw [hdp] at hdn
            cases hdn
        · refine ⟨fun hup => ?_, fun _ => ?_⟩
          · rw [hdp] at hup
            cases hup
          · omega
      · have hst := hcp2.2.2.2.2.1
        omega
  have hmfl : -1 ≤ r2.1.lift_floor + (if d = LDir.Up then 1 else -1) ∧
      r2.1.lift_floor + (if d = LDir.Up then 1 else -1) ≤ (F : Int) - 1 := by
    rw [hr2fl, hs1fl]
    have hs0 := hcp.1
    have hs1b := hcp.2.1
    have hfl0 := hflo.1
    have hfl1 := hflo.2
    rcases improvedDirection_cases hp.start_floor s.lift_floor with
      ⟨hdc, hord⟩ | ⟨hdc, hord⟩ | ⟨hdc, hord⟩
    · rw [← hd] at hdc
      rw [hdc]
      rw [show (if (LDir.Up = LDir.Up) then (1 : Int) else -1) = 1 by simp]
      constructor <;> omega
    · rw [← hd] at hdc
      rw [hdc]
      rw [show (if (LDir.Down = LDir.Up) then (1 : Int) else -1) = -1 by simp]
      constructor <;> omega
    · rw [← hd] at hdc
      rw [hdc]
      rw [show (if (LDir.NoDir = LDir.Up) then (1 : Int) else -1) = -1 by simp]
      constructor <;> omega
  have h3 : IInv F ids0 (improvedMove d r2.1) := IInv_improvedMove h2 hside hmfl
  have hu3 : uCount (improvedMove d r2.1) = uCount s := by
    rw [uCount_improvedMove]
    exact hu2
  by_cases hpe : r2.1.people_pending = []
  · -- everyone pending was picked up at this floor
    refine ⟨(r2.1, s1 :: r2.2), ?_, h2, ?_, hu2, Or.inl ?_⟩
    · rw [if_pos hpe]
    · intro x hx
      rcases List.mem_cons.mp hx with hx | hx
      · subst hx
        exact h1
      · rw [hr2] at hx
        exact hpick.2 x hx
    · intro habs
      have hlen : r2.1.people_lift.length = s1.people_lift.length := by
        rw [habs, hs1lift]
      have hnb : improvedPickupScan s1.people_pending s1 = (s1, []) := by
        rw [hr2] at hlen
        exact improvedPickupScan_no_board hlen
      have : r2.1.people_pending = s1.people_pending := by
        rw [hr2, hnb]
      rw [this, hs1pend, hpl] at hpe
      simp at hpe
  · -- someone is still pending: the lift moves one floor toward the head
    refine ⟨(improvedMove d r2.1, s1 :: r2.2 ++ [improvedMove d r2.1]),
      ?_, h3, ?_, hu3, ?_⟩
    · rw [if_neg hpe]
    · intro x hx
      simp only [List.mem_cons, List.mem_append, List.mem_singleton] at hx
      rcases hx with (rfl | hx) | (rfl | hemp)
      · exact h1
      · rw [hr2] at hx
        exact hpick.2 x hx
      · exact h3
      · cases hemp
    · by_cases hbl : (improvedMove d r2.1).people_lift = []
      · refine Or.inr ⟨hbl, ?_, ?_⟩
        · rw [improvedMove_pending]
          exact hpe
        · -- nothing was picked up, so the scan was the identity and the
          -- move shrank the distance to the head pending passenger
          have hlen : r2.1.people_lift.length = s1.people_lift.length := by
            rw [improvedMove_lift] at hbl
            rw [hbl, hs1lift]
          have hnb : improvedPickupScan s1.people_pending s1 = (s1, []) := by
            rw [hr2] at hlen
            exact improvedPickupScan_no_board hlen
          have hr2s1 : r2.1 = s1 := by
            rw [hr2, hnb]
          have hdne : d ≠ LDir.NoDir := by
            intro hdN
            have hs1s : s1 = s := by
              rw [hs1, if_pos hdN]
            have hstart : hp.start_floor = s.lift_floor := by
              rcases improvedDirection_cases hp.start_floor s.lift_floor with
                ⟨hdc, hord⟩ | ⟨hdc, hord⟩ | ⟨hdc, hord⟩
              · rw [← hd, hdN] at hdc
                cases hdc
              · rw [← hd, hdN] at hdc
                cases hdc
              · exact hord
            have hpickeq : improvedPickupScan s.people_pending s = (s, []) := by
              rw [← hs1s]
              exact hnb
            rw [hpl] at hpickeq
            simp only [improvedPickupScan, hfp, if_pos hstart] at hpickeq
            have := congrArg (fun r => r.2) hpickeq
            simp at this
          have hpendeq : r2.1.people_pending = s.people_pending ++ pext := by
            rw [hr2s1, hs1pend]
          have hmv_pend : (improvedMove d r2.1).people_pending =
              (i0 :: t0) ++ pext := by
            rw [improvedMove_pending, hpendeq, hpl]
          have hmv_ov : (improvedMove d r2.1).people_overview =
              s.people_overview := by
            show updateCurrentFloors r2.1.people_overview r2.1.people_lift _ =
              s.people_overview
            rw [hr2s1, hs1lift, updateCurrentFloors_nil, hs1ov]
          have hfind_mv : findPerson (improvedMove d r2.1).people_overview i0 =
              some hp := by
            rw [hmv_ov]
            exact hfp
          have hmv_fl : (improvedMove d r2.1).lift_floor =
              s.lift_floor + (if d = LDir.Up then 1 else -1) := by
            rw [improvedMove_floor, hr2fl, hs1fl]
          have e1 : headStartDist (improvedMove d r2.1) =
              (hp.start_floor - (improvedMove d r2.1).lift_floor).natAbs := by
            simp [headStartDist, hmv_pend, hfind_mv]
          have e2 : headStartDist s =
              (hp.start_floor - s.lift_floor).natAbs := by
            simp [headStartDist, hpl, hfp]
          rw [e1, e2, hmv_fl]
          rcases improvedDirection_cases hp.start_floor s.lift_floor with
            ⟨hdc, hord⟩ | ⟨hdc, hord⟩ | ⟨hdc, hord⟩
          · rw [← hd] at hdc
            rw [hdc]
            rw [show (if (LDir.Up = LDir.Up) then (1 : Int) else -1) = 1 by simp]
            omega
          · rw [← hd] at hdc
            rw [hdc]
            rw [show (if (LDir.Down = LDir.Up) then (1 : Int) else -1) = -1
              by simp]
            omega
          · rw [← hd] at hdc
            exact absurd hdc hdne
      · exact Or.inl hbl

theorem improvedSeed_fields (s : Sim) :
    (improvedSeed s).people_overview = s.people_overview ∧
    (improvedSeed s).people_lift = s.people_lift ∧
    (improvedSeed s).lift_floor = s.lift_floor := by
  unfold improvedSeed
  cases s.people_overview.find? (fun p => !p.delivered) with
  | none => exact ⟨rfl, rfl, rfl⟩
  | some p => exact ⟨rfl, rfl, rfl⟩

theorem uCount_improvedSeed (s : Sim) : uCount (improvedSeed s) = uCount s := by
  unfold uCount
  rw [(improvedSeed_fields s).1]

theorem IInv_improvedSeed {F : Nat} {ids0 : List Nat} (hids0 : ids0.Nodup)
    {s : Sim} (h : IInv F ids0 s) (hpE : s.people_pending = []) :
    IInv F ids0 (improvedSeed s) := by
  unfold improvedSeed
  cases hfq : s.people_overview.find? (fun p => !p.delivered) with
  | none => exact h
  | some q =>
    obtain ⟨hids, hcore, hcnt, hlift, hlside, _, hflo⟩ := h
    refine ⟨hids, hcore, hcnt, hlift, hlside, ⟨?_, ?_⟩, hflo⟩
    · show (s.people_pending ++ [q.id]).Nodup
      rw [hpE]
      exact List.nodup_singleton _
    · intro j hj
      show ∃ p, findPerson s.people_overview j = some p ∧ p.delivered = false
      rw [hpE] at hj
      simp only [List.nil_append, List.mem_singleton] at hj
      subst hj
      have hqmem : q ∈ s.people_overview := List.mem_of_find?_eq_some hfq
      have hqd : q.delivered = false := by
        have := List.find?_some hfq
        simpa using this
      have hnids : (s.people_overview.map Person.id).Nodup := by
        rw [hids]
        exact hids0
      exact ⟨q, findPerson_self hnids hqmem, hqd⟩

theorem improvedSeed_pending {s : Sim} (hpE : s.people_pending = [])
    (hnall : ¬ s.people_overview.all (fun p => p.delivered) = true) :
    ∃ q, s.people_overview.find? (fun p => !p.delivered) = some q ∧
      (improvedSeed s).people_pending = [q.id] := by
  have hex : ∃ p ∈ s.people_overview, p.delivered = false := by
    rw [List.all_eq_true] at hnall
    push_neg at hnall
    obtain ⟨p, hp, hpd⟩ := hnall
    exact ⟨p, hp, by simpa using hpd⟩
  obtain ⟨p, hp, hpd⟩ := hex
  have hsome : (s.people_overview.find? (fun p => !p.delivered)).isSome := by
    rw [List.find?_isSome]
    exact ⟨p, hp, by simp [hpd]⟩
  cases hfq : s.people_overview.find? (fun p => !p.delivered) with
  | none =>
    rw [hfq] at hsome
    cases hsome
  | some q =>
    refine ⟨q, rfl, ?_⟩
    simp [improvedSeed, hfq, hpE]

theorem headStartDist_le {F : Nat} {ids0 : List Nat} {s : Sim}
    (h : IInv F ids0 s) : headStartDist s ≤ F := by
  cases hlist : s.people_pending with
  | nil => simp [headStartDist, hlist]
  | cons j rest =>
    cases hf : findPerson s.people_overview j with
    | none => simp [headStartDist, hlist, hf]
    | some p =>
      have hred : headStartDist s = (p.start_floor - s.lift_floor).natAbs := by
        simp [headStartDist, hlist, hf]
      rw [hred]
      have hcore := h.2.1 p (findPerson_mem hf).1
      have hflo : FloorOK F s := h.2.2.2.2.2.2
      have hf1 : -1 ≤ s.lift_floor := hflo.1
      have hf2 : s.lift_floor ≤ (F : Int) - 1 := hflo.2
      have hs0 := hcore.1
      have hs1 := hcore.2.1
      omega

theorem deliver_improved_empty (cap delFuel : Nat) {s : Sim}
    (hl : s.people_lift = []) :
    deliver_person_with_improved_algorithm cap delFuel s = some (s, []) := by
  cases delFuel with
  | zero => rw [deliver_person_with_improved_algorithm, if_pos hl]
  | succ n => rw [deliver_person_with_improved_algorithm, if_pos hl]

theorem uCount_pos_of_not_all {s : Sim}
    (hnall : ¬ s.people_overview.all (fun p => p.delivered) = true) :
    1 ≤ uCount s := by
  rw [List.all_eq_true] at hnall
  push_neg at hnall
  obtain ⟨p, hp, hpd⟩ := hnall
  have hmem : p ∈ s.people_overview.filter (fun p => !p.delivered) :=
    List.mem_filter.mpr ⟨hp, by simpa using hpd⟩
  have := List.length_pos.mpr (List.ne_nil_of_mem hmem)
  exact this

theorem improvedOuter_props {F : Nat} {ids0 : List Nat} (hids0 : ids0.Nodup)
    (hF : 2 ≤ F) (cap delFuel : Nat) :
    ∀ (fuel : Nat) (s : Sim) (out : Sim × List Sim), IInv F ids0 s →
      s.people_lift = [] →
      improvedOuterLoop cap delFuel fuel s = some out →
      IInv F ids0 out.1 ∧ out.1.people_lift = [] ∧
      ∀ x ∈ out.2, IInv F ids0 x := by
  intro fuel
  induction fuel with
  | zero =>
    intro s out h hl hrun
    simp only [improvedOuterLoop] at hrun
    split_ifs at hrun
    cases hrun
    exact ⟨h, hl, by simp⟩
  | succ fuel ih =>
    intro s out h hl hrun
    simp only [improvedOuterLoop] at hrun
    split_ifs at hrun with hall hpE
    · cases hrun
      exact ⟨h, hl, by simp⟩
    · -- seed branch
      cases hrec : improvedOuterLoop cap delFuel fuel (improvedSeed s) with
      | none =>
        rw [hrec] at hrun
        cases hrun
      | some outr =>
        rw [hrec, Option.map_some'] at hrun
        cases hrun
        have h1 : IInv F ids0 (improvedSeed s) := IInv_improvedSeed hids0 h hpE
        have hl1 : (improvedSeed s).people_lift = [] := by
          rw [(improvedSeed_fields s).2.1]
          exact hl
        obtain ⟨hr1, hr2, hr3⟩ := ih (improvedSeed s) outr h1 hl1 hrec
        refine ⟨hr1, hr2, ?_⟩
        intro x hx
        rcases List.mem_cons.mp hx with hx | hx
        · subst hx
          exact h1
        · exact hr3 x hx
    · -- collect / deliver branch
      obtain ⟨outc, hc, hc1, hc2, hc3, _⟩ :=
        collect_improved_spec hids0 hF cap h hl hpE
      rw [hc] at hrun
      cases hd : deliver_person_with_improved_algorithm cap delFuel outc.1 with
      | none =>
        rw [show outc = (outc.1, outc.2) from rfl] at hrun
        simp only [hd] at hrun
        cases hrun
      | some outd =>
        rw [show outc = (outc.1, outc.2) from rfl] at hrun
        simp only [hd] at hrun
        obtain ⟨hd1, hd2, hd3, _, _, _⟩ :=
          deliver_improved_spec hids0 hF cap delFuel outc.1 outd hc1 hd
        cases hrec : improvedOuterLoop cap delFuel fuel outd.1 with
        | none =>
          rw [show outd = (outd.1, outd.2) from rfl] at hrun
          simp only [hrec] at hrun
          cases hrun
        | some outr =>
          rw [show outd = (outd.1, outd.2) from rfl] at hrun
          simp only [hrec, Option.map_some'] at hrun
          cases hrun
          obtain ⟨hr1, hr2, hr3⟩ := ih outd.1 outr hd1 hd2 hrec
          refine ⟨hr1, hr2, ?_⟩
          intro x hx
          simp only [List.mem_append] at hx
          rcases hx with (hx | hx) | hx
          · exact hc2 x hx
          · exact hd3 x hx
          · exact hr3 x hx

theorem improvedOuter_term {F : Nat} {ids0 : List Nat} (hids0 : ids0.Nodup)
    (hF : 2 ≤ F) (cap : Nat) {delFuel : Nat}
    (hdel : ids0.length * (F + 1) + F + 1 ≤ delFuel) :
    ∀ (fuel : Nat) (s : Sim), IInv F ids0 s → s.people_lift = [] →
      uCount s * (2 * F + 2) +
        (if s.people_pending = [] then F + 1 else 0) + headStartDist s < fuel →
      ∃ out, improvedOuterLoop cap delFuel fuel s = some out ∧
        ∀ p ∈ out.1.people_overview, p.delivered = true := by
  intro fuel
  induction fuel with
  | zero =>
    intro s h hl hm
    exact absurd hm (Nat.not_lt_zero _)
  | succ fuel ih =>
    intro s h hl hm
    by_cases hall : s.people_overview.all (fun p => p.delivered) = true
    · refine ⟨(s, []), ?_, ?_⟩
      · rw [improvedOuterLoop, if_pos hall]
      · intro p hp
        exact List.all_eq_true.mp hall p hp
    · by_cases hpE : s.people_pending = []
      · -- seed a new head pending passenger
        have h1 : IInv F ids0 (improvedSeed s) := IInv_improvedSeed hids0 h hpE
        have hl1 : (improvedSeed s).people_lift = [] := by
          rw [(improvedSeed_fields s).2.1]
          exact hl
        obtain ⟨q, hfq, hs1p⟩ := improvedSeed_pending hpE hall
        have hs1pne : (improvedSeed s).people_pending ≠ [] := by
          rw [hs1p]
          simp
        have hu1 : uCount (improvedSeed s) = uCount s := uCount_improvedSeed s
        have hhsd1 : headStartDist (improvedSeed s) ≤ F := headStartDist_le h1
        have hhsd0 : headStartDist s = 0 := by
          simp [headStartDist, hpE]
        rw [if_pos hpE, hhsd0] at hm
        have hm1 : uCount (improvedSeed s) * (2 * F + 2) +
            (if (improvedSeed s).people_pending = [] then F + 1 else 0) +
            headStartDist (improvedSeed s) < fuel := by
          rw [hu1, if_neg hs1pne]
          omega
        obtain ⟨outr, hrec, hdeliv⟩ := ih (improvedSeed s) h1 hl1 hm1
        refine ⟨(outr.1, improvedSeed s :: outr.2), ?_, hdeliv⟩
        rw [improvedOuterLoop, if_neg hall, if_pos hpE]
        simp only [hrec, Option.map_some']
      · -- a pending passenger exists: collect, then deliver
        rw [if_neg hpE] at hm
        obtain ⟨outc, hc, hc1, hc2, hc3, hdich⟩ :=
          collect_improved_spec hids0 hF cap h hl hpE
        obtain ⟨c1, ctr⟩ := outc
        rcases hdich with hbl | ⟨hbl, hcpne, hdist⟩
        · -- someone boarded: the deliver phase strictly decreases the
          -- number of undelivered passengers
          have hule : uCount c1 ≤ ids0.length := uCount_le_length hc1.1
          have hmono : uCount c1 * (F + 1) ≤ ids0.length * (F + 1) :=
            Nat.mul_le_mul_right _ hule
          have hhtd : headTargetDist c1 ≤ F := headTargetDist_le hc1
          obtain ⟨outd, hd⟩ := deliver_improved_term hids0 hF cap delFuel c1
            hc1 (by omega)
          obtain ⟨d1, dtr⟩ := outd
          obtain ⟨hd1, hd2, hd3, hd4, hd5, hd6⟩ :=
            deliver_improved_spec hids0 hF cap delFuel c1 (d1, dtr) hc1 hd
          have hstrict : uCount d1 < uCount c1 := hd6 hbl
          have huc : uCount c1 = uCount s := hc3
          have hu' : uCount d1 + 1 ≤ uCount s := by omega
          have hmono2 : (uCount d1 + 1) * (2 * F + 2) ≤
              uCount s * (2 * F + 2) := Nat.mul_le_mul_right _ hu'
          have hexp : (uCount d1 + 1) * (2 * F + 2) =
              uCount d1 * (2 * F + 2) + (2 * F + 2) := by ring
          have hflag : (if d1.people_pending = [] then F + 1 else 0) ≤ F + 1 := by
            split <;> omega
          have hhsdd : headStartDist d1 ≤ F := headStartDist_le hd1
          have hmd : uCount d1 * (2 * F + 2) +
              (if d1.people_pending = [] then F + 1 else 0) +
              headStartDist d1 < fuel := by
            omega
          obtain ⟨outr, hrec, hdeliv⟩ := ih d1 hd1 hd2 hmd
          refine ⟨(outr.1, ctr ++ dtr ++ outr.2), ?_, hdeliv⟩
          rw [improvedOuterLoop, if_neg hall, if_neg hpE]
          simp only [hc, hd, hrec, Option.map_some']
        · -- nobody was picked up: the lift moved one floor toward the head
          -- pending passenger
          have hdeq := deliver_improved_empty cap delFuel hbl
          have hmc : uCount c1 * (2 * F + 2) +
              (if c1.people_pending = [] then F + 1 else 0) +
              headStartDist c1 < fuel := by
            rw [hc3, if_neg hcpne]
            have hdist' : headStartDist c1 + 1 = headStartDist s := hdist
            omega
          obtain ⟨outr, hrec, hdeliv⟩ := ih c1 hc1 hbl hmc
          refine ⟨(outr.1, ctr ++ [] ++ outr.2), ?_, hdeliv⟩
          rw [improvedOuterLoop, if_neg hall, if_neg hpE]
          simp only [hc, hdeq, hrec, Option.map_some']

theorem IInv_initSim {F : Nat} {people : List Person} (hF : 2 ≤ F)
    (hv : ValidPeople F people) :
    IInv F (people.map Person.id) (initSim people) := by
  have hn := initSim_inv hF hv
  refine ⟨hn.1, hn.2.1, hn.2.2.1, hn.2.2.2.1, ?_, ⟨List.nodup_nil, ?_⟩, ?_, ?_⟩
  · intro i hi
    cases hi
  · intro i hi
    cases hi
  · have h0 : (0 : Int) ≤ (initSim people).lift_floor := hn.2.2.2.2.1.1
    omega
  · exact hn.2.2.2.2.1.2.1

theorem run_improved_props {F : Nat} {people : List Person} {cap fuel : Nat}
    {out : Sim × List Sim} (hF : 2 ≤ F) (hv : ValidPeople F people)
    (hrun : run_simulation_with_improved_algorithm cap fuel people = some out) :
    IInv F (people.map Person.id) out.1 ∧
    ∀ x ∈ out.2, IInv F (people.map Person.id) x := by
  unfold run_simulation_with_improved_algorithm at hrun
  cases houter : improvedOuterLoop cap fuel fuel (initSim people) with
  | none =>
    simp only [houter] at hrun
    cases hrun
  | some outo =>
    simp only [houter, Option.map_some'] at hrun
    cases hrun
    have h0 := IInv_initSim hF hv
    obtain ⟨ho1, _, ho3⟩ :=
      improvedOuter_props hv.1 hF cap fuel fuel (initSim people) outo h0 rfl
        houter
    refine ⟨ho1, ?_⟩
    intro x hx
    rcases List.mem_cons.mp hx with hx | hx
    · subst hx
      exact h0
    · exact ho3 x hx

theorem run_improved_total {F : Nat} {people : List Person} (cap : Nat)
    (hF : 2 ≤ F) (hv : ValidPeople F people) :
    ∃ fuel out,
      run_simulation_with_improved_algorithm cap fuel people = some out ∧
      (∀ p ∈ out.1.people_overview, p.delivered = true) ∧
      out.1.num_people_delivered = people.length := by
  refine ⟨people.length * (2 * F + 2) + 2 * F + 3, ?_⟩
  have hlen : (people.map Person.id).length = people.length := List.length_map _ _
  have h0 := IInv_initSim hF hv
  have hdel : (people.map Person.id).length * (F + 1) + F + 1 ≤
      people.length * (2 * F + 2) + 2 * F + 3 := by
    rw [hlen]
    have : people.length * (F + 1) ≤ people.length * (2 * F + 2) :=
      Nat.mul_le_mul_left _ (by omega)
    omega
  have hule : uCount (initSim people) ≤ (people.map Person.id).length :=
    uCount_le_length h0.1
  have hm : uCount (initSim people) * (2 * F + 2) +
      (if (initSim people).people_pending = [] then F + 1 else 0) +
      headStartDist (initSim people) <
      people.length * (2 * F + 2) + 2 * F + 3 := by
    have hmono : uCount (initSim people) * (2 * F + 2) ≤
        people.length * (2 * F + 2) := by
      refine Nat.mul_le_mul_right _ ?_
      rw [← hlen]
      exact hule
    have hflag : (if (initSim people).people_pending = [] then F + 1 else 0) ≤
        F + 1 := by
      split <;> omega
    have hhsd : headStartDist (initSim people) = 0 := by
      simp [headStartDist, initSim]
    omega
  obtain ⟨outo, houter, hdeliv⟩ :=
    improvedOuter_term hv.1 hF cap hdel
      (people.length * (2 * F + 2) + 2 * F + 3) (initSim people) h0 rfl hm
  refine ⟨(outo.1, initSim people :: outo.2), ?_, hdeliv, ?_⟩
  · unfold run_simulation_with_improved_algorithm
    simp only [houter, Option.map_some']
  · obtain ⟨ho1, _, _⟩ :=
      improvedOuter_props hv.1 hF cap
        (people.length * (2 * F + 2) + 2 * F + 3)
        (people.length * (2 * F + 2) + 2 * F + 3)
        (initSim people) outo h0 rfl houter
    have hcnt : outo.1.num_people_delivered =
        (outo.1.people_overview.filter (fun p => p.delivered)).length :=
      ho1.2.2.1
    have hfil : outo.1.people_overview.filter (fun p => p.delivered) =
        outo.1.people_overview := by
      rw [List.filter_eq_self]
      intro p hp
      simp [hdeliv p hp]
    show outo.1.num_people_delivered = people.length
    rw [hcnt, hfil]
    have : outo.1.people_overview.length = (people.map Person.id).length := by
      rw [← ho1.1]
      exact (List.length_map _ _).symm
    rw [this, hlen]

/-- C3: for every valid configuration (`num_floors ≥ 2`, `num_people ≥ 1`,
`lift_capacity ≥ 1`) and every initial passenger set satisfying the
data-model invariants, both dispatchers terminate (a finite fuel suffices),
and on termination every passenger is delivered and the delivered counter
equals `num_people`. -/
theorem dispatchers_terminate_all_delivered {F : Nat} {people : List Person}
    (cap : Nat) (hF : 2 ≤ F) (hn : 1 ≤ people.length) (hcap : 1 ≤ cap)
    (hv : ValidPeople F people) :
    (∃ fuel out, run_simulation_with_naive_algorithm F fuel people = some out ∧
      (∀ p ∈ out.1.people_overview, p.delivered = true) ∧
      out.1.num_people_delivered = people.length) ∧
    (∃ fuel out,
      run_simulation_with_improved_algorithm cap fuel people = some out ∧
      (∀ p ∈ out.1.people_overview, p.delivered = true) ∧
      out.1.num_people_delivered = people.length) :=
  ⟨run_naive_total hF hv, run_improved_total cap hF hv⟩

theorem dispatchers_terminate_all_delivered_witness :
    (1 ≤ scenarioBPeople.length) ∧ ValidPeople 5 scenarioBPeople ∧
    ((∃ fuel out,
      run_simulation_with_naive_algorithm 5 fuel scenarioBPeople = some out ∧
      (∀ p ∈ out.1.people_overview, p.delivered = true) ∧
      out.1.num_people_delivered = scenarioBPeople.length) ∧
    (∃ fuel out,
      run_simulation_with_improved_algorithm 5 fuel scenarioBPeople = some out ∧
      (∀ p ∈ out.1.people_overview, p.delivered = true) ∧
      out.1.num_people_delivered = scenarioBPeople.length)) :=
  ⟨by decide, by decide,
    dispatchers_terminate_all_delivered 5 (by decide) (by decide) (by decide)
      (by decide)⟩

/-- C2 (amended): at every step of a run (every state of the returned
trace, and the final state) the naive dispatcher keeps the lift's floor
within `0 ≤ floor ≤ num_floors - 1`, while the improved dispatcher only
keeps `-1 ≤ floor ≤ num_floors - 1`: its collect phase can move the lift
one floor below the bottom (see the counterexample), but no further, and
never above the top floor. -/
theorem lift_floor_bounds_amended {F : Nat} {people : List Person}
    {fueln fueli cap : Nat} (hF : 2 ≤ F) (hv : ValidPeople F people) :
    (∀ out, run_simulation_with_naive_algorithm F fueln people = some out →
      (0 ≤ out.1.lift_floor ∧ out.1.lift_floor ≤ (F : Int) - 1) ∧
      ∀ x ∈ out.2, 0 ≤ x.lift_floor ∧ x.lift_floor ≤ (F : Int) - 1) ∧
    (∀ out, run_simulation_with_improved_algorithm cap fueli people = some out →
      (-1 ≤ out.1.lift_floor ∧ out.1.lift_floor ≤ (F : Int) - 1) ∧
      ∀ x ∈ out.2, -1 ≤ x.lift_floor ∧ x.lift_floor ≤ (F : Int) - 1) := by
  constructor
  · intro out hrun
    obtain ⟨h1, h2⟩ := run_naive_props hF hv hrun
    exact ⟨⟨h1.2.2.2.2.1.1, h1.2.2.2.2.1.2.1⟩,
      fun x hx => ⟨(h2 x hx).2.2.2.2.1.1, (h2 x hx).2.2.2.2.1.2.1⟩⟩
  · intro out hrun
    obtain ⟨h1, h2⟩ := run_improved_props hF hv hrun
    exact ⟨⟨h1.2.2.2.2.2.2.1, h1.2.2.2.2.2.2.2⟩,
      fun x hx => ⟨(h2 x hx).2.2.2.2.2.2.1, (h2 x hx).2.2.2.2.2.2.2⟩⟩

theorem lift_floor_bounds_amended_witness :
    ValidPeople 5 scenarioBPeople ∧
    ((∀ out, run_simulation_with_naive_algorithm 5 100 scenarioBPeople =
        some out →
      (0 ≤ out.1.lift_floor ∧ out.1.lift_floor ≤ (5 : Int) - 1) ∧
      ∀ x ∈ out.2, 0 ≤ x.lift_floor ∧ x.lift_floor ≤ (5 : Int) - 1) ∧
    (∀ out, run_simulation_with_improved_algorithm 5 100 scenarioBPeople =
        some out →
      (-1 ≤ out.1.lift_floor ∧ out.1.lift_floor ≤ (5 : Int) - 1) ∧
      ∀ x ∈ out.2, -1 ≤ x.lift_floor ∧ x.lift_floor ≤ (5 : Int) - 1)) :=
  ⟨by decide, @lift_floor_bounds_amended 5 scenarioBPeople 100 100 5
    (by decide) (by decide)⟩

/-- C1 (amended): the improved dispatcher does not respect `lift_capacity`
at every step (the collect-phase pickup scan boards every pending passenger
at the current floor with no capacity check — see the counterexample); what
does hold is that (a) the number aboard never exceeds the total number of
passengers, at every step of every run, and (b) the deliver-phase boarding
scan is capacity-guarded: it never grows the occupant list beyond
`max` of its entry length and `lift_capacity`. -/
theorem improved_capacity_amended {F : Nat} {people : List Person}
    {fuel cap : Nat} (hF : 2 ≤ F) (hv : ValidPeople F people) :
    (∀ out, run_simulation_with_improved_algorithm cap fuel people = some out →
      out.1.people_lift.length ≤ people.length ∧
      ∀ x ∈ out.2, x.people_lift.length ≤ people.length) ∧
    (∀ (hDir : LDir) (ps : List Person) (s : Sim),
      (improvedBoardScan cap hDir ps s).1.people_lift.length ≤
        max s.people_lift.length cap) := by
  constructor
  · intro out hrun
    obtain ⟨h1, h2⟩ := run_improved_props hF hv hrun
    have hlen : (people.map Person.id).length = people.length :=
      List.length_map _ _
    constructor
    · have := lift_len_le_ids h1
      rw [hlen] at this
      exact this
    · intro x hx
      have := lift_len_le_ids (h2 x hx)
      rw [hlen] at this
      exact this
  · intro hDir ps s
    exact improvedBoardScan_len cap hDir ps s

theorem improved_capacity_amended_witness :
    ValidPeople 5 capacityCexPeople ∧
    ((∀ out, run_simulation_with_improved_algorithm 2 100 capacityCexPeople =
        some out →
      out.1.people_lift.length ≤ capacityCexPeople.length ∧
      ∀ x ∈ out.2, x.people_lift.length ≤ capacityCexPeople.length) ∧
    (∀ (hDir : LDir) (ps : List Person) (s : Sim),
      (improvedBoardScan 2 hDir ps s).1.people_lift.length ≤
        max s.people_lift.length 2)) :=
  ⟨by decide, @improved_capacity_amended 5 capacityCexPeople 100 2
    (by decide) (by decide)⟩

/-- C10: in the improved dispatcher, at every step of every run (every
state of the returned trace, and the final state) every passenger in the
pending queue exists in the store and has `delivered = false`: passengers
enter the queue only while undelivered, and a passenger marked delivered is
removed from the queue in the same drop-off step. -/
theorem improved_pending_undelivered {F : Nat} {people : List Person}
    {cap fuel : Nat} (hF : 2 ≤ F) (hv : ValidPeople F people) :
    ∀ out, run_simulation_with_improved_algorithm cap fuel people = some out →
      (∀ i ∈ out.1.people_pending, ∃ p,
        findPerson out.1.people_overview i = some p ∧ p.delivered = false) ∧
      ∀ x ∈ out.2, ∀ i ∈ x.people_pending, ∃ p,
        findPerson x.people_overview i = some p ∧ p.delivered = false := by
  intro out hrun
  obtain ⟨h1, h2⟩ := run_improved_props hF hv hrun
  exact ⟨h1.2.2.2.2.2.1.2, fun x hx => (h2 x hx).2.2.2.2.2.1.2⟩

theorem improved_pending_undelivered_witness :
    ValidPeople 5 capacityCexPeople ∧
    (∀ out, run_simulation_with_improved_algorithm 2 100 capacityCexPeople =
        some out →
      (∀ i ∈ out.1.people_pending, ∃ p,
        findPerson out.1.people_overview i = some p ∧ p.delivered = false) ∧
      ∀ x ∈ out.2, ∀ i ∈ x.people_pending, ∃ p,
        findPerson x.people_overview i = some p ∧ p.delivered = false) :=
  ⟨by decide, @improved_pending_undelivered 5 capacityCexPeople 2 100
    (by decide) (by decide)⟩

theorem resampleTarget_mono {r : Nat → Nat} {F start : Nat} :
    ∀ {fuel fuel' k : Nat} {out : Nat × Nat},
      resampleTarget r F start fuel k = some out → fuel ≤ fuel' →
      resampleTarget r F start fuel' k = some out := by
  intro fuel
  induction fuel with
  | zero =>
    intro fuel' k out h _
    simp [resampleTarget] at h
  | succ fuel ih =>
    intro fuel' k out h hle
    obtain ⟨fuel'', rfl⟩ : ∃ f2, fuel' = f2 + 1 := by
      cases fuel' with
      | zero => omega
      | succ n => exact ⟨n, rfl⟩
    rw [resampleTarget] at h ⊢
    split_ifs at h ⊢ with hc
    · exact h
    · exact ih h (by omega)

theorem resampleTarget_props {r : Nat → Nat} {F start : Nat} (hF : 2 ≤ F) :
    ∀ {fuel k : Nat} {out : Nat × Nat},
      resampleTarget r F start fuel k = some out →
      out.1 < F ∧ start ≠ out.1 := by
  intro fuel
  induction fuel with
  | zero =>
    intro k out h
    simp [resampleTarget] at h
  | succ fuel ih =>
    intro k out h
    rw [resampleTarget] at h
    split_ifs at h with hc
    · cases h
      exact ⟨Nat.mod_lt _ (by omega), hc⟩
    · exact ih h

theorem resampleTarget_term {r : Nat → Nat} {F start : Nat} :
    ∀ (n k : Nat), (∃ j, k ≤ j ∧ j ≤ k + n ∧ r j % F ≠ start) →
      ∃ out, resampleTarget r F start (n + 1) k = some out := by
  intro n
  induction n with
  | zero =>
    intro k hj
    obtain ⟨j, hj1, hj2, hj3⟩ := hj
    have hjk : j = k := by omega
    subst hjk
    refine ⟨(r j % F, j + 1), ?_⟩
    rw [resampleTarget, if_pos (fun he => hj3 he.symm)]
    rfl
  | succ n ih =>
    intro k hj
    by_cases hc : start ≠ randDraw r F k
    · exact ⟨(randDraw r F k, k + 1), by rw [resampleTarget, if_pos hc]⟩
    · push_neg at hc
      obtain ⟨j, hj1, hj2, hj3⟩ := hj
      have hjne : j ≠ k := by
        intro he
        subst he
        exact hj3 hc.symm
      obtain ⟨out, hout⟩ := ih (k + 1) ⟨j, by omega, by omega, hj3⟩
      refine ⟨out, ?_⟩
      rw [resampleTarget]
      rw [if_neg (not_not_intro hc)]
      exact hout

theorem generate_new_sim_mono {F : Nat} {r : Nat → Nat} :
    ∀ {m fuel fuel' i k : Nat} {ps : List Person},
      generate_new_sim F r fuel i m k = some ps → fuel ≤ fuel' →
      generate_new_sim F r fuel' i m k = some ps := by
  intro m
  induction m with
  | zero =>
    intro fuel fuel' i k ps h _
    simpa [generate_new_sim] using h
  | succ m ih =>
    intro fuel fuel' i k ps h hle
    rw [generate_new_sim] at h ⊢
    cases hres : resampleTarget r F (randDraw r F k) fuel (k + 1) with
    | none =>
      rw [hres] at h
      cases h
    | some tk =>
      obtain ⟨t, k2⟩ := tk
      simp only [hres] at h
      have hres' := resampleTarget_mono hres hle
      simp only [hres']
      cases hrec : generate_new_sim F r fuel (i + 1) m k2 with
      | none =>
        simp only [hrec] at h
        cases h
      | some rest =>
        simp only [hrec] at h
        simp only [ih hrec hle]
        exact h

theorem generate_new_sim_term {F : Nat} {r : Nat → Nat}
    (hF : 2 ≤ F) (hfair : FairStream r F) :
    ∀ (m i k : Nat), ∃ fuel ps, generate_new_sim F r fuel i m k = some ps := by
  intro m
  induction m with
  | zero =>
    intro i k
    exact ⟨0, [], rfl⟩
  | succ m ih =>
    intro i k
    obtain ⟨j, hj1, hj2⟩ := hfair (k + 1) (randDraw r F k)
    obtain ⟨tk, hres⟩ := resampleTarget_term (j - (k + 1)) (k + 1)
      ⟨j, hj1, by omega, hj2⟩
    obtain ⟨t, k2⟩ := tk
    obtain ⟨fuel2, rest, hrec⟩ := ih (i + 1) k2
    refine ⟨max (j - (k + 1) + 1) fuel2,
      ⟨i, (randDraw r F k : Int), (t : Int), (randDraw r F k : Int), false,
        if (t : Int) - (randDraw r F k : Int) > 0 then LDir.Up else LDir.Down⟩
        :: rest, ?_⟩
    rw [generate_new_sim]
    simp only [resampleTarget_mono hres (le_max_left _ _)]
    simp only [generate_new_sim_mono hrec (le_max_right _ _)]
    rfl

theorem generate_new_sim_props {F : Nat} {r : Nat → Nat} (hF : 2 ≤ F) :
    ∀ {m fuel i k : Nat} {ps : List Person},
      generate_new_sim F r fuel i m k = some ps →
      ps.map Person.id = List.range' i m ∧ ∀ p ∈ ps, ValidPerson F p := by
  intro m
  induction m with
  | zero =>
    intro fuel i k ps h
    have : ps = [] := by simpa [generate_new_sim] using h.symm
    subst this
    exact ⟨rfl, by simp⟩
  | succ m ih =>
    intro fuel i k ps h
    rw [generate_new_sim] at h
    cases hres : resampleTarget r F (randDraw r F k) fuel (k + 1) with
    | none =>
      rw [hres] at h
      cases h
    | some tk =>
      obtain ⟨t, k2⟩ := tk
      simp only [hres] at h
      cases hrec : generate_new_sim F r fuel (i + 1) m k2 with
      | none =>
        simp only [hrec] at h
        cases h
      | some rest =>
        simp only [hrec, Option.map_some'] at h
        cases h
        obtain ⟨hid, hval⟩ := ih hrec
        obtain ⟨ht, hne⟩ := resampleTarget_props hF hres
        have hs : randDraw r F k < F := Nat.mod_lt _ (by omega)
        constructor
        · show i :: rest.map Person.id = List.range' i (m + 1)
          rw [hid, List.range'_succ]
        · intro p hp
          rcases List.mem_cons.mp hp with hp | hp
          · subst hp
            have ht' : t < F := ht
            have hne' : randDraw r F k ≠ t := hne
            refine ⟨⟨?_, ?_, ?_, ?_, ?_, ?_⟩, rfl, rfl⟩
            · show (0 : Int) ≤ (randDraw r F k : Int)
              exact Int.ofNat_nonneg _
            · show ((randDraw r F k : Int)) < (F : Int)
              exact_mod_cast hs
            · show (0 : Int) ≤ (t : Int)
              exact Int.ofNat_nonneg _
            · show ((t : Int)) < (F : Int)
              exact_mod_cast ht'
            · show ((randDraw r F k : Int)) ≠ (t : Int)
              intro he
              exact hne' (by exact_mod_cast he)
            · rfl
          · exact hval p hp

/-- C7: for every `num_people ≥ 1` and `num_floors ≥ 2`, and every
pseudo-random stream satisfying the fairness property (from any position on,
the stream eventually produces a value differing modulo `num_floors` from
any given one — the property that makes the source's rejection sampling
terminate, and that a uniform generator has with probability 1), the
passenger generator terminates and produces exactly `num_people` records
with ids `0..num_people-1` in order, each with `start_floor` and
`target_floor` in `[0, num_floors)`, `start_floor ≠ target_floor`,
`current_floor = start_floor`, `delivered = false` and the direction derived
as `Up` exactly when `target_floor > start_floor`, else `Down`. -/
theorem generator_contract {F m : Nat} {r : Nat → Nat} (hF : 2 ≤ F)
    (hm : 1 ≤ m) (hfair : FairStream r F) :
    ∃ fuel ps, generate_new_sim F r fuel 0 m 0 = some ps ∧
      ps.length = m ∧ ps.map Person.id = List.range m ∧
      ∀ p ∈ ps, ValidPerson F p := by
  obtain ⟨fuel, ps, hgen⟩ := generate_new_sim_term hF hfair m 0 0
  obtain ⟨hid, hval⟩ := generate_new_sim_props hF hgen
  refine ⟨fuel, ps, hgen, ?_, ?_, hval⟩
  · have := congrArg List.length hid
    simpa using this
  · rw [hid, List.range_eq_range']

theorem generator_contract_witness :
    FairStream (fun j => j) 2 ∧
    ∃ fuel ps, generate_new_sim 2 (fun j => j) fuel 0 1 0 = some ps ∧
      ps.length = 1 ∧ ps.map Person.id = List.range 1 ∧
      ∀ p ∈ ps, ValidPerson 2 p := by
  have hfair : FairStream (fun j => j) 2 := by
    intro k v
    by_cases hv : v = 0
    · refine ⟨2 * k + 1, by omega, ?_⟩
      show (2 * k + 1) % 2 ≠ v
      subst hv
      omega
    · refine ⟨2 * k, by omega, ?_⟩
      show (2 * k) % 2 ≠ v
      omega
  exact ⟨hfair, generator_contract (by decide) (by decide) hfair⟩
